import Mathlib

/-! # fat32recover.c: a shallow embedding

The program maps a FAT32 image into memory and works on it through two packed
structs (`BootEntry`, `DirEntry`) and the array of FAT start addresses. Embedded here:
list mode (`listMode`), the recovery of a contiguous file (`contRecover`) and the
block of the possibly non-contiguous recovery (`nonContRecover`).

* The mapped image is a total map from byte offsets to bytes; a struct field is
  read at its packed offset, little-endian.
* `unsigned int` is 32 bits wide and is written with an explicit `% 2 ^ 32`;
  `size_t` and pointers are 64 bits wide and never wrap here.
* A `char` of the file name is an `Int` (its value after integer promotion, whatever
  the signedness of `char`); a byte of the image is a `Fin 256`, read as a `Nat`. Where a
  byte becomes a `char` (`shownName`) both signednesses are given.
* A file name is a C string: it holds no NUL.
* A loop is a structural recursion on a count of the tests that are left; the walk of
  the directory chain, which the program does not bound, takes that count as an argument.
* Where the program leaves defined C (no `fatAddressArr[j]`, a `double` out of the range
  of `int`, more candidates than `dirEntryArr` holds) the run has no result (`none`).
* `SHA1` is a parameter.
-/

namespace Fat32Recover

/-! ## The mapped image -/

/-- One byte of the image. -/
abbrev Byte := Fin 256

/-- The mapped image: `mapped_address[a]` for every byte offset `a`. -/
abbrev Image := Nat → Byte

/-- Read an `unsigned char` at offset `a`. -/
def rd8 (m : Image) (a : Nat) : Nat := (m a).val

/-- Read a little-endian `unsigned short` at offset `a`. -/
def rd16 (m : Image) (a : Nat) : Nat := rd8 m a + 256 * rd8 m (a + 1)

/-- Read a little-endian `unsigned int` at offset `a`. -/
def rd32 (m : Image) (a : Nat) : Nat :=
  rd8 m a + 256 * rd8 m (a + 1) + 65536 * rd8 m (a + 2) + 16777216 * rd8 m (a + 3)

/-- Store an `unsigned char` (the value is reduced modulo 256). -/
def wr8 (m : Image) (a v : Nat) : Image := fun x => if x = a then Fin.ofNat v else m x

/-- Store a little-endian `unsigned int` (the value is reduced modulo `2 ^ 32`). -/
def wr32 (m : Image) (a v : Nat) : Image :=
  wr8 (wr8 (wr8 (wr8 m a v) (a + 1) (v / 256)) (a + 2) (v / 65536)) (a + 3) (v / 16777216)

/-- An image given by its leading bytes; every later byte is zero. -/
def imageOfList (l : List Nat) : Image := fun a => Fin.ofNat (l.getD a 0)

/-- An image given by the offsets of its non-zero bytes. -/
def imageOfSparse (l : List (Nat × Nat)) : Image := fun a => Fin.ofNat ((l.lookup a).getD 0)

/-! ## `BootEntry` (packed), read through `fatEntry = mapped_address` -/

def BPB_BytsPerSec (m : Image) : Nat := rd16 m 11
def BPB_SecPerClus (m : Image) : Nat := rd8 m 13
def BPB_RsvdSecCnt (m : Image) : Nat := rd16 m 14
def BPB_NumFATs (m : Image) : Nat := rd8 m 16
def BPB_FATSz32 (m : Image) : Nat := rd32 m 36
def BPB_RootClus (m : Image) : Nat := rd32 m 44

/-! ## `DirEntry` (packed, 32 bytes), read through a pointer `e` into the image -/

/-- The byte `dirEntry->DIR_Name[i]`. The struct is packed, so an index past 10 reads
the bytes that follow the name field. -/
def DIR_Name (m : Image) (e i : Nat) : Nat := rd8 m (e + i)
def DIR_Attr (m : Image) (e : Nat) : Nat := rd8 m (e + 11)
def DIR_FstClusHI (m : Image) (e : Nat) : Nat := rd16 m (e + 20)
def DIR_FstClusLO (m : Image) (e : Nat) : Nat := rd16 m (e + 26)
def DIR_FileSize (m : Image) (e : Nat) : Nat := rd32 m (e + 28)

/-- The value of `startingCluster = (highPart << 16) | lowPart`. -/
def startingClusterOf (m : Image) (e : Nat) : Nat :=
  ((DIR_FstClusHI m e <<< 16) % 2 ^ 32) ||| DIR_FstClusLO m e

/-! ## The file-name matcher (lines 220-252) -/

/-- The loop `for (i = 1; i < dltFileNameLen; i++)` over the base name. The first
argument counts the loop tests that are left; the result is `namePassed != 0` and the
value of `i` when the loop is left. -/
def nameLoop (dltFile : List Int) (m : Image) (e : Nat) : Nat → Nat → Bool × Nat
  | 0, i => (false, i)
  | n + 1, i =>
    if i < dltFile.length then
      if dltFile.getD i 0 = 46 then
        (decide (i = 8 ∨ DIR_Name m e i = 32), i)
      else if dltFile.getD i 0 ≠ (DIR_Name m e i : Int) then
        (false, i)
      else if (i : Int) = (dltFile.length : Int) - 1 then
        (true, i)
      else nameLoop dltFile m e n (i + 1)
    else (false, i)

/-- The loop `for (; i < dltFileNameLen; i++)` over the extension; the result is the
pair `(i, j)` when the loop is left. -/
def extLoop (dltFile : List Int) (m : Image) (e : Nat) : Nat → Nat → Nat → Nat × Nat
  | 0, i, j => (i, j)
  | n + 1, i, j =>
    if i < dltFile.length then
      if dltFile.getD i 0 ≠ (DIR_Name m e j : Int) then (i, j)
      else extLoop dltFile m e n (i + 1) (j + 1)
    else (i, j)

/-- The value of `extpassed != 0` after the block `if (namePassed) { ... }`, entered
with the value `i` that the base-name loop left. -/
def extPassed (dltFile : List Int) (m : Image) (e i : Nat) : Bool :=
  let r := extLoop dltFile m e dltFile.length (i + 1) 8
  decide (r.1 = dltFile.length) && decide (r.2 = 11 ∨ DIR_Name m e r.2 = 32)

/-- The test of line 248, which passes a one-character name. -/
def autoPass (dltFile : List Int) (m : Image) (e : Nat) : Bool :=
  decide (dltFile.length = 1) && decide (DIR_Name m e 1 = 32) && decide (DIR_Name m e 8 = 32)

/-- The Filename Matcher: the entry at `e` is stored as a candidate, i.e. the test of
line 220 holds and `namePassed && extpassed` holds at line 252. -/
def matchEntry (dltFile : List Int) (m : Image) (e : Nat) : Bool :=
  decide (DIR_Name m e 0 = 0xe5) &&
    (let np := nameLoop dltFile m e dltFile.length 1
     let namePassed := np.1 || autoPass dltFile m e
     let extpassed := (np.1 && extPassed dltFile m e np.2) || autoPass dltFile m e
     namePassed && extpassed)

/-! ## Cluster and FAT addresses -/

/-- Reduction to an `unsigned int`. -/
def u32 (x : Nat) : Nat := x % 2 ^ 32

/-- The offset `((n - 2)*BPB_SecPerClus + BPB_RsvdSecCnt + (BPB_NumFATs*BPB_FATSz32))
*BPB_BytsPerSec` of lines 146, 210 and 272, every operation in `unsigned int`. -/
def clusterOffset (m : Image) (n : Nat) : Nat :=
  u32 (u32 (u32 (u32 (u32 (n + (2 ^ 32 - 2)) * BPB_SecPerClus m) + BPB_RsvdSecCnt m)
    + u32 (BPB_NumFATs m * BPB_FATSz32 m)) * BPB_BytsPerSec m)

/-- The offset `fatOffset` of FAT copy `i` (line 128). The first product is computed in
`int` and the sum in `unsigned int`; an `int` that overflows is taken to wrap. -/
def fatOffset (m : Image) (i : Nat) : Nat :=
  u32 (BPB_RsvdSecCnt m * BPB_BytsPerSec m + u32 (u32 (BPB_FATSz32 m * i) * BPB_BytsPerSec m))

/-- The array `fatAddressArr`, filled once at line 127 from the image as it was mapped. -/
def fatAddressArr (m : Image) : List Nat := (List.range (BPB_NumFATs m)).map (fatOffset m)

/-- The entry `fatAddressArr[j][i]` of the image `m`, for the array `arr`. -/
def fatEntryAt (arr : List Nat) (m : Image) (j i : Nat) : Option Nat :=
  (arr[j]?).map (fun fa => rd32 m (fa + 4 * i))

/-! ## The directory scan (lines 208-261) -/

/-- The number `(BPB_SecPerClus*BPB_BytsPerSec)/sizeof(DirEntry)` of entries of a cluster. -/
def entriesPerCluster (m : Image) : Nat := BPB_SecPerClus m * BPB_BytsPerSec m / 32

/-- The loop `while (dirEntry->DIR_Name[0] != 0x00)` over the entries of one cluster,
from the entry at `a` on. The first argument is the bound of line 217 minus
`clusterCount`; the result is the list of the entries that `sel` accepts (the entries
stored in `dirEntryArr`, for `sel = matchEntry dltFile`), in the order of the scan. -/
def scanEntries (sel : Image → Nat → Bool) (m : Image) : Nat → Nat → List Nat
  | 0, _ => []
  | n + 1, a =>
    if DIR_Name m a 0 = 0 then []
    else (if sel m a then [a] else []) ++ scanEntries sel m n (a + 32)

/-- The loop `while (currentAddress < 0x0ffffff8 && currentAddress != 0x00)` over the
clusters of the root directory. The loop has no bound of its own, so the first argument
bounds the number of clusters visited: `none` when it does not suffice (or when there is
no `fatAddressArr[0]`). -/
def scanDir (sel : Image → Nat → Bool) (m : Image) : Nat → Nat → Option (List Nat)
  | 0, _ => none
  | fuel + 1, currentAddress =>
    if currentAddress < 0x0ffffff8 ∧ currentAddress ≠ 0 then
      match fatEntryAt (fatAddressArr m) m 0 currentAddress with
      | none => none
      | some next =>
        (scanDir sel m fuel next).map
          (fun found => scanEntries sel m (entriesPerCluster m) (clusterOffset m currentAddress)
            ++ found)
    else some []

/-- The clusters that the loop of `scanDir` visits, in order. -/
def dirChain (m : Image) : Nat → Nat → Option (List Nat)
  | 0, _ => none
  | fuel + 1, currentAddress =>
    if currentAddress < 0x0ffffff8 ∧ currentAddress ≠ 0 then
      match fatEntryAt (fatAddressArr m) m 0 currentAddress with
      | none => none
      | some next => (dirChain m fuel next).map (fun l => currentAddress :: l)
    else some []

/-- The selector that keeps every entry the scan visits. -/
def anyEntry : Image → Nat → Bool := fun _ _ => true

/-! ## Candidate resolution and chain reconstruction (lines 262-335) -/

/-- The `n` bytes at offset `a`, the data handed to `SHA1`. -/
def readBytes (m : Image) (a n : Nat) : List Byte := (List.range n).map (fun i => m (a + i))

/-- The digest `md` that line 273 computes for the candidate at `d`: `SHA1` of the
`DIR_FileSize` bytes at the offset of its starting cluster. -/
def contentDigest {H : Type} (sha : List Byte → H) (m : Image) (d : Nat) : H :=
  sha (readBytes m (clusterOffset m (startingClusterOf m d)) (DIR_FileSize m d))

/-- The loop `for (i = 0; i < fileFound; i++)` of line 268 over the stored candidates:
the first whose content has the digest `providedSHA`, with the value of
`startingCluster` at the `break`. -/
def shaLoop {H : Type} [DecidableEq H] (sha : List Byte → H) (providedSHA : H) (m : Image) :
    List Nat → Option (Nat × Nat)
  | [] => none
  | d :: rest =>
    if contentDigest sha m d = providedSHA then some (d, startingClusterOf m d)
    else shaLoop sha providedSHA m rest

/-- The number of clusters of the file of the entry at `e`: the integer ceiling of
`DIR_FileSize / (BPB_BytsPerSec * BPB_SecPerClus)`, for a divisor that is not zero. -/
def fileClusters (m : Image) (e : Nat) : Nat :=
  (DIR_FileSize m e + BPB_BytsPerSec m * BPB_SecPerClus m - 1)
    / (BPB_BytsPerSec m * BPB_SecPerClus m)

/-- The value of `clusterNum = ceil((double) DIR_FileSize/(BPB_BytsPerSec*BPB_SecPerClus))`.
The size is below `2 ^ 32` and the divisor below `2 ^ 24`, so the quotient in `double`
is never rounded across an integer and `ceil` gives the exact integer ceiling. The
conversion to `int` is undefined for a zero divisor and for a value of `2 ^ 31` or more:
`none`. -/
def clusterNumOf (m : Image) (e : Nat) : Option Nat :=
  if BPB_BytsPerSec m * BPB_SecPerClus m = 0 then none
  else if fileClusters m e < 2 ^ 31 then some (fileClusters m e) else none

/-- The loop `for (j = 0; j < fatEntry->BPB_NumFATs; j++) fatAddressArr[j][idx] = val`.
`BPB_NumFATs` is read from the image at every test; it is a byte, so 256 tests (the first
argument) always suffice. `none` when `j` leaves the array. -/
def fatLoop (arr : List Nat) (idx val : Nat) : Nat → Nat → Image → Option Image
  | 0, _, m => some m
  | n + 1, j, m =>
    if j < BPB_NumFATs m then
      match arr[j]? with
      | none => none
      | some fa => fatLoop arr idx val n (j + 1) (wr32 m (fa + 4 * idx) val)
    else some m

/-- The loop `for (k = 0; k < clusterNum; k++)` that restores the chain: `EOF`, i.e.
`0xffffffff`, for the last cluster and `startingCluster + 1` for the others. The first
numeric argument is `clusterNum - k`. -/
def chainLoop (arr : List Nat) (clusterNum : Nat) : Nat → Nat → Nat → Image → Option Image
  | 0, _, _, m => some m
  | n + 1, k, startingCluster, m =>
    match fatLoop arr startingCluster
        (if k = clusterNum - 1 then 0xffffffff else u32 (startingCluster + 1)) 256 0 m with
    | none => none
    | some m1 => chainLoop arr clusterNum n (k + 1) (u32 (startingCluster + 1)) m1

/-- The byte stored by `DIR_Name[0] = deletedFile[0]`. -/
def firstChar (dltFile : List Int) : Nat := Int.toNat (dltFile.getD 0 0 % 256)

/-- Lines 281-295 and 313-327: restore the first name byte of the entry at `e`, then the
chain from `startingCluster`. -/
def restore (arr : List Nat) (dltFile : List Int) (m : Image) (e startingCluster : Nat) :
    Option Image :=
  match clusterNumOf (wr8 m e (firstChar dltFile)) e with
  | none => none
  | some clusterNum =>
    chainLoop arr clusterNum clusterNum 0 startingCluster (wr8 m e (firstChar dltFile))

/-- The line the program prints. -/
inductive Diag where
  | recovered
  | recoveredSha
  | notFound
  | multiple
  deriving DecidableEq, Repr

/-- The end of a run: the line printed, the exit status, the image, and the entry that
was handed to the chain reconstruction, if any. -/
structure Result where
  diag : Diag
  exit : Nat
  image : Image
  selected : Option Nat

/-- Lines 262-335, from the stored candidates. With no candidate the program prints
and runs to the end of `main`, which returns 0. -/
def resolve {H : Type} [DecidableEq H] (sha : List Byte → H) (providedSHA : Option H)
    (dltFile : List Int) (m : Image) (arr : List Nat) (cands : List Nat) : Option Result :=
  match cands with
  | [] => some ⟨Diag.notFound, 0, m, none⟩
  | first :: _ =>
    if 1 < cands.length ∨ providedSHA.isSome = true then
      match providedSHA with
      | some h =>
        match shaLoop sha h m cands with
        | some (confirmDirEntry, startingCluster) =>
          (restore arr dltFile m confirmDirEntry startingCluster).map
            (fun m1 => ⟨Diag.recoveredSha, 0, m1, some confirmDirEntry⟩)
        | none => some ⟨Diag.notFound, 1, m, none⟩
      | none => some ⟨Diag.multiple, 1, m, none⟩
    else
      (restore arr dltFile m first (startingClusterOf m first)).map
        (fun m1 => ⟨Diag.recovered, 0, m1, some first⟩)

/-- The run `-r dltFile [-s providedSHA]`. `dirEntryArr` has 100 places: a scan that
stores more than 100 candidates overruns it, and the run has no defined result. -/
def contRecover {H : Type} [DecidableEq H] (sha : List Byte → H) (providedSHA : Option H)
    (dltFile : List Int) (m : Image) (fuel : Nat) : Option Result :=
  match scanDir (matchEntry dltFile) m fuel (BPB_RootClus m) with
  | none => none
  | some cands =>
    if 100 < cands.length then none
    else resolve sha providedSHA dltFile m (fatAddressArr m) cands

/-! ## The block of `-R` (lines 336-468) -/

namespace NonCont

/-- The loop of line 354. -/
def nameLoop (dltFile : List Int) (m : Image) (e : Nat) : Nat → Nat → Bool × Nat
  | 0, i => (false, i)
  | n + 1, i =>
    if i < dltFile.length then
      if dltFile.getD i 0 = 46 then
        (decide (i = 8 ∨ DIR_Name m e i = 32), i)
      else if dltFile.getD i 0 ≠ (DIR_Name m e i : Int) then
        (false, i)
      else if (i : Int) = (dltFile.length : Int) - 1 then
        (true, i)
      else nameLoop dltFile m e n (i + 1)
    else (false, i)

/-- The loop of line 371. -/
def extLoop (dltFile : List Int) (m : Image) (e : Nat) : Nat → Nat → Nat → Nat × Nat
  | 0, i, j => (i, j)
  | n + 1, i, j =>
    if i < dltFile.length then
      if dltFile.getD i 0 ≠ (DIR_Name m e j : Int) then (i, j)
      else extLoop dltFile m e n (i + 1) (j + 1)
    else (i, j)

/-- Lines 353-388: the entry at `e` is stored as a candidate. -/
def matchEntry (dltFile : List Int) (m : Image) (e : Nat) : Bool :=
  decide (DIR_Name m e 0 = 0xe5) &&
    (let np := nameLoop dltFile m e dltFile.length 1
     let r := extLoop dltFile m e dltFile.length (np.2 + 1) 8
     let auto := decide (dltFile.length = 1) && decide (DIR_Name m e 1 = 32)
       && decide (DIR_Name m e 8 = 32)
     let namePassed := np.1 || auto
     let extpassed := (np.1 && (decide (r.1 = dltFile.length)
       && decide (r.2 = 11 ∨ DIR_Name m e r.2 = 32))) || auto
     namePassed && extpassed)

/-- The loop of line 346 over the entries of one cluster. -/
def scanEntries (dltFile : List Int) (m : Image) : Nat → Nat → List Nat
  | 0, _ => []
  | n + 1, a =>
    if DIR_Name m a 0 = 0 then []
    else (if matchEntry dltFile m a then [a] else []) ++ scanEntries dltFile m n (a + 32)

/-- The loop of line 341 over the clusters of the root directory. -/
def scanDir (dltFile : List Int) (m : Image) : Nat → Nat → Option (List Nat)
  | 0, _ => none
  | fuel + 1, currentAddress =>
    if currentAddress < 0x0ffffff8 ∧ currentAddress ≠ 0 then
      match fatEntryAt (fatAddressArr m) m 0 currentAddress with
      | none => none
      | some next =>
        (scanDir dltFile m fuel next).map
          (fun found => scanEntries dltFile m (entriesPerCluster m) (clusterOffset m currentAddress)
            ++ found)
    else some []

/-- The loop of line 401 over the stored candidates. -/
def shaLoop {H : Type} [DecidableEq H] (sha : List Byte → H) (providedSHA : H) (m : Image) :
    List Nat → Option (Nat × Nat)
  | [] => none
  | d :: rest =>
    if contentDigest sha m d = providedSHA then some (d, startingClusterOf m d)
    else shaLoop sha providedSHA m rest

/-- The loops of lines 418 and 423 (and 450, 455) over the FAT copies. -/
def fatLoop (arr : List Nat) (idx val : Nat) : Nat → Nat → Image → Option Image
  | 0, _, m => some m
  | n + 1, j, m =>
    if j < BPB_NumFATs m then
      match arr[j]? with
      | none => none
      | some fa => fatLoop arr idx val n (j + 1) (wr32 m (fa + 4 * idx) val)
    else some m

/-- The loop of line 416 (and 448) that restores the chain. -/
def chainLoop (arr : List Nat) (clusterNum : Nat) : Nat → Nat → Nat → Image → Option Image
  | 0, _, _, m => some m
  | n + 1, k, startingCluster, m =>
    match fatLoop arr startingCluster
        (if k = clusterNum - 1 then 0xffffffff else u32 (startingCluster + 1)) 256 0 m with
    | none => none
    | some m1 => chainLoop arr clusterNum n (k + 1) (u32 (startingCluster + 1)) m1

/-- Lines 414-428 and 446-460. -/
def restore (arr : List Nat) (dltFile : List Int) (m : Image) (e startingCluster : Nat) :
    Option Image :=
  match clusterNumOf (wr8 m e (firstChar dltFile)) e with
  | none => none
  | some clusterNum =>
    chainLoop arr clusterNum clusterNum 0 startingCluster (wr8 m e (firstChar dltFile))

/-- Lines 395-467, from the stored candidates. -/
def resolve {H : Type} [DecidableEq H] (sha : List Byte → H) (providedSHA : Option H)
    (dltFile : List Int) (m : Image) (arr : List Nat) (cands : List Nat) : Option Result :=
  match cands with
  | [] => some ⟨Diag.notFound, 0, m, none⟩
  | first :: _ =>
    if 1 < cands.length ∨ providedSHA.isSome = true then
      match providedSHA with
      | some h =>
        match shaLoop sha h m cands with
        | some (confirmDirEntry, startingCluster) =>
          (restore arr dltFile m confirmDirEntry startingCluster).map
            (fun m1 => ⟨Diag.recoveredSha, 0, m1, some confirmDirEntry⟩)
        | none => some ⟨Diag.notFound, 1, m, none⟩
      | none => some ⟨Diag.multiple, 1, m, none⟩
    else
      (restore arr dltFile m first (startingClusterOf m first)).map
        (fun m1 => ⟨Diag.recovered, 0, m1, some first⟩)

end NonCont

/-- The run `-R dltFile -s providedSHA`: the block of lines 336-468, which the program
enters with `currentAddress` still `BPB_RootClus`, the block of `-r` being skipped. -/
def nonContRecover {H : Type} [DecidableEq H] (sha : List Byte → H) (providedSHA : Option H)
    (dltFile : List Int) (m : Image) (fuel : Nat) : Option Result :=
  match NonCont.scanDir dltFile m fuel (BPB_RootClus m) with
  | none => none
  | some cands =>
    if 100 < cands.length then none
    else NonCont.resolve sha providedSHA dltFile m (fatAddressArr m) cands

/-! ## List mode (lines 143-202) -/

/-- The test of line 162 negated: the entry is not skipped, i.e. its first name byte is not
`0xe5` and `DIR_Attr & 0x0f` is zero. -/
def isListed (m : Image) (a : Nat) : Bool :=
  !(decide (DIR_Name m a 0 = 0xe5) || decide (DIR_Attr m a &&& 0x0f ≠ 0))

/-- The loops `for (i = 0; i < 8 && DIR_Name[i] != ' '; i++)` of line 169 and
`for (j = 8; j < 11 && DIR_Name[j] != ' '; j++)` of line 181: the name bytes copied, from
index `i` on. The first numeric argument is the bound minus the index. -/
def copyName (m : Image) (a : Nat) : Nat → Nat → List Nat
  | 0, _ => []
  | n + 1, i => if DIR_Name m a i ≠ 32 then DIR_Name m a i :: copyName m a n (i + 1) else []

/-- The bytes of `totalFileName` before the terminating `'\0'` that lines 169-189 store. -/
def totalFileName (m : Image) (a : Nat) : List Nat :=
  if DIR_Attr m a &&& 0x10 ≠ 0 then copyName m a 8 0 ++ [47]
  else if DIR_Name m a 8 ≠ 32 then copyName m a 8 0 ++ [46] ++ copyName m a 3 8
  else copyName m a 8 0

/-- What `%s` prints of a buffer: its bytes up to the first `'\0'`. -/
def printed (l : List Nat) : List Nat := l.takeWhile (fun b => b ≠ 0)

/-- What `%d` prints of an `unsigned int`. -/
def asInt (v : Nat) : Int := if v < 2 ^ 31 then (v : Int) else (v : Int) - 2 ^ 32

/-- A line of the listing. -/
inductive Line where
  | dir (name : List Nat) (startingCluster : Int)
  | emptyFile (name : List Nat) (size : Int)
  | file (name : List Nat) (size : Int) (startingCluster : Int)
  deriving DecidableEq, Repr

/-- The line that lines 172-194 print for the entry at `a`. -/
def listLine (m : Image) (a : Nat) : Line :=
  if DIR_Attr m a &&& 0x10 ≠ 0 then
    Line.dir (printed (totalFileName m a)) (asInt (startingClusterOf m a))
  else if DIR_FileSize m a = 0 then
    Line.emptyFile (printed (totalFileName m a)) (asInt (DIR_FileSize m a))
  else
    Line.file (printed (totalFileName m a)) (asInt (DIR_FileSize m a))
      (asInt (startingClusterOf m a))

/-- The run `-l`: the lines of the listing, in order, and the value of `entryCount` that
the last line prints. The loops are those of the recovery scan, with the test of line 162 in
the place of the matcher. -/
def listMode (m : Image) (fuel : Nat) : Option (List Line × Nat) :=
  (scanDir isListed m fuel (BPB_RootClus m)).map (fun l => (l.map (listLine m), l.length))

/-! ## The cluster numbers the program translates -/

/-- The offset of cluster `n` as a natural number:
`((n - 2) * BPB_SecPerClus + BPB_RsvdSecCnt + BPB_NumFATs * BPB_FATSz32) * BPB_BytsPerSec`. -/
def natOffset (m : Image) (n : Nat) : Nat :=
  ((n - 2) * BPB_SecPerClus m + BPB_RsvdSecCnt m + BPB_NumFATs m * BPB_FATSz32 m)
    * BPB_BytsPerSec m

/-- The starting clusters for which line 272 computes an offset, in order: those of the
candidates that the loop of line 268 reaches. -/
def hashedClusters {H : Type} [DecidableEq H] (sha : List Byte → H) (providedSHA : H)
    (m : Image) : List Nat → List Nat
  | [] => []
  | d :: rest =>
    startingClusterOf m d ::
      (if contentDigest sha m d = providedSHA then [] else hashedClusters sha providedSHA m rest)

/-- The selector of the deleted entries: the test of line 220. -/
def isDeleted (m : Image) (a : Nat) : Bool := decide (DIR_Name m a 0 = 0xe5)

/-! ## The writes of a chain reconstruction, and the layout they rely on -/

/-- A sequence of `unsigned int` stores `(offset, value)`, done in order. -/
def applyWrites (m : Image) (ws : List (Nat × Nat)) : Image :=
  ws.foldl (fun m1 w => wr32 m1 w.1 w.2) m

/-- The stores of `chainLoop`, in order, for a `BPB_NumFATs` that stays the length of the
array. -/
def chainWrites (arr : List Nat) (clusterNum : Nat) : Nat → Nat → Nat → List (Nat × Nat)
  | 0, _, _ => []
  | n + 1, k, startingCluster =>
    arr.map (fun fa => (fa + 4 * startingCluster,
        if k = clusterNum - 1 then 0xffffffff else u32 (startingCluster + 1)))
      ++ chainWrites arr clusterNum n (k + 1) (u32 (startingCluster + 1))

/-- The entry `i` of FAT copy `j`: the `unsigned int` at `fatOffset j + 4 * i`. -/
def fatCopyEntry (m : Image) (j i : Nat) : Nat := rd32 m (fatOffset m j + 4 * i)

/-- The byte `x` of FAT copy `j`, the copy being the `BPB_FATSz32 * BPB_BytsPerSec` bytes
from `(BPB_RsvdSecCnt + j * BPB_FATSz32) * BPB_BytsPerSec` on. -/
def fatCopyByte (m : Image) (j x : Nat) : Byte :=
  m ((BPB_RsvdSecCnt m + j * BPB_FATSz32 m) * BPB_BytsPerSec m + x)

/-- The size in bytes of one FAT copy. -/
def fatBytes (m : Image) : Nat := BPB_FATSz32 m * BPB_BytsPerSec m

/-- The offset of the data region, the first byte after the last FAT copy. -/
def dataStart (m : Image) : Nat :=
  (BPB_RsvdSecCnt m + BPB_NumFATs m * BPB_FATSz32 m) * BPB_BytsPerSec m

/-- The layout of a volume whose FAT copies start after the boot-sector fields (the last
one the program reads ends at offset 48) and end below `2 ^ 32`. -/
def WellLaidOut (m : Image) : Prop :=
  48 ≤ BPB_RsvdSecCnt m * BPB_BytsPerSec m ∧ dataStart m < 2 ^ 32

/-- The cluster reached from cluster `s` by following FAT copy 0 for `k` steps. -/
def chainAt (m : Image) : Nat → Nat → Nat
  | 0, s => s
  | k + 1, s => fatCopyEntry m 0 (chainAt m k s)

/-- Following FAT copy 0 from `s` visits exactly the `c` clusters `s`, `s + 1`, ... and
then reaches an end-of-chain marker. -/
def ChainEndsAfter (m : Image) (s c : Nat) : Prop :=
  (∀ k, k < c → chainAt m k s = s + k ∧ s + k < 0x0ffffff8) ∧ 0x0ffffff8 ≤ chainAt m c s

/-! ## Concrete images -/

/-- The bytes `l` laid out from offset `a` on, for `imageOfSparse`. -/
def bytesAt (a : Nat) (l : List Nat) : List (Nat × Nat) :=
  (List.range l.length).map (fun i => (a + i, l.getD i 0))

/-- A little-endian `unsigned int` as four bytes. -/
def le32 (v : Nat) : List Nat := [v % 256, v / 256 % 256, v / 65536 % 256, v / 16777216 % 256]

/-- The boot-sector fields the program reads. -/
def bootBytes (bytsPerSec secPerClus rsvdSecCnt numFATs fatSz32 rootClus : Nat) :
    List (Nat × Nat) :=
  bytesAt 11 [bytsPerSec % 256, bytsPerSec / 256, secPerClus, rsvdSecCnt % 256,
    rsvdSecCnt / 256, numFATs] ++ bytesAt 36 (le32 fatSz32) ++ bytesAt 44 (le32 rootClus)

/-- A directory entry at offset `a`: eleven name bytes, the attribute, the starting cluster
and the size. -/
def entryBytes (a : Nat) (name : List Nat) (attr startingCluster fileSize : Nat) :
    List (Nat × Nat) :=
  bytesAt a name ++ [(a + 11, attr)]
    ++ bytesAt (a + 20) [startingCluster / 65536 % 256, startingCluster / 16777216 % 256]
    ++ bytesAt (a + 26) [startingCluster % 256, startingCluster / 256 % 256]
    ++ bytesAt (a + 28) (le32 fileSize)

/-- A toy digest for the concrete runs: the sum of the bytes. -/
def sumDigest (l : List Byte) : Nat := (l.map (fun b => b.val)).sum

/-- A 2048-byte volume: 512-byte sectors and clusters, one reserved sector, two FAT copies
of one sector at 512 and 1024, the root directory in cluster 2 at 1536. FAT entry 2 is an
end-of-chain marker in both copies. The root directory holds the deleted entry
`?ELLO   TXT` with starting cluster 3 and size 100. -/
def helloImage : Image :=
  imageOfSparse (bootBytes 512 1 1 2 1 2 ++ bytesAt 520 (le32 0x0fffffff)
    ++ bytesAt 1032 (le32 0x0fffffff)
    ++ entryBytes 1536 [0xe5, 69, 76, 76, 79, 32, 32, 32, 84, 88, 84] 0x20 3 100)

/-- The volume of `helloImage` with two deleted entries `?EST    TXT` in the root
directory: the first with starting cluster 3, whose one byte of content (at 2048) is 1,
the second with starting cluster 4, whose one byte of content (at 2560) is 2. -/
def testImage : Image :=
  imageOfSparse (bootBytes 512 1 1 2 1 2 ++ bytesAt 520 (le32 0x0fffffff)
    ++ bytesAt 1032 (le32 0x0fffffff)
    ++ entryBytes 1536 [0xe5, 69, 83, 84, 32, 32, 32, 32, 84, 88, 84] 0x20 3 1
    ++ entryBytes 1568 [0xe5, 69, 83, 84, 32, 32, 32, 32, 84, 88, 84] 0x20 4 1
    ++ [(2048, 1), (2560, 2)])

/-- The image `helloImage` after `HELLO.TXT` is recovered: the first name byte of the
entry at 1536 is `H`, and entry 3 of both FAT copies is `0xffffffff`. -/
def helloRecovered : Image :=
  wr32 (wr32 (wr8 helloImage 1536 72) 524 0xffffffff) 1036 0xffffffff

/-- A 3584-byte volume laid out as `helloImage`, with the root directory in cluster 5 at
3072 (FAT entry 5 is an end-of-chain marker in both copies). The root directory holds the
deleted entry `?IG     BIN` with starting cluster 6 and size 66048, i.e. 129 clusters, more
than the 128 entries of one FAT copy. -/
def overflowImage : Image :=
  imageOfSparse (bootBytes 512 1 1 2 1 5 ++ bytesAt 532 (le32 0x0fffffff)
    ++ bytesAt 1044 (le32 0x0fffffff)
    ++ entryBytes 3072 [0xe5, 73, 71, 32, 32, 32, 32, 32, 66, 73, 78] 0x20 6 66048)

/-- The file name `BIG.BIN`. -/
def bigName : List Int := [66, 73, 71, 46, 66, 73, 78]

/-- The image `helloImage` with one byte changed in FAT copy 1 only: byte 20 of the copy,
in its entry 5, is 1. -/
def unequalFatsImage : Image :=
  imageOfSparse (bootBytes 512 1 1 2 1 2 ++ bytesAt 520 (le32 0x0fffffff)
    ++ bytesAt 1032 (le32 0x0fffffff) ++ [(1044, 1)]
    ++ entryBytes 1536 [0xe5, 69, 76, 76, 79, 32, 32, 32, 84, 88, 84] 0x20 3 100)

/-- The volume of `helloImage` whose root directory holds the deleted entry
`?MPTY   TXT` of an empty file: starting cluster 0 and size 0. -/
def emptyFileImage : Image :=
  imageOfSparse (bootBytes 512 1 1 2 1 2 ++ bytesAt 520 (le32 0x0fffffff)
    ++ bytesAt 1032 (le32 0x0fffffff)
    ++ entryBytes 1536 [0xe5, 77, 80, 84, 89, 32, 32, 32, 84, 88, 84] 0x20 0 0)

/-- The file name `EMPTY.TXT`. -/
def emptyName : List Int := [69, 77, 80, 84, 89, 46, 84, 88, 84]

/-- A 2560-byte volume laid out as `helloImage` whose root directory is the chain of
clusters 2 and 3 (FAT entry 2 is 3, FAT entry 3 is an end-of-chain marker). Cluster 2, at
1536, is empty; cluster 3, at 2048, holds the deleted entry `?ELLO   TXT` with size 100,
whose starting cluster is cluster 2 of the directory itself. -/
def selfChainImage : Image :=
  imageOfSparse (bootBytes 512 1 1 2 1 2 ++ bytesAt 520 (le32 3) ++ bytesAt 524 (le32 0x0fffffff)
    ++ bytesAt 1032 (le32 3) ++ bytesAt 1036 (le32 0x0fffffff)
    ++ entryBytes 2048 [0xe5, 69, 76, 76, 79, 32, 32, 32, 84, 88, 84] 0x20 2 100)

/-- The volume of `helloImage` whose root directory holds one live entry, the read-only
file `README  TXT` (attribute `0x01`) with starting cluster 3 and size 10. -/
def readOnlyImage : Image :=
  imageOfSparse (bootBytes 512 1 1 2 1 2 ++ bytesAt 520 (le32 0x0fffffff)
    ++ bytesAt 1032 (le32 0x0fffffff)
    ++ entryBytes 1536 [82, 69, 65, 68, 77, 69, 32, 32, 84, 88, 84] 0x01 3 10)

/-- The volume of `readOnlyImage` with the attribute `0x20` (archive) in the place of
`0x01`. -/
def archiveImage : Image :=
  imageOfSparse (bootBytes 512 1 1 2 1 2 ++ bytesAt 520 (le32 0x0fffffff)
    ++ bytesAt 1032 (le32 0x0fffffff)
    ++ entryBytes 1536 [82, 69, 65, 68, 77, 69, 32, 32, 84, 88, 84] 0x20 3 10)

/-- A 2560-byte volume laid out as `helloImage`, whose deleted entry `?ELLO   TXT` of size
100 has the starting cluster 256: entry 256 of FAT copy 0, at `512 + 4 * 256`, is the first
four bytes of the directory entry itself, at 1536. -/
def aliasImage : Image :=
  imageOfSparse (bootBytes 512 1 1 2 1 2 ++ bytesAt 520 (le32 0x0fffffff)
    ++ bytesAt 1032 (le32 0x0fffffff)
    ++ entryBytes 1536 [0xe5, 69, 76, 76, 79, 32, 32, 32, 84, 88, 84] 0x20 256 100)

/-- A 1536-byte volume with the boot-sector fields of `helloImage` but root cluster 1: the
program locates cluster 1 at offset 1024, where FAT copy 1 starts. The 32 bytes there are
the deleted entry `?MPTY   TXT` of an empty file; FAT entry 1 of copy 0 is an end-of-chain
marker. -/
def rootOneImage : Image :=
  imageOfSparse (bootBytes 512 1 1 2 1 1 ++ bytesAt 516 (le32 0x0fffffff)
    ++ entryBytes 1024 [0xe5, 77, 80, 84, 89, 32, 32, 32, 84, 88, 84] 0x20 0 0)

/-- The boot-sector fields of a volume with 512-byte sectors, 8 sectors per cluster, 32
reserved sectors and 2 FAT copies of 2048 sectors: the data region starts at 2113536. -/
def wideImage : Image := imageOfSparse (bootBytes 512 8 32 2 2048 2)

/-- The volume of `helloImage` with FAT entry 2 equal to 2: the chain of the root directory
is a cycle. -/
def cycleImage : Image :=
  imageOfSparse (bootBytes 512 1 1 2 1 2 ++ bytesAt 520 (le32 2) ++ bytesAt 1032 (le32 2)
    ++ entryBytes 1536 [0xe5, 69, 76, 76, 79, 32, 32, 32, 84, 88, 84] 0x20 3 100)

/-- A 12288-byte volume with 512-byte sectors, 8 sectors per cluster (128 entries per
cluster), one reserved sector and two FAT copies of one sector; the root directory is
cluster 2 at 1536, alone in its chain. The first 101 entries of the directory have the first
name byte `0xe5` and every other byte a space. -/
def crowdedImage : Image := fun a =>
  if 1536 ≤ a ∧ a < 1536 + 101 * 32 then (if a % 32 = 0 then 0xe5 else 32)
  else imageOfSparse (bootBytes 512 8 1 2 1 2 ++ bytesAt 520 (le32 0x0fffffff)
    ++ bytesAt 1032 (le32 0x0fffffff)) a

/-- The file name `HELLO.TXT`. -/
def helloName : List Int := [72, 69, 76, 76, 79, 46, 84, 88, 84]

/-- The file name `hello.txt`. -/
def helloLower : List Int := [104, 101, 108, 108, 111, 46, 116, 120, 116]

/-- The file name `TEST.TXT`. -/
def testName : List Int := [84, 69, 83, 84, 46, 84, 88, 84]

/-- A directory entry alone in an image: its bytes from offset 0 on. -/
def entryImage (bytes : List Nat) : Image := imageOfList bytes

/-! ## The 8.3 form a file name is compared with -/

/-- The index of the first `'.'` of a string, or its length when it has none. -/
def dotFrom : List Int → Nat
  | [] => 0
  | c :: cs => if c = 46 then 0 else dotFrom cs + 1

/-- The index of the first `'.'` of the file name, searched from index 1 on; the length
of the name when there is none. -/
def dotIndex (f : List Int) : Nat := 1 + dotFrom (f.drop 1)

/-- The base part of the file name: the characters before that `'.'`. -/
def basePart (f : List Int) : List Int := f.take (dotIndex f)

/-- The extension part of the file name: the characters after that `'.'`. -/
def extPart (f : List Int) : List Int := f.drop (dotIndex f + 1)

/-- The space-padded 8.3 encoding of the file name `f` from position 1 on, as a property
of the entry at `e`: the first name byte is `0xE5`, the base and the extension stand at
name bytes 1.. and 8.., and every other name byte up to 10 is a space. -/
def Encodes83 (f : List Int) (m : Image) (e : Nat) : Prop :=
  DIR_Name m e 0 = 0xe5 ∧
  (∀ i, 1 ≤ i → i < (basePart f).length → (DIR_Name m e i : Int) = (basePart f).getD i 0) ∧
  (∀ i, (basePart f).length ≤ i → i ≤ 7 → DIR_Name m e i = 32) ∧
  (∀ t, t < (extPart f).length → (DIR_Name m e (8 + t) : Int) = (extPart f).getD t 0) ∧
  (∀ i, 8 + (extPart f).length ≤ i → i ≤ 10 → DIR_Name m e i = 32)

/-! ## The name list mode shows, as a file name for the matcher -/

/-- The value of a `char` that holds the byte `b` where `char` is signed: the bytes from
`0x80` on are negative. -/
def signedChar (b : Nat) : Int := if b < 128 then (b : Int) else (b : Int) - 256

/-- The value of a `char` that holds the byte `b` where `char` is unsigned. -/
def unsignedChar (b : Nat) : Int := (b : Int)

/-- The file name that list mode shows for the entry at `a`, as the characters of a
command-line argument: the bytes that `%s` prints of `totalFileName`, each one held in a
`char` (whose value `toChar` gives). -/
def shownName (toChar : Nat → Int) (m : Image) (a : Nat) : List Int :=
  (printed (totalFileName m a)).map toChar

/-- A well-formed short file entry at `a`, with a base of `nb` bytes and an extension of
`nx` bytes: not a directory; the base is 1 to 8 bytes that are neither a space nor a dot,
followed by spaces up to 8; the extension is 0 to 3 such bytes, followed by spaces up to
3. -/
def WellFormedShort (m : Image) (a nb nx : Nat) : Prop :=
  DIR_Attr m a &&& 0x10 = 0 ∧ 1 ≤ nb ∧ nb ≤ 8 ∧ nx ≤ 3 ∧
  (∀ i, i < nb → DIR_Name m a i ≠ 32 ∧ DIR_Name m a i ≠ 46) ∧
  (∀ i, i < 8 → nb ≤ i → DIR_Name m a i = 32) ∧
  (∀ t, t < nx → DIR_Name m a (8 + t) ≠ 32 ∧ DIR_Name m a (8 + t) ≠ 46) ∧
  (∀ t, t < 3 → nx ≤ t → DIR_Name m a (8 + t) = 32)

instance (m : Image) (a nb nx : Nat) : Decidable (WellFormedShort m a nb nx) := by
  unfold WellFormedShort
  infer_instance

/-- The name of a well-formed short file entry in the familiar format: the base, then a dot
and the extension when the extension is not empty. -/
def renderedName (m : Image) (a nb nx : Nat) : List Nat :=
  (List.range nb).map (DIR_Name m a) ++
    (if nx = 0 then [] else 46 :: (List.range nx).map (fun t => DIR_Name m a (8 + t)))

/-- A directory entry of a file, with the name bytes `A`, NUL and six spaces and the
extension `TXT`, and the attribute `0x20`. -/
def nulNameEntry : Image := entryImage [65, 0, 32, 32, 32, 32, 32, 32, 84, 88, 84, 0x20]

/-- A directory entry of a file, with the name bytes `C`, `A`, `F`, `0x90` and four spaces
and the extension `TXT`, and the attribute `0x20`. -/
def highByteEntry : Image := entryImage [67, 65, 70, 0x90, 32, 32, 32, 32, 84, 88, 84, 0x20]

/-! # Theorems -/

/-! ## The matcher -/

theorem dotFrom_le (l : List Int) : dotFrom l ≤ l.length := by
  induction l with
  | nil => simp [dotFrom]
  | cons c cs ih =>
    simp only [dotFrom, List.length_cons]
    split <;> omega

theorem dotFrom_unique (l : List Int) :
    ∀ d, d ≤ l.length → (∀ t, t < d → l.getD t 0 ≠ 46) → (d < l.length → l.getD d 0 = 46) →
      dotFrom l = d := by
  induction l with
  | nil => intro d hd _ _; simp at hd; simp [dotFrom, hd]
  | cons c cs ih =>
    intro d hd hbefore hat
    cases d with
    | zero =>
      have h0 := hat (by simp)
      simp at h0
      simp [dotFrom, h0]
    | succ d =>
      have hc : c ≠ 46 := by simpa using hbefore 0 (by omega)
      simp only [dotFrom, hc, if_false]
      have := ih d (by simpa using hd)
        (fun t ht => by simpa using hbefore (t + 1) (by omega))
        (fun h => by simpa using hat (by simpa using h))
      omega

theorem getD_drop_one (f : List Int) (t : Nat) : (f.drop 1).getD t 0 = f.getD (t + 1) 0 := by
  cases f with
  | nil => simp
  | cons c cs => simp

/-- The index the base-name loop stops at with `namePassed` set. -/
theorem nameLoop_true (f : List Int) (m : Image) (e : Nat) :
    ∀ n i i', nameLoop f m e n i = (true, i') →
      i ≤ i' ∧ i' < f.length ∧
      (∀ t, i ≤ t → t < i' → f.getD t 0 ≠ 46 ∧ f.getD t 0 = (DIR_Name m e t : Int)) ∧
      ((f.getD i' 0 = 46 ∧ (i' = 8 ∨ DIR_Name m e i' = 32)) ∨
        (f.getD i' 0 ≠ 46 ∧ f.getD i' 0 = (DIR_Name m e i' : Int) ∧ i' + 1 = f.length)) := by
  intro n
  induction n with
  | zero => intro i i' h; simp [nameLoop] at h
  | succ n ih =>
    intro i i' h
    unfold nameLoop at h
    split at h
    · rename_i hlt
      split at h
      · rename_i hdot
        simp only [Prod.mk.injEq, decide_eq_true_eq] at h
        obtain ⟨h1, h2⟩ := h
        subst h2
        exact ⟨le_refl _, hlt, fun t h1 h2 => by omega, Or.inl ⟨hdot, h1⟩⟩
      · rename_i hdot
        split at h
        · simp at h
        · rename_i heq
          simp only [ne_eq, not_not] at heq
          split at h
          · rename_i hlast
            simp only [Prod.mk.injEq, true_and] at h
            subst h
            exact ⟨le_refl _, hlt, fun t h1 h2 => by omega, Or.inr ⟨hdot, heq, by omega⟩⟩
          · obtain ⟨h1, h2, h3, h4⟩ := ih (i + 1) i' h
            refine ⟨by omega, h2, ?_, h4⟩
            intro t ht1 ht2
            rcases Nat.eq_or_lt_of_le ht1 with h5 | h5
            · subst h5; exact ⟨hdot, heq⟩
            · exact h3 t (by omega) ht2
    · simp at h

/-- What the extension loop has compared when it leaves with `i` at the end of the name. -/
theorem extLoop_end (f : List Int) (m : Image) (e : Nat) :
    ∀ n i j i' j', extLoop f m e n i j = (i', j') → i' = f.length → i ≤ f.length →
      j' + i = j + f.length ∧
      ∀ t, i + t < f.length → f.getD (i + t) 0 = (DIR_Name m e (j + t) : Int) := by
  intro n
  induction n with
  | zero =>
    intro i j i' j' h hi' hi
    simp only [extLoop, Prod.mk.injEq] at h
    obtain ⟨h1, h2⟩ := h
    exact ⟨by omega, fun t ht => by omega⟩
  | succ n ih =>
    intro i j i' j' h hi' hi
    unfold extLoop at h
    split at h
    · rename_i hlt
      split at h
      · simp only [Prod.mk.injEq] at h; omega
      · rename_i heq
        simp only [ne_eq, not_not] at heq
        obtain ⟨h1, h2⟩ := ih (i + 1) (j + 1) i' j' h hi' (by omega)
        refine ⟨by omega, ?_⟩
        intro t ht
        cases t with
        | zero => simpa using heq
        | succ t =>
          have := h2 t (by omega)
          have e1 : i + 1 + t = i + (t + 1) := by omega
          have e2 : j + 1 + t = j + (t + 1) := by omega
          rw [e1, e2] at this
          exact this
    · simp only [Prod.mk.injEq] at h
      obtain ⟨h1, h2⟩ := h
      exact ⟨by omega, fun t ht => by omega⟩

theorem dotIndex_of_dot (f : List Int) (i' : Nat) (h1 : 1 ≤ i') (h2 : i' < f.length)
    (hb : ∀ t, 1 ≤ t → t < i' → f.getD t 0 ≠ 46) (hd : f.getD i' 0 = 46) :
    dotIndex f = i' := by
  unfold dotIndex
  have := dotFrom_unique (f.drop 1) (i' - 1) (by simp; omega)
    (fun t ht => by rw [getD_drop_one]; exact hb (t + 1) (by omega) (by omega))
    (fun _ => by rw [getD_drop_one]; have e : i' - 1 + 1 = i' := by omega
                 rw [e]; exact hd)
  omega

theorem dotIndex_of_no_dot (f : List Int) (h1 : 1 ≤ f.length)
    (hb : ∀ t, 1 ≤ t → t < f.length → f.getD t 0 ≠ 46) : dotIndex f = f.length := by
  unfold dotIndex
  have := dotFrom_unique (f.drop 1) (f.length - 1) (by simp)
    (fun t ht => by rw [getD_drop_one]; exact hb (t + 1) (by omega) (by omega))
    (fun h => by simp at h)
  omega

theorem getD_take_lt (f : List Int) (d i : Nat) (h : i < d) : (f.take d).getD i 0 = f.getD i 0 := by
  simp [List.getD_eq_getElem?_getD, List.getElem?_take, h]

theorem getD_drop_add (f : List Int) (d t : Nat) : (f.drop d).getD t 0 = f.getD (d + t) 0 := by
  simp [List.getD_eq_getElem?_getD, List.getElem?_drop]

/-- C2 (amended). When the matcher accepts a non-empty file name, the entry's first
name byte is `0xE5`, its name bytes from 1 on equal the base part from position 1 on,
its name bytes from 8 on equal the extension part, the name byte after the extension is
a space when the extension has fewer than 3 characters, and the name byte after the
base is a space when the name has a `'.'` before index 8 or is a single character. -/
theorem matcher_sound_first_pad (f : List Int) (m : Image) (e : Nat) (hne : f ≠ [])
    (hacc : matchEntry f m e = true) :
    DIR_Name m e 0 = 0xe5 ∧
    (∀ i, 1 ≤ i → i < (basePart f).length →
      (DIR_Name m e i : Int) = (basePart f).getD i 0) ∧
    (∀ t, t < (extPart f).length → (DIR_Name m e (8 + t) : Int) = (extPart f).getD t 0) ∧
    ((extPart f).length < 3 → DIR_Name m e (8 + (extPart f).length) = 32) ∧
    ((((basePart f).length < f.length ∧ (basePart f).length < 8) ∨ f.length = 1) →
      DIR_Name m e (basePart f).length = 32) := by
  have hlen : 1 ≤ f.length := by
    cases f with
    | nil => exact absurd rfl hne
    | cons c cs => simp
  simp only [matchEntry, Bool.and_eq_true, decide_eq_true_eq, Bool.or_eq_true] at hacc
  obtain ⟨h0, hnp, hep⟩ := hacc
  refine ⟨h0, ?_⟩
  by_cases hauto : autoPass f m e = true
  · simp only [autoPass, Bool.and_eq_true, decide_eq_true_eq] at hauto
    obtain ⟨⟨hl, hn1⟩, hn8⟩ := hauto
    have hd : dotIndex f = 1 := by
      rw [dotIndex_of_no_dot f hlen (fun t h1 h2 => by omega)]; exact hl
    have hb : (basePart f).length = 1 := by simp [basePart, hd, hl]
    have hx : (extPart f).length = 0 := by simp [extPart, hd, hl]
    rw [hb, hx]
    exact ⟨fun i h1 h2 => by omega, fun t ht => by omega, fun _ => hn8, fun _ => hn1⟩
  · have hnp1 : (nameLoop f m e f.length 1).1 = true := by
      rcases hnp with h | h
      · exact h
      · exact absurd h hauto
    have hep1 : extPassed f m e (nameLoop f m e f.length 1).2 = true := by
      rcases hep with h | h
      · exact h.2
      · exact absurd h hauto
    obtain ⟨a1, a2, a3, a4⟩ := nameLoop_true f m e f.length 1 (nameLoop f m e f.length 1).2
      (by rw [← hnp1])
    generalize (nameLoop f m e f.length 1).2 = i' at a1 a2 a3 a4 hep1
    simp only [extPassed, Bool.and_eq_true, decide_eq_true_eq] at hep1
    obtain ⟨b1, b2⟩ := hep1
    obtain ⟨c1, c2⟩ := extLoop_end f m e f.length (i' + 1) 8 _ _ rfl b1 (by omega)
    generalize (extLoop f m e f.length (i' + 1) 8).2 = j' at b2 c1
    rcases a4 with ⟨hdot, hpad⟩ | ⟨hnd, heq, hlast⟩
    · have hd : dotIndex f = i' := dotIndex_of_dot f i' a1 a2 (fun t h1 h2 => (a3 t h1 h2).1) hdot
      have hb : (basePart f).length = i' := by simp [basePart, hd]; omega
      have hx : (extPart f).length = f.length - (i' + 1) := by simp [extPart, hd]
      rw [hb, hx]
      refine ⟨?_, ?_, ?_, ?_⟩
      · intro i h1 h2
        rw [basePart, hd, getD_take_lt f i' i h2]
        exact ((a3 i h1 h2).2).symm
      · intro t ht
        rw [extPart, hd, getD_drop_add]
        exact (c2 t (by omega)).symm
      · intro h3
        have : j' = 8 + (f.length - (i' + 1)) := by omega
        rw [← this]
        rcases b2 with h | h
        · omega
        · exact h
      · intro h
        rcases h with ⟨_, h8⟩ | h1
        · rcases hpad with h | h
          · omega
          · exact h
        · omega
    · have hd : dotIndex f = f.length := by
        apply dotIndex_of_no_dot f hlen
        intro t h1 h2
        rcases Nat.lt_or_ge t i' with h | h
        · exact (a3 t h1 h).1
        · have : t = i' := by omega
          rw [this]; exact hnd
      have hb : (basePart f).length = f.length := by simp [basePart, hd]
      have hx : (extPart f).length = 0 := by simp [extPart, hd]
      rw [hb, hx]
      refine ⟨?_, fun t ht => by omega, ?_, ?_⟩
      · intro i h1 h2
        rw [basePart, hd, getD_take_lt f f.length i h2]
        rcases Nat.lt_or_ge i i' with h | h
        · exact ((a3 i h1 h).2).symm
        · have : i = i' := by omega
          rw [this]; exact heq.symm
      · intro _
        have : j' = 8 := by omega
        rw [this] at b2
        rcases b2 with h | h
        · omega
        · exact h
      · intro h
        rcases h with ⟨h1, _⟩ | h1
        · omega
        · omega

/-- The theorem `matcher_sound_first_pad` at the name `HELLO.TXT` and the entry `?ELLO   TXT`. -/
theorem matcher_sound_first_pad_witness :
    DIR_Name (entryImage [0xe5, 69, 76, 76, 79, 32, 32, 32, 84, 88, 84]) 0 5 = 32 :=
  (matcher_sound_first_pad [72, 69, 76, 76, 79, 46, 84, 88, 84]
    (entryImage [0xe5, 69, 76, 76, 79, 32, 32, 32, 84, 88, 84]) 0 (by decide) (by decide)).2.2.2.2
    (Or.inl (by decide))

/-- C2, as stated, fails: the matcher accepts the name `A.T` on the entry `? X     T  `, whose
name byte 2 is not a space, so the entry is not the space-padded 8.3 encoding of `A.T`. -/
theorem matcher_accepts_unpadded :
    matchEntry [65, 46, 84] (entryImage [0xe5, 32, 88, 32, 32, 32, 32, 32, 84, 32, 32]) 0 = true ∧
    ¬ Encodes83 [65, 46, 84] (entryImage [0xe5, 32, 88, 32, 32, 32, 32, 32, 84, 32, 32]) 0 := by
  refine ⟨by decide, ?_⟩
  intro h
  have h2 := h.2.2.1 2 (by decide) (by decide)
  revert h2
  decide

/-- The matcher accepts the name `AB` on the entry `?BCDEFGH   `: with no `'.'` in the name
no byte after the base is tested. -/
theorem matcher_accepts_prefix :
    matchEntry [65, 66] (entryImage [0xe5, 66, 67, 68, 69, 70, 71, 72, 32, 32, 32]) 0 = true := by
  decide

/-- C3 fails on the code: the name `ABCDEFGHX.X` has a base of 9 characters, and the
matcher accepts it on the entry `?BCDEFGHX  `, whose extension byte 8 it has compared with
the ninth character of the base. -/
theorem matcher_accepts_long_base :
    (basePart [65, 66, 67, 68, 69, 70, 71, 72, 88, 46, 88]).length = 9 ∧
    matchEntry [65, 66, 67, 68, 69, 70, 71, 72, 88, 46, 88]
      (entryImage [0xe5, 66, 67, 68, 69, 70, 71, 72, 88, 32, 32]) 0 = true := by
  decide

theorem nameLoop_congr (f g : List Int) (m m' : Image) (e e' : Nat)
    (hlen : f.length = g.length) (hagree : ∀ i, 1 ≤ i → f.getD i 0 = g.getD i 0)
    (hname : ∀ i, 1 ≤ i → DIR_Name m' e' i = DIR_Name m e i) :
    ∀ n i, 1 ≤ i → nameLoop f m' e' n i = nameLoop g m e n i := by
  intro n
  induction n with
  | zero => intro i _; rfl
  | succ n ih =>
    intro i hi
    simp only [nameLoop, hlen, hagree i hi, hname i hi, ih (i + 1) (by omega)]

theorem extLoop_congr (f g : List Int) (m m' : Image) (e e' : Nat)
    (hlen : f.length = g.length) (hagree : ∀ i, 1 ≤ i → f.getD i 0 = g.getD i 0)
    (hname : ∀ i, 1 ≤ i → DIR_Name m' e' i = DIR_Name m e i) :
    ∀ n i j, 1 ≤ i → 1 ≤ j → extLoop f m' e' n i j = extLoop g m e n i j := by
  intro n
  induction n with
  | zero => intro i j _ _; rfl
  | succ n ih =>
    intro i j hi hj
    simp only [extLoop, hlen, hagree i hi, hname j hj, ih (i + 1) (j + 1) (by omega) (by omega)]

theorem extLoop_snd_ge (f : List Int) (m : Image) (e : Nat) :
    ∀ n i j, j ≤ (extLoop f m e n i j).2 := by
  intro n
  induction n with
  | zero => intro i j; simp [extLoop]
  | succ n ih =>
    intro i j
    unfold extLoop
    split
    · split
      · simp
      · exact le_trans (by omega) (ih (i + 1) (j + 1))
    · simp

theorem matchEntry_congr (f g : List Int) (m m' : Image) (e e' : Nat)
    (hlen : f.length = g.length) (hagree : ∀ i, 1 ≤ i → f.getD i 0 = g.getD i 0)
    (hname : ∀ i, 1 ≤ i → DIR_Name m' e' i = DIR_Name m e i)
    (h0 : DIR_Name m' e' 0 = 0xe5 ↔ DIR_Name m e 0 = 0xe5) :
    matchEntry f m' e' = matchEntry g m e := by
  have hauto : autoPass f m' e' = autoPass g m e := by
    simp only [autoPass, hlen, hname 1 (le_refl _), hname 8 (by omega)]
  have hnl := nameLoop_congr f g m m' e e' hlen hagree hname f.length 1 (le_refl _)
  have hext : ∀ i, extPassed f m' e' i = extPassed g m e i := by
    intro i
    have h1 := extLoop_congr f g m m' e e' hlen hagree hname f.length (i + 1) 8
      (by omega) (by omega)
    have h2 := extLoop_snd_ge g m e g.length (i + 1) 8
    rw [hlen] at h1
    simp only [extPassed, hlen, h1,
      hname _ (show 1 ≤ (extLoop g m e g.length (i + 1) 8).2 by omega)]
  rw [hlen] at hnl
  simp only [matchEntry, hauto, hlen, hnl, hext, decide_eq_decide.mpr h0]

/-- C4. The matcher gives the same result on two file names of the same length that agree
from index 1 on; and on two entries that agree from name byte 1 on it gives the same result
as soon as their first name bytes are both `0xE5` or both different from `0xE5`. -/
theorem erased_byte_invariant (m : Image) (e : Nat) (f g : List Int)
    (hlen : f.length = g.length) (hagree : ∀ i, 1 ≤ i → f.getD i 0 = g.getD i 0) :
    matchEntry f m e = matchEntry g m e ∧
    ∀ (m' : Image) (e' : Nat), (∀ i, 1 ≤ i → DIR_Name m' e' i = DIR_Name m e i) →
      (DIR_Name m' e' 0 = 0xe5 ↔ DIR_Name m e 0 = 0xe5) →
      matchEntry f m' e' = matchEntry f m e :=
  ⟨matchEntry_congr f g m m e e hlen hagree (fun _ _ => rfl) Iff.rfl,
   fun m' e' hname h0 => matchEntry_congr f f m m' e e' rfl (fun _ _ => rfl) hname h0⟩

/-- The theorem `erased_byte_invariant` at the names `HELLO.TXT` and `JELLO.TXT`. -/
theorem erased_byte_invariant_witness :
    matchEntry [72, 69, 76, 76, 79, 46, 84, 88, 84]
      (entryImage [0xe5, 69, 76, 76, 79, 32, 32, 32, 84, 88, 84]) 0
    = matchEntry [74, 69, 76, 76, 79, 46, 84, 88, 84]
      (entryImage [0xe5, 69, 76, 76, 79, 32, 32, 32, 84, 88, 84]) 0 :=
  (erased_byte_invariant (entryImage [0xe5, 69, 76, 76, 79, 32, 32, 32, 84, 88, 84]) 0
    [72, 69, 76, 76, 79, 46, 84, 88, 84] [74, 69, 76, 76, 79, 46, 84, 88, 84] (by decide)
    (fun i hi => by
      match i, hi with
      | i + 1, _ => rfl)).1

/-! ## Candidate resolution -/

theorem contRecover_of_scan {H : Type} [DecidableEq H] (sha : List Byte → H)
    (providedSHA : Option H) (f : List Int) (m : Image) (fuel : Nat) (cands : List Nat)
    (hscan : scanDir (matchEntry f) m fuel (BPB_RootClus m) = some cands)
    (hcap : cands.length ≤ 100) :
    contRecover sha providedSHA f m fuel = resolve sha providedSHA f m (fatAddressArr m) cands := by
  simp only [contRecover, hscan]
  rw [if_neg (by omega)]

theorem shaLoop_none {H : Type} [DecidableEq H] (sha : List Byte → H) (h : H) (m : Image) :
    ∀ cands : List Nat, (∀ c ∈ cands, contentDigest sha m c ≠ h) → shaLoop sha h m cands = none := by
  intro cands
  induction cands with
  | nil => intro _; rfl
  | cons d rest ih =>
    intro hall
    have hd := hall d (by simp)
    simp only [shaLoop, hd, if_false]
    exact ih (fun c hc => hall c (by simp [hc]))

theorem shaLoop_first {H : Type} [DecidableEq H] (sha : List Byte → H) (h : H) (m : Image) :
    ∀ (cands : List Nat) (i c : Nat), cands[i]? = some c → contentDigest sha m c = h →
      (∀ (j c' : Nat), j < i → cands[j]? = some c' → contentDigest sha m c' ≠ h) →
      shaLoop sha h m cands = some (c, startingClusterOf m c) := by
  intro cands
  induction cands with
  | nil => intro i c hc; simp at hc
  | cons d rest ih =>
    intro i c hc hdig hbefore
    cases i with
    | zero =>
      simp only [List.getElem?_cons_zero, Option.some.injEq] at hc
      subst hc
      simp [shaLoop, hdig]
    | succ i =>
      have hd := hbefore 0 d (by omega) (by simp)
      simp only [shaLoop, hd, if_false]
      apply ih i c (by simpa using hc) hdig
      intro j c' hj hc'
      exact hbefore (j + 1) c' (by omega) (by simpa using hc')

/-- With no candidate the run prints `file not found` and ends with exit status 0. -/
theorem no_candidate_exit_zero {H : Type} [DecidableEq H] (sha : List Byte → H)
    (providedSHA : Option H) (f : List Int) (m : Image) (fuel : Nat)
    (hscan : scanDir (matchEntry f) m fuel (BPB_RootClus m) = some []) :
    contRecover sha providedSHA f m fuel = some ⟨Diag.notFound, 0, m, none⟩ := by
  rw [contRecover_of_scan sha providedSHA f m fuel [] hscan (by simp)]
  rfl

/-- C5 fails on the code: recovering `hello.txt` from `helloImage` finds no candidate, and
the run prints `file not found` and ends with exit status 0. -/
theorem not_found_exits_zero :
    scanDir (matchEntry helloLower) helloImage 5 (BPB_RootClus helloImage) = some [] ∧
    (contRecover sumDigest none helloLower helloImage 5).map (fun r => (r.diag, r.exit))
      = some (Diag.notFound, 0) := by
  decide

/-- C6. With a hash supplied and at least one candidate, the run hands to the chain
reconstruction the first candidate in scan order whose content digest equals the hash,
and its result is the result of reconstructing exactly that entry; when no candidate has
that digest the run prints `file not found`, exits with status 1 and leaves the image as
it was. -/
theorem hash_selects_first_match {H : Type} [DecidableEq H] (sha : List Byte → H) (h : H)
    (f : List Int) (m : Image) (fuel : Nat) (cands : List Nat)
    (hscan : scanDir (matchEntry f) m fuel (BPB_RootClus m) = some cands)
    (hne : cands ≠ []) (hcap : cands.length ≤ 100) :
    (∀ (i c : Nat), cands[i]? = some c → contentDigest sha m c = h →
      (∀ (j c' : Nat), j < i → cands[j]? = some c' → contentDigest sha m c' ≠ h) →
      contRecover sha (some h) f m fuel =
        (restore (fatAddressArr m) f m c (startingClusterOf m c)).map
          (fun m1 => ⟨Diag.recoveredSha, 0, m1, some c⟩)) ∧
    ((∀ c ∈ cands, contentDigest sha m c ≠ h) →
      contRecover sha (some h) f m fuel = some ⟨Diag.notFound, 1, m, none⟩) := by
  rw [contRecover_of_scan sha (some h) f m fuel cands hscan hcap]
  cases cands with
  | nil => exact absurd rfl hne
  | cons first rest =>
    constructor
    · intro i c hc hdig hbefore
      simp only [resolve, Option.isSome_some, or_true, if_true,
        shaLoop_first sha h m (first :: rest) i c hc hdig hbefore]
    · intro hall
      simp only [resolve, Option.isSome_some, or_true, if_true,
        shaLoop_none sha h m (first :: rest) hall]

/-- The theorem `hash_selects_first_match` on `testImage`: of the two candidates for
`TEST.TXT` the hash 2 selects the second, at 1568. -/
theorem hash_selects_first_match_witness :
    contRecover sumDigest (some 2) testName testImage 5 =
      (restore (fatAddressArr testImage) testName testImage 1568
        (startingClusterOf testImage 1568)).map
        (fun m1 => ⟨Diag.recoveredSha, 0, m1, some 1568⟩) :=
  (hash_selects_first_match sumDigest 2 testName testImage 5 [1536, 1568] (by decide)
    (by decide) (by decide)).1 1 1568 (by decide) (by decide)
    (fun j c' hj hc => by
      have hj0 : j = 0 := by omega
      subst hj0
      simp only [List.getElem?_cons_zero, Option.some.injEq] at hc
      subst hc
      decide)

/-- C7. With more than one candidate and no hash the run prints `multiple candidates
found`, exits with status 1, selects no entry and leaves the image as it was. -/
theorem ambiguous_without_hash {H : Type} [DecidableEq H] (sha : List Byte → H)
    (f : List Int) (m : Image) (fuel : Nat) (cands : List Nat)
    (hscan : scanDir (matchEntry f) m fuel (BPB_RootClus m) = some cands)
    (hmany : 1 < cands.length) (hcap : cands.length ≤ 100) :
    contRecover sha none f m fuel = some ⟨Diag.multiple, 1, m, none⟩ := by
  rw [contRecover_of_scan sha none f m fuel cands hscan hcap]
  cases cands with
  | nil => simp at hmany
  | cons first rest => simp only [resolve, hmany, true_or, if_true]

/-- The theorem `ambiguous_without_hash` on `testImage`, which has two candidates for
`TEST.TXT`. -/
theorem ambiguous_without_hash_witness :
    contRecover sumDigest none testName testImage 5
      = some ⟨Diag.multiple, 1, testImage, none⟩ :=
  ambiguous_without_hash sumDigest testName testImage 5 [1536, 1568] (by decide) (by decide)
    (by decide)

theorem resolve_failure_image {H : Type} [DecidableEq H] (sha : List Byte → H)
    (providedSHA : Option H) (f : List Int) (m : Image) (arr cands : List Nat) (r : Result)
    (hrun : resolve sha providedSHA f m arr cands = some r)
    (hfail : r.diag = Diag.notFound ∨ r.diag = Diag.multiple) : r.image = m := by
  unfold resolve at hrun
  split at hrun
  · simp only [Option.some.injEq] at hrun
    subst hrun; rfl
  · split at hrun
    · split at hrun
      · split at hrun
        · simp only [Option.map_eq_some'] at hrun
          obtain ⟨m1, _, h2⟩ := hrun
          subst h2
          simp at hfail
        · simp only [Option.some.injEq] at hrun
          subst hrun; rfl
      · simp only [Option.some.injEq] at hrun
        subst hrun; rfl
    · simp only [Option.map_eq_some'] at hrun
      obtain ⟨m1, _, h2⟩ := hrun
      subst h2
      simp at hfail

/-- C8. A run that ends with `file not found` or with `multiple candidates found` leaves
every byte of the image as it was. -/
theorem failure_leaves_image {H : Type} [DecidableEq H] (sha : List Byte → H)
    (providedSHA : Option H) (f : List Int) (m : Image) (fuel : Nat) (r : Result)
    (hrun : contRecover sha providedSHA f m fuel = some r)
    (hfail : r.diag = Diag.notFound ∨ r.diag = Diag.multiple) : r.image = m := by
  unfold contRecover at hrun
  split at hrun
  · simp at hrun
  · split at hrun
    · simp at hrun
    · exact resolve_failure_image sha providedSHA f m _ _ r hrun hfail

/-- The theorem `failure_leaves_image` on the run that finds no candidate whose digest
is 7 among the two candidates of `testImage`. -/
theorem failure_leaves_image_witness :
    (Result.mk Diag.notFound 1 testImage none).image = testImage :=
  failure_leaves_image sumDigest (some 7) testName testImage 5 ⟨Diag.notFound, 1, testImage, none⟩
    (by rfl) (Or.inl rfl)

/-! ## Bytes -/

theorem rd8_lt (m : Image) (a : Nat) : rd8 m a < 256 := (m a).isLt

theorem rd16_lt (m : Image) (a : Nat) : rd16 m a < 65536 := by
  have h1 := rd8_lt m a
  have h2 := rd8_lt m (a + 1)
  unfold rd16; omega

theorem rd32_lt (m : Image) (a : Nat) : rd32 m a < 2 ^ 32 := by
  have h1 := rd8_lt m a
  have h2 := rd8_lt m (a + 1)
  have h3 := rd8_lt m (a + 2)
  have h4 := rd8_lt m (a + 3)
  unfold rd32; norm_num; omega

theorem wr8_same (m : Image) (a v : Nat) : rd8 (wr8 m a v) a = v % 256 := by
  simp [rd8, wr8, Fin.ofNat]

theorem wr8_other (m : Image) (a v x : Nat) (h : x ≠ a) : wr8 m a v x = m x := by
  simp [wr8, h]

theorem wr32_other (m : Image) (a v x : Nat) (h : x < a ∨ a + 4 ≤ x) : wr32 m a v x = m x := by
  unfold wr32
  rw [wr8_other _ _ _ _ (by omega), wr8_other _ _ _ _ (by omega), wr8_other _ _ _ _ (by omega),
    wr8_other _ _ _ _ (by omega)]

/-- The byte `t` of the little-endian `unsigned int` `v`. -/
theorem wr32_byte (m : Image) (a v t : Nat) (ht : t < 4) :
    rd8 (wr32 m a v) (a + t) = v / 256 ^ t % 256 := by
  unfold wr32
  rcases (by omega : t = 0 ∨ t = 1 ∨ t = 2 ∨ t = 3) with h | h | h | h <;> subst h
  · rw [rd8, wr8_other _ _ _ _ (by omega), wr8_other _ _ _ _ (by omega),
      wr8_other _ _ _ _ (by omega)]
    simpa using wr8_same m a v
  · rw [rd8, wr8_other _ _ _ _ (by omega), wr8_other _ _ _ _ (by omega)]
    simpa using wr8_same _ (a + 1) (v / 256)
  · rw [rd8, wr8_other _ _ _ _ (by omega)]
    simpa using wr8_same _ (a + 2) (v / 65536)
  · simpa using wr8_same _ (a + 3) (v / 16777216)

theorem rd32_of_bytes (m : Image) (a v : Nat)
    (h : ∀ t, t < 4 → rd8 m (a + t) = v / 256 ^ t % 256) : rd32 m a = v % 2 ^ 32 := by
  have h0 := h 0 (by omega)
  have h1 := h 1 (by omega)
  have h2 := h 2 (by omega)
  have h3 := h 3 (by omega)
  simp only [Nat.add_zero, pow_zero, Nat.div_one, pow_one] at h0 h1
  norm_num at h2 h3
  unfold rd32
  rw [h0, h1, h2, h3]
  omega

theorem rd32_congr (m m' : Image) (a : Nat) (h : ∀ t, t < 4 → m' (a + t) = m (a + t)) :
    rd32 m' a = rd32 m a := by
  have h0 := h 0 (by omega)
  simp only [Nat.add_zero] at h0
  simp only [rd32, rd8, h0, h 1 (by omega), h 2 (by omega), h 3 (by omega)]

theorem rd16_congr (m m' : Image) (a : Nat) (h : ∀ t, t < 2 → m' (a + t) = m (a + t)) :
    rd16 m' a = rd16 m a := by
  have h0 := h 0 (by omega)
  simp only [Nat.add_zero] at h0
  simp only [rd16, rd8, h0, h 1 (by omega)]

/-! ## Sequences of stores -/

theorem applyWrites_cons (m : Image) (w : Nat × Nat) (ws : List (Nat × Nat)) :
    applyWrites m (w :: ws) = applyWrites (wr32 m w.1 w.2) ws := rfl

theorem applyWrites_append (m : Image) (ws ws' : List (Nat × Nat)) :
    applyWrites m (ws ++ ws') = applyWrites (applyWrites m ws) ws' := by
  simp [applyWrites, List.foldl_append]

/-- A byte outside every store keeps its value. -/
theorem applyWrites_other (ws : List (Nat × Nat)) :
    ∀ (m : Image) (x : Nat), (∀ w ∈ ws, x < w.1 ∨ w.1 + 4 ≤ x) → applyWrites m ws x = m x := by
  induction ws with
  | nil => intro m x _; rfl
  | cons w ws ih =>
    intro m x h
    rw [applyWrites_cons, ih _ x (fun w' hw' => h w' (by simp [hw'])),
      wr32_other _ _ _ _ (h w (by simp))]

/-- A store that every other store of the sequence either repeats or leaves alone
determines the four bytes at its offset. -/
theorem applyWrites_byte (ws : List (Nat × Nat)) (a v : Nat) :
    ∀ (m : Image), (a, v) ∈ ws →
      (∀ w ∈ ws, w = (a, v) ∨ w.1 + 4 ≤ a ∨ a + 4 ≤ w.1) →
      ∀ t, t < 4 → rd8 (applyWrites m ws) (a + t) = v / 256 ^ t % 256 := by
  induction ws with
  | nil => intro m h; simp at h
  | cons w ws ih =>
    intro m hmem hall t ht
    rw [applyWrites_cons]
    by_cases hin : (a, v) ∈ ws
    · exact ih _ hin (fun w' hw' => hall w' (by simp [hw'])) t ht
    · have hw : w = (a, v) := by
        rcases List.mem_cons.mp hmem with h | h
        · exact h.symm
        · exact absurd h hin
      subst hw
      rw [rd8, applyWrites_other ws _ (a + t)]
      · exact wr32_byte m a v t ht
      · intro w' hw'
        rcases hall w' (by simp [hw']) with h | h | h
        · subst h; exact absurd hw' hin
        · right; omega
        · left; omega

/-! ## The boot-sector fields -/

/-- Two images with the same first 48 bytes have the same boot-sector fields. -/
theorem boot_fields_congr (m m' : Image) (h : ∀ x, x < 48 → m' x = m x) :
    BPB_BytsPerSec m' = BPB_BytsPerSec m ∧ BPB_SecPerClus m' = BPB_SecPerClus m ∧
    BPB_RsvdSecCnt m' = BPB_RsvdSecCnt m ∧ BPB_NumFATs m' = BPB_NumFATs m ∧
    BPB_FATSz32 m' = BPB_FATSz32 m ∧ BPB_RootClus m' = BPB_RootClus m := by
  refine ⟨?_, ?_, ?_, ?_, ?_, ?_⟩
  · exact rd16_congr m m' 11 (fun t ht => h _ (by omega))
  · simp only [BPB_SecPerClus, rd8, h 13 (by omega)]
  · exact rd16_congr m m' 14 (fun t ht => h _ (by omega))
  · simp only [BPB_NumFATs, rd8, h 16 (by omega)]
  · exact rd32_congr m m' 36 (fun t ht => h _ (by omega))
  · exact rd32_congr m m' 44 (fun t ht => h _ (by omega))

theorem layout_congr (m m' : Image) (h : ∀ x, x < 48 → m' x = m x) :
    (∀ j, fatOffset m' j = fatOffset m j) ∧ (∀ n, clusterOffset m' n = clusterOffset m n) ∧
    fatAddressArr m' = fatAddressArr m ∧ entriesPerCluster m' = entriesPerCluster m ∧
    dataStart m' = dataStart m ∧ fatBytes m' = fatBytes m := by
  obtain ⟨h1, h2, h3, h4, h5, h6⟩ := boot_fields_congr m m' h
  refine ⟨?_, ?_, ?_, ?_, ?_, ?_⟩
  · intro j; simp only [fatOffset, h1, h3, h5]
  · intro n; simp only [clusterOffset, h1, h2, h3, h4, h5]
  · simp only [fatAddressArr, h4]
    apply List.map_congr_left
    intro j _; simp only [fatOffset, h1, h3, h5]
  · simp only [entriesPerCluster, h1, h2]
  · simp only [dataStart, h1, h3, h4, h5]
  · simp only [fatBytes, h1, h5]

theorem length_fatAddressArr (m : Image) : (fatAddressArr m).length = BPB_NumFATs m := by
  simp [fatAddressArr]

/-- On a well laid out volume FAT copy `j` starts at
`BPB_RsvdSecCnt * BPB_BytsPerSec + j * fatBytes`. -/
theorem fatOffset_eq (m : Image) (hl : WellLaidOut m) (j : Nat) (hj : j < BPB_NumFATs m) :
    fatOffset m j = BPB_RsvdSecCnt m * BPB_BytsPerSec m + j * fatBytes m := by
  obtain ⟨h48, hds⟩ := hl
  unfold dataStart at hds
  unfold fatOffset fatBytes u32
  have hb : 1 ≤ BPB_BytsPerSec m := by
    rcases Nat.eq_zero_or_pos (BPB_BytsPerSec m) with h | h
    · rw [h] at h48; simp at h48
    · exact h
  have e1 : (BPB_RsvdSecCnt m + BPB_NumFATs m * BPB_FATSz32 m) * BPB_BytsPerSec m
      = BPB_RsvdSecCnt m * BPB_BytsPerSec m
        + BPB_NumFATs m * (BPB_FATSz32 m * BPB_BytsPerSec m) := by ring
  have e2 : j * (BPB_FATSz32 m * BPB_BytsPerSec m)
      ≤ BPB_NumFATs m * (BPB_FATSz32 m * BPB_BytsPerSec m) :=
    Nat.mul_le_mul_right _ (le_of_lt hj)
  have e3 : BPB_FATSz32 m * j ≤ j * (BPB_FATSz32 m * BPB_BytsPerSec m) := by
    calc BPB_FATSz32 m * j = j * (BPB_FATSz32 m * 1) := by ring
      _ ≤ j * (BPB_FATSz32 m * BPB_BytsPerSec m) :=
        Nat.mul_le_mul_left _ (Nat.mul_le_mul_left _ hb)
  have e4 : BPB_FATSz32 m * j * BPB_BytsPerSec m = j * (BPB_FATSz32 m * BPB_BytsPerSec m) := by
    ring
  rw [Nat.mod_eq_of_lt (by omega : BPB_FATSz32 m * j < 2 ^ 32), e4,
    Nat.mod_eq_of_lt (by omega : j * (BPB_FATSz32 m * BPB_BytsPerSec m) < 2 ^ 32),
    Nat.mod_eq_of_lt (by omega)]

theorem mem_fatAddressArr (m : Image) (hl : WellLaidOut m) (fa : Nat) :
    fa ∈ fatAddressArr m ↔
      ∃ j, j < BPB_NumFATs m ∧ fa = BPB_RsvdSecCnt m * BPB_BytsPerSec m + j * fatBytes m := by
  simp only [fatAddressArr, List.mem_map, List.mem_range]
  constructor
  · rintro ⟨j, hj, rfl⟩
    exact ⟨j, hj, fatOffset_eq m hl j hj⟩
  · rintro ⟨j, hj, rfl⟩
    exact ⟨j, hj, fatOffset_eq m hl j hj⟩

/-! ## The chain loops as sequences of stores -/

theorem numFATs_wr32 (m : Image) (a v : Nat) (h : 17 ≤ a) :
    BPB_NumFATs (wr32 m a v) = BPB_NumFATs m := by
  simp only [BPB_NumFATs, rd8, wr32_other m a v 16 (by omega)]

theorem numFATs_applyWrites (ws : List (Nat × Nat)) (m : Image) (h : ∀ w ∈ ws, 17 ≤ w.1) :
    BPB_NumFATs (applyWrites m ws) = BPB_NumFATs m := by
  simp only [BPB_NumFATs, rd8,
    applyWrites_other ws m 16 (fun w hw => Or.inl (by have := h w hw; omega))]

theorem fatLoop_eq (arr : List Nat) (idx val : Nat) (h17 : ∀ fa ∈ arr, 17 ≤ fa) :
    ∀ (n j : Nat) (m : Image), BPB_NumFATs m = arr.length → j ≤ arr.length →
      arr.length < n + j →
      fatLoop arr idx val n j m
        = some (applyWrites m ((arr.drop j).map (fun fa => (fa + 4 * idx, val)))) := by
  intro n
  induction n with
  | zero => intro j m _ h1 h2; omega
  | succ n ih =>
    intro j m hnf hj hn
    unfold fatLoop
    by_cases hlt : j < arr.length
    · rw [if_pos (by omega), List.getElem?_eq_getElem hlt]
      have hmem : arr[j] ∈ arr := List.getElem_mem hlt
      simp only []
      rw [ih (j + 1) _ (by rw [numFATs_wr32 _ _ _ (by have := h17 _ hmem; omega)]; exact hnf)
        (by omega) (by omega)]
      rw [List.drop_eq_getElem_cons hlt]
      rfl
    · rw [if_neg (by omega)]
      have : arr.drop j = [] := List.drop_eq_nil_of_le (by omega)
      rw [this]
      rfl

theorem chainWrites_ge (arr : List Nat) (cn : Nat) (h17 : ∀ fa ∈ arr, 17 ≤ fa) :
    ∀ (n k sc : Nat), ∀ w ∈ chainWrites arr cn n k sc, 17 ≤ w.1 := by
  intro n
  induction n with
  | zero => intro k sc w hw; simp [chainWrites] at hw
  | succ n ih =>
    intro k sc w hw
    simp only [chainWrites, List.mem_append, List.mem_map] at hw
    rcases hw with ⟨fa, hfa, rfl⟩ | hw
    · have := h17 fa hfa
      simp only []
      omega
    · exact ih _ _ w hw

theorem chainLoop_eq (arr : List Nat) (cn : Nat) (h17 : ∀ fa ∈ arr, 17 ≤ fa)
    (hlen : arr.length < 256) :
    ∀ (n k sc : Nat) (m : Image), BPB_NumFATs m = arr.length →
      chainLoop arr cn n k sc m = some (applyWrites m (chainWrites arr cn n k sc)) := by
  intro n
  induction n with
  | zero => intro k sc m _; rfl
  | succ n ih =>
    intro k sc m hnf
    unfold chainLoop
    rw [fatLoop_eq arr sc _ h17 256 0 m hnf (by omega) (by omega)]
    simp only [List.drop_zero]
    rw [ih (k + 1) _ _ (by
      rw [numFATs_applyWrites _ _ (fun w hw => by
        simp only [List.mem_map] at hw
        obtain ⟨fa, hfa, rfl⟩ := hw
        have := h17 fa hfa
        simp only []
        omega)]
      exact hnf)]
    rw [chainWrites, applyWrites_append]

/-- The stores of the chain loop: one per FAT copy and cluster of the file. -/
theorem mem_chainWrites (arr : List Nat) (cn : Nat) :
    ∀ (n k sc : Nat) (w : Nat × Nat), sc + n < 2 ^ 32 →
      (w ∈ chainWrites arr cn n k sc ↔
        ∃ fa, fa ∈ arr ∧ ∃ i, i < n ∧
          w = (fa + 4 * (sc + i), if k + i = cn - 1 then 0xffffffff else sc + i + 1)) := by
  intro n
  induction n with
  | zero => intro k sc w _; simp [chainWrites]
  | succ n ih =>
    intro k sc w hsc
    have hu : u32 (sc + 1) = sc + 1 := Nat.mod_eq_of_lt (by omega)
    simp only [chainWrites, List.mem_append, List.mem_map, hu]
    rw [ih (k + 1) (sc + 1) w (by omega)]
    constructor
    · rintro (⟨fa, hfa, rfl⟩ | ⟨fa, hfa, i, hi, rfl⟩)
      · exact ⟨fa, hfa, 0, by omega, by simp⟩
      · refine ⟨fa, hfa, i + 1, by omega, ?_⟩
        have e1 : sc + 1 + i = sc + (i + 1) := by omega
        have e2 : k + 1 + i = k + (i + 1) := by omega
        rw [e1, e2]
    · rintro ⟨fa, hfa, i, hi, rfl⟩
      cases i with
      | zero => left; exact ⟨fa, hfa, by simp⟩
      | succ i =>
        right
        refine ⟨fa, hfa, i, by omega, ?_⟩
        have e1 : sc + 1 + i = sc + (i + 1) := by omega
        have e2 : k + 1 + i = k + (i + 1) := by omega
        rw [e1, e2]

/-! ## A successful run is a chain reconstruction -/

theorem shaLoop_some {H : Type} [DecidableEq H] (sha : List Byte → H) (h : H) (m : Image) :
    ∀ (cands : List Nat) (d sc : Nat), shaLoop sha h m cands = some (d, sc) →
      d ∈ cands ∧ sc = startingClusterOf m d := by
  intro cands
  induction cands with
  | nil => intro d sc hs; simp [shaLoop] at hs
  | cons c rest ih =>
    intro d sc hs
    unfold shaLoop at hs
    split at hs
    · simp only [Option.some.injEq, Prod.mk.injEq] at hs
      obtain ⟨h1, h2⟩ := hs
      subst h1
      exact ⟨by simp, h2.symm⟩
    · obtain ⟨h1, h2⟩ := ih d sc hs
      exact ⟨by simp [h1], h2⟩

theorem resolve_selected {H : Type} [DecidableEq H] (sha : List Byte → H)
    (providedSHA : Option H) (f : List Int) (m : Image) (arr cands : List Nat) (r : Result)
    (e : Nat) (hrun : resolve sha providedSHA f m arr cands = some r)
    (hsel : r.selected = some e) :
    restore arr f m e (startingClusterOf m e) = some r.image ∧ r.exit = 0 ∧
      (r.diag = Diag.recovered ∨ r.diag = Diag.recoveredSha) ∧ e ∈ cands := by
  unfold resolve at hrun
  split at hrun
  · simp only [Option.some.injEq] at hrun
    subst hrun; simp at hsel
  · split at hrun
    · split at hrun
      · split at hrun
        · rename_i hsha
          simp only [Option.map_eq_some'] at hrun
          obtain ⟨m1, h1, h2⟩ := hrun
          subst h2
          simp only [Option.some.injEq] at hsel
          subst hsel
          obtain ⟨h3, h4⟩ := shaLoop_some sha _ m _ _ _ hsha
          subst h4
          exact ⟨h1, rfl, Or.inr rfl, h3⟩
        · simp only [Option.some.injEq] at hrun
          subst hrun; simp at hsel
      · simp only [Option.some.injEq] at hrun
        subst hrun; simp at hsel
    · simp only [Option.map_eq_some'] at hrun
      obtain ⟨m1, h1, h2⟩ := hrun
      subst h2
      simp only [Option.some.injEq] at hsel
      subst hsel
      exact ⟨h1, rfl, Or.inl rfl, by simp⟩

theorem run_selected {H : Type} [DecidableEq H] (sha : List Byte → H)
    (providedSHA : Option H) (f : List Int) (m : Image) (fuel : Nat) (r : Result) (e : Nat)
    (hrun : contRecover sha providedSHA f m fuel = some r) (hsel : r.selected = some e) :
    restore (fatAddressArr m) f m e (startingClusterOf m e) = some r.image ∧ r.exit = 0 ∧
      (r.diag = Diag.recovered ∨ r.diag = Diag.recoveredSha) ∧
      ∃ cands, scanDir (matchEntry f) m fuel (BPB_RootClus m) = some cands ∧ e ∈ cands := by
  unfold contRecover at hrun
  split at hrun
  · simp at hrun
  · rename_i cands hscan
    split at hrun
    · simp at hrun
    · obtain ⟨h1, h2, h3, h4⟩ := resolve_selected sha providedSHA f m _ cands r e hrun hsel
      exact ⟨h1, h2, h3, cands, hscan, h4⟩

theorem wr8_boot (m : Image) (e v : Nat) (he : 48 ≤ e) : ∀ x, x < 48 → wr8 m e v x = m x :=
  fun x hx => wr8_other m e v x (by omega)

theorem fileClusters_wr8 (m : Image) (e v : Nat) (he : 48 ≤ e) :
    fileClusters (wr8 m e v) e = fileClusters m e := by
  obtain ⟨h1, h2, _⟩ := boot_fields_congr m (wr8 m e v) (wr8_boot m e v he)
  have h3 : DIR_FileSize (wr8 m e v) e = DIR_FileSize m e :=
    rd32_congr m _ (e + 28) (fun t _ => wr8_other m e v _ (by omega))
  simp only [fileClusters, h1, h2, h3]

/-- The image after a chain reconstruction: the first name byte is stored, then the
stores of the chain loop are done in order. -/
theorem restore_eq (f : List Int) (m : Image) (e s : Nat) (m' : Image)
    (hl : WellLaidOut m) (he : 48 ≤ e)
    (hres : restore (fatAddressArr m) f m e s = some m') :
    0 < BPB_BytsPerSec m * BPB_SecPerClus m ∧ fileClusters m e < 2 ^ 31 ∧
    m' = applyWrites (wr8 m e (firstChar f))
      (chainWrites (fatAddressArr m) (fileClusters m e) (fileClusters m e) 0 s) := by
  obtain ⟨h1, h2, _, h4, _⟩ := boot_fields_congr m (wr8 m e (firstChar f)) (wr8_boot m e _ he)
  have h17 : ∀ fa ∈ fatAddressArr m, 17 ≤ fa := by
    intro fa hfa
    obtain ⟨j, _, rfl⟩ := (mem_fatAddressArr m hl fa).mp hfa
    have := hl.1
    omega
  have hlen : (fatAddressArr m).length < 256 := by
    rw [length_fatAddressArr]; exact rd8_lt m 16
  unfold restore at hres
  simp only [clusterNumOf, h1, h2, fileClusters_wr8 m e _ he] at hres
  split at hres
  · simp at hres
  · rename_i cn hcn
    split at hcn
    · simp at hcn
    · rename_i hpos
      split at hcn
      · rename_i hlt
        simp only [Option.some.injEq] at hcn
        subst hcn
        rw [chainLoop_eq _ _ h17 hlen _ _ _ _ (by rw [h4, length_fatAddressArr])] at hres
        simp only [Option.some.injEq] at hres
        exact ⟨Nat.pos_of_ne_zero hpos, hlt, hres.symm⟩
      · simp at hcn

theorem chainWrites_nil (cn : Nat) : ∀ (n k sc : Nat), chainWrites [] cn n k sc = [] := by
  intro n
  induction n with
  | zero => intro k sc; rfl
  | succ n ih => intro k sc; simp [chainWrites, ih]

theorem slot_disjoint (R F s c j j' k i : Nat) (hF : 4 * (s + c) ≤ F) (hk : k < c)
    (hi : i < c) (hne : ¬ (j' = j ∧ i = k)) :
    R + j' * F + 4 * (s + i) + 4 ≤ R + j * F + 4 * (s + k) ∨
      R + j * F + 4 * (s + k) + 4 ≤ R + j' * F + 4 * (s + i) := by
  rcases Nat.lt_trichotomy j' j with h | h | h
  · have h1 : (j' + 1) * F ≤ j * F := Nat.mul_le_mul_right F h
    rw [Nat.succ_mul] at h1
    left; omega
  · subst h
    have : i ≠ k := fun hik => hne ⟨rfl, hik⟩
    omega
  · have h1 : (j + 1) * F ≤ j' * F := Nat.mul_le_mul_right F h
    rw [Nat.succ_mul] at h1
    right; omega

/-- The bytes of the image after a chain reconstruction on a well laid out volume whose
FAT copies hold the entries of the file's clusters. -/
theorem restore_bytes (f : List Int) (m : Image) (e s : Nat) (m' : Image)
    (hl : WellLaidOut m) (he : 48 ≤ e)
    (hfit : 4 * (s + fileClusters m e) ≤ fatBytes m)
    (hres : restore (fatAddressArr m) f m e s = some m') :
    (∀ j k t, j < BPB_NumFATs m → k < fileClusters m e → t < 4 →
      rd8 m' (BPB_RsvdSecCnt m * BPB_BytsPerSec m + j * fatBytes m + 4 * (s + k) + t)
        = (if k = fileClusters m e - 1 then 0xffffffff else s + k + 1) / 256 ^ t % 256) ∧
    (∀ x, (∀ j k, j < BPB_NumFATs m → k < fileClusters m e →
        x < BPB_RsvdSecCnt m * BPB_BytsPerSec m + j * fatBytes m + 4 * (s + k) ∨
        BPB_RsvdSecCnt m * BPB_BytsPerSec m + j * fatBytes m + 4 * (s + k) + 4 ≤ x) →
      m' x = wr8 m e (firstChar f) x) := by
  obtain ⟨_, _, hm'⟩ := restore_eq f m e s m' hl he hres
  have hds := hl.2
  by_cases hnf : BPB_NumFATs m = 0
  · have harr : fatAddressArr m = [] := by simp [fatAddressArr, hnf]
    rw [harr, chainWrites_nil] at hm'
    subst hm'
    exact ⟨fun j k t hj => by omega, fun x _ => rfl⟩
  · have hF : fatBytes m ≤ dataStart m := by
      have e1 : dataStart m = BPB_RsvdSecCnt m * BPB_BytsPerSec m
          + BPB_NumFATs m * fatBytes m := by
        unfold dataStart fatBytes; ring
      have e2 : 1 * fatBytes m ≤ BPB_NumFATs m * fatBytes m :=
        Nat.mul_le_mul_right _ (Nat.pos_of_ne_zero hnf)
      omega
    have hsc : s + fileClusters m e < 2 ^ 32 := by omega
    have hmem := mem_chainWrites (fatAddressArr m) (fileClusters m e) (fileClusters m e) 0 s
    subst hm'
    constructor
    · intro j k t hj hk ht
      have e0 : BPB_RsvdSecCnt m * BPB_BytsPerSec m + j * fatBytes m + 4 * (s + k) + t
          = (BPB_RsvdSecCnt m * BPB_BytsPerSec m + j * fatBytes m + 4 * (s + k)) + t := rfl
      rw [e0]
      apply applyWrites_byte
      · rw [hmem _ hsc]
        exact ⟨_, (mem_fatAddressArr m hl _).mpr ⟨j, hj, rfl⟩, k, hk, by simp⟩
      · intro w hw
        rw [hmem _ hsc] at hw
        obtain ⟨fa, hfa, i, hi, rfl⟩ := hw
        obtain ⟨j', hj', rfl⟩ := (mem_fatAddressArr m hl fa).mp hfa
        by_cases hsame : j' = j ∧ i = k
        · left
          obtain ⟨h1, h2⟩ := hsame
          subst h1; subst h2
          simp
        · right
          exact slot_disjoint _ _ s (fileClusters m e) j j' k i hfit hk hi hsame
      · exact ht
    · intro x hx
      apply applyWrites_other
      intro w hw
      rw [hmem _ hsc] at hw
      obtain ⟨fa, hfa, i, hi, rfl⟩ := hw
      obtain ⟨j', hj', rfl⟩ := (mem_fatAddressArr m hl fa).mp hfa
      exact hx j' i hj' hi

/-! ## C1: the chain in every FAT copy -/

theorem restore_boot (f : List Int) (m : Image) (e s : Nat) (m' : Image)
    (hl : WellLaidOut m) (he : 48 ≤ e)
    (hfit : 4 * (s + fileClusters m e) ≤ fatBytes m)
    (hres : restore (fatAddressArr m) f m e s = some m') : ∀ x, x < 48 → m' x = m x := by
  intro x hx
  have h48 := hl.1
  rw [(restore_bytes f m e s m' hl he hfit hres).2 x (fun j k _ _ => Or.inl (by omega))]
  exact wr8_other m e _ x (by omega)

/-- The FAT entries of the file's clusters after a chain reconstruction. -/
theorem restore_fat_entry (f : List Int) (m : Image) (e s : Nat) (m' : Image)
    (hl : WellLaidOut m) (he : 48 ≤ e)
    (hfit : 4 * (s + fileClusters m e) ≤ fatBytes m)
    (hres : restore (fatAddressArr m) f m e s = some m') :
    ∀ j k, j < BPB_NumFATs m → k < fileClusters m e →
      fatCopyEntry m' j (s + k) = (if k + 1 < fileClusters m e then s + k + 1 else 0xffffffff) := by
  have hboot := restore_boot f m e s m' hl he hfit hres
  obtain ⟨hfo, _⟩ := layout_congr m m' hboot
  intro j k hj hk
  unfold fatCopyEntry
  rw [hfo j, fatOffset_eq m hl j hj,
    rd32_of_bytes _ _ _ (fun t ht => (restore_bytes f m e s m' hl he hfit hres).1 j k t hj hk ht)]
  have hds := hl.2
  have hF : fatBytes m ≤ dataStart m := by
    have e1 : dataStart m = BPB_RsvdSecCnt m * BPB_BytsPerSec m
        + BPB_NumFATs m * fatBytes m := by
      unfold dataStart fatBytes; ring
    have e2 : 1 * fatBytes m ≤ BPB_NumFATs m * fatBytes m :=
      Nat.mul_le_mul_right _ (by omega)
    omega
  by_cases hlast : k + 1 < fileClusters m e
  · rw [if_neg (by omega), if_pos hlast]
    exact Nat.mod_eq_of_lt (by omega)
  · rw [if_pos (by omega), if_neg hlast]
    norm_num

/-- C1 (amended). On a volume whose FAT copies start after the boot-sector fields and end
below `2 ^ 32`, when a run succeeds for the selected entry at `e` (past the boot-sector
fields), with starting cluster `s` and `c` clusters, and every FAT copy has room for the
entries `s .. s + c - 1`, then after the run the cluster size is positive and entry
`s + k` of every FAT copy `j` is `s + k + 1` for `k < c - 1` and `0xffffffff`, an
end-of-chain marker, for `k = c - 1`. -/
theorem chain_written_in_every_fat {H : Type} [DecidableEq H] (sha : List Byte → H)
    (providedSHA : Option H) (f : List Int) (m : Image) (fuel : Nat) (r : Result) (e : Nat)
    (hrun : contRecover sha providedSHA f m fuel = some r) (hsel : r.selected = some e)
    (hl : WellLaidOut m) (he : 48 ≤ e)
    (hfit : 4 * (startingClusterOf m e + fileClusters m e) ≤ fatBytes m) :
    0 < BPB_BytsPerSec m * BPB_SecPerClus m ∧ BPB_NumFATs r.image = BPB_NumFATs m ∧
    ∀ j k, j < BPB_NumFATs r.image → k < fileClusters m e →
      fatCopyEntry r.image j (startingClusterOf m e + k)
          = (if k + 1 < fileClusters m e then startingClusterOf m e + k + 1 else 0xffffffff) ∧
        (k + 1 = fileClusters m e →
          0x0ffffff8 ≤ fatCopyEntry r.image j (startingClusterOf m e + k)) := by
  obtain ⟨hres, _, _, _⟩ := run_selected sha providedSHA f m fuel r e hrun hsel
  obtain ⟨hpos, _, _⟩ := restore_eq f m e _ r.image hl he hres
  have hboot := restore_boot f m e _ r.image hl he hfit hres
  obtain ⟨_, _, _, hnf, _, _⟩ := boot_fields_congr m r.image hboot
  refine ⟨hpos, hnf, ?_⟩
  intro j k hj hk
  rw [hnf] at hj
  have hval := restore_fat_entry f m e _ r.image hl he hfit hres j k hj hk
  refine ⟨hval, ?_⟩
  intro hlast
  rw [hval, if_neg (by omega)]
  decide

/-- The theorem `chain_written_in_every_fat` on the recovery of `HELLO.TXT` from
`helloImage`: one cluster, and entry 3 of FAT copy 1 is an end-of-chain marker. -/
theorem chain_written_in_every_fat_witness :
    fatCopyEntry helloRecovered 1 (startingClusterOf helloImage 1536 + 0) = 0xffffffff :=
  ((chain_written_in_every_fat sumDigest none helloName helloImage 5
    ⟨Diag.recovered, 0, helloRecovered, some 1536⟩ 1536 (by rfl) rfl
    ⟨by decide, by decide⟩ (by decide) (by decide)).2.2 1 0 (by decide) (by decide)).1

set_option maxRecDepth 1000000 in
/-- C1, as stated, fails: recovering `BIG.BIN` from `overflowImage` succeeds for the
entry with starting cluster 6 and 129 clusters of 512 bytes, and afterwards entry 6 of FAT
copy 1 is `0xffffffff`, not 7: it is the same four bytes as entry 134 of FAT copy 0, which
the chain loop stores last. -/
theorem chain_overwritten_by_next_copy :
    (contRecover sumDigest none bigName overflowImage 5).map
        (fun r => (r.diag, r.exit, r.selected, fatCopyEntry r.image 1 (6 + 0)))
      = some (Diag.recovered, 0, some 3072, 0xffffffff) ∧
    startingClusterOf overflowImage 3072 = 6 ∧ fileClusters overflowImage 3072 = 129 ∧
    BPB_BytsPerSec overflowImage * BPB_SecPerClus overflowImage = 512 ∧
    BPB_NumFATs overflowImage = 2 ∧ (0xffffffff : Nat) ≠ 6 + 0 + 1 := by
  decide

/-! ## C9: the FAT copies after a run -/

theorem byte_slot (R F s c j j' x k : Nat) (hx : x < F) (hF : 4 * (s + c) ≤ F) (hk : k < c)
    (h : j' = j → x < 4 * (s + k) ∨ 4 * (s + k) + 4 ≤ x) :
    R + j * F + x < R + j' * F + 4 * (s + k) ∨ R + j' * F + 4 * (s + k) + 4 ≤ R + j * F + x := by
  rcases Nat.lt_trichotomy j' j with h1 | h1 | h1
  · have h2 : (j' + 1) * F ≤ j * F := Nat.mul_le_mul_right F h1
    rw [Nat.succ_mul] at h2
    right; omega
  · subst h1
    rcases h rfl with h2 | h2
    · left; omega
    · right; omega
  · have h2 : (j + 1) * F ≤ j' * F := Nat.mul_le_mul_right F h1
    rw [Nat.succ_mul] at h2
    left; omega

theorem fatCopy_lt_dataStart (m : Image) (j x : Nat) (hj : j < BPB_NumFATs m)
    (hx : x < fatBytes m) :
    BPB_RsvdSecCnt m * BPB_BytsPerSec m + j * fatBytes m + x < dataStart m ∧
    (BPB_RsvdSecCnt m + j * BPB_FATSz32 m) * BPB_BytsPerSec m
      = BPB_RsvdSecCnt m * BPB_BytsPerSec m + j * fatBytes m := by
  have e1 : dataStart m = BPB_RsvdSecCnt m * BPB_BytsPerSec m
      + BPB_NumFATs m * fatBytes m := by
    unfold dataStart fatBytes; ring
  have e2 : (j + 1) * fatBytes m ≤ BPB_NumFATs m * fatBytes m := Nat.mul_le_mul_right _ hj
  rw [Nat.succ_mul] at e2
  refine ⟨by omega, ?_⟩
  unfold fatBytes; ring

/-- C9 (amended). On a volume whose FAT copies start after the boot-sector fields and end
below `2 ^ 32`, when a run succeeds for a selected entry in the data region whose
clusters have their entries inside every FAT copy, FAT copies that were byte-identical to
one another before the run are byte-identical to one another after it. -/
theorem fat_copies_stay_identical {H : Type} [DecidableEq H] (sha : List Byte → H)
    (providedSHA : Option H) (f : List Int) (m : Image) (fuel : Nat) (r : Result) (e : Nat)
    (hrun : contRecover sha providedSHA f m fuel = some r) (hsel : r.selected = some e)
    (hl : WellLaidOut m) (he : dataStart m ≤ e)
    (hfit : 4 * (startingClusterOf m e + fileClusters m e) ≤ fatBytes m)
    (hsame : ∀ j, j < BPB_NumFATs m → ∀ j', j' < BPB_NumFATs m → ∀ x, x < fatBytes m →
      fatCopyByte m j x = fatCopyByte m j' x) :
    ∀ j, j < BPB_NumFATs r.image → ∀ j', j' < BPB_NumFATs r.image →
      ∀ x, x < fatBytes r.image → fatCopyByte r.image j x = fatCopyByte r.image j' x := by
  have h48 := hl.1
  have hRd : BPB_RsvdSecCnt m * BPB_BytsPerSec m ≤ dataStart m := by
    unfold dataStart; rw [Nat.add_mul]; omega
  have he48 : 48 ≤ e := by omega
  obtain ⟨hres, _, _, _⟩ := run_selected sha providedSHA f m fuel r e hrun hsel
  have hboot := restore_boot f m e _ r.image hl he48 hfit hres
  obtain ⟨hbps, _, hrsv, hnf, hfsz, _⟩ := boot_fields_congr m r.image hboot
  obtain ⟨_, _, _, _, _, hfb⟩ := layout_congr m r.image hboot
  obtain ⟨hbytes, hframe⟩ := restore_bytes f m e _ r.image hl he48 hfit hres
  rw [hnf, hfb]
  -- the byte `x` of copy `j` after the run, in terms of the image before it
  have key : ∀ j, j < BPB_NumFATs m → ∀ x, x < fatBytes m →
      (4 * startingClusterOf m e ≤ x ∧ x < 4 * (startingClusterOf m e + fileClusters m e) →
        rd8 r.image (BPB_RsvdSecCnt m * BPB_BytsPerSec m + j * fatBytes m + x)
          = (if x / 4 - startingClusterOf m e = fileClusters m e - 1 then 0xffffffff
              else startingClusterOf m e + (x / 4 - startingClusterOf m e) + 1)
            / 256 ^ (x % 4) % 256) ∧
      (¬ (4 * startingClusterOf m e ≤ x ∧
          x < 4 * (startingClusterOf m e + fileClusters m e)) →
        r.image (BPB_RsvdSecCnt m * BPB_BytsPerSec m + j * fatBytes m + x)
          = m (BPB_RsvdSecCnt m * BPB_BytsPerSec m + j * fatBytes m + x)) := by
    intro j hj x hx
    constructor
    · intro hin
      have hk : x / 4 - startingClusterOf m e < fileClusters m e := by omega
      have := hbytes j (x / 4 - startingClusterOf m e) (x % 4) hj hk (Nat.mod_lt _ (by omega))
      have e1 : BPB_RsvdSecCnt m * BPB_BytsPerSec m + j * fatBytes m
          + 4 * (startingClusterOf m e + (x / 4 - startingClusterOf m e)) + x % 4
          = BPB_RsvdSecCnt m * BPB_BytsPerSec m + j * fatBytes m + x := by omega
      rw [e1] at this
      exact this
    · intro hout
      rw [hframe _ (fun j' k hj' hk => byte_slot _ _ _ _ j j' x k hx hfit hk (fun _ => by omega))]
      exact wr8_other m e _ _ (by have := (fatCopy_lt_dataStart m j x hj hx).1; omega)
  intro j hj j' hj' x hx
  simp only [fatCopyByte, hbps, hrsv, hfsz]
  rw [(fatCopy_lt_dataStart m j x hj hx).2, (fatCopy_lt_dataStart m j' x hj' hx).2]
  by_cases hin : 4 * startingClusterOf m e ≤ x ∧
      x < 4 * (startingClusterOf m e + fileClusters m e)
  · apply Fin.ext
    have h1 := (key j hj x hx).1 hin
    have h2 := (key j' hj' x hx).1 hin
    unfold rd8 at h1 h2
    rw [h1, h2]
  · rw [(key j hj x hx).2 hin, (key j' hj' x hx).2 hin]
    have := hsame j hj j' hj' x hx
    simp only [fatCopyByte] at this
    rw [(fatCopy_lt_dataStart m j x hj hx).2, (fatCopy_lt_dataStart m j' x hj' hx).2] at this
    exact this

set_option maxRecDepth 1000000 in
/-- The theorem `fat_copies_stay_identical` on the recovery of `HELLO.TXT` from
`helloImage`, whose two FAT copies are equal: byte 12 is the same in both copies of
`helloRecovered`. -/
theorem fat_copies_stay_identical_witness :
    fatCopyByte helloRecovered 0 12 = fatCopyByte helloRecovered 1 12 :=
  fat_copies_stay_identical sumDigest none helloName helloImage 5
    ⟨Diag.recovered, 0, helloRecovered, some 1536⟩ 1536 (by rfl) rfl
    ⟨by decide, by decide⟩ (by decide) (by decide) (by decide)
    0 (by decide) 1 (by decide) 12 (by decide)

/-- C9, as stated, fails: recovering `HELLO.TXT` from `unequalFatsImage` succeeds, and
afterwards byte 20 of FAT copy 0 is 0 and byte 20 of FAT copy 1 is 1, as before the run. -/
theorem fat_copies_differ_after_run :
    (contRecover sumDigest none helloName unequalFatsImage 5).map
        (fun r => (r.diag, r.exit, BPB_NumFATs r.image, decide (20 < fatBytes r.image),
          fatCopyByte r.image 0 20, fatCopyByte r.image 1 20))
      = some (Diag.recovered, 0, 2, true, 0, 1) := by
  decide

/-! ## C10: the directory and the chain after a run -/

/-- The scan collects, cluster by cluster of the directory chain, the entries of the
cluster that the selector accepts. -/
theorem scanDir_eq_flatMap (sel : Image → Nat → Bool) (m : Image) :
    ∀ (fuel cur : Nat) (cl : List Nat), dirChain m fuel cur = some cl →
      scanDir sel m fuel cur
        = some (cl.flatMap (fun n => scanEntries sel m (entriesPerCluster m) (clusterOffset m n))) := by
  intro fuel
  induction fuel with
  | zero => intro cur cl h; simp [dirChain] at h
  | succ fuel ih =>
    intro cur cl h
    unfold dirChain at h
    unfold scanDir
    split at h
    · rename_i hc
      rw [if_pos hc]
      split at h
      · simp at h
      · rename_i next hnext
        simp only [Option.map_eq_some'] at h
        obtain ⟨l, hl, rfl⟩ := h
        rw [ih next l hl]
        rfl
    · rename_i hc
      rw [if_neg hc]
      simp only [Option.some.injEq] at h
      subst h
      rfl

theorem dirChain_numFATs (m : Image) (fuel cur n : Nat) (cl : List Nat)
    (h : dirChain m fuel cur = some (n :: cl)) : 0 < BPB_NumFATs m := by
  cases fuel with
  | zero => simp [dirChain] at h
  | succ fuel =>
    unfold dirChain at h
    split at h
    · split at h
      · simp at h
      · rename_i next hnext
        unfold fatEntryAt at hnext
        rcases Nat.eq_zero_or_pos (BPB_NumFATs m) with h0 | h0
        · simp [fatAddressArr, h0] at hnext
        · exact h0
    · simp at h

/-- The directory chain is the same in two images that agree on the boot-sector fields
and on the FAT entries of the clusters of the chain. -/
theorem dirChain_congr (m m' : Image) (hboot : ∀ x, x < 48 → m' x = m x) :
    ∀ (fuel cur : Nat) (cl : List Nat), dirChain m fuel cur = some cl →
      (∀ n ∈ cl, ∀ t, t < 4 → m' (fatOffset m 0 + 4 * n + t) = m (fatOffset m 0 + 4 * n + t)) →
      dirChain m' fuel cur = some cl := by
  obtain ⟨_, _, harr, _⟩ := layout_congr m m' hboot
  intro fuel
  induction fuel with
  | zero => intro cur cl h; simp [dirChain] at h
  | succ fuel ih =>
    intro cur cl h hfat
    unfold dirChain at h
    unfold dirChain
    split at h
    · rename_i hc
      rw [if_pos hc]
      split at h
      · simp at h
      · rename_i next hnext
        simp only [Option.map_eq_some'] at h
        obtain ⟨l, hl, rfl⟩ := h
        have hnext' : fatEntryAt (fatAddressArr m') m' 0 cur = some next := by
          rw [harr]
          unfold fatEntryAt at hnext ⊢
          simp only [Option.map_eq_some'] at hnext ⊢
          obtain ⟨fa, hfa, hv⟩ := hnext
          refine ⟨fa, hfa, ?_⟩
          have hfa0 : fa = fatOffset m 0 := by
            have hlen : 0 < (fatAddressArr m).length := by
              rcases List.getElem?_eq_some.mp hfa with ⟨h0, _⟩
              exact h0
            rw [List.getElem?_eq_getElem hlen] at hfa
            simp only [Option.some.injEq] at hfa
            rw [← hfa]
            simp [fatAddressArr]
          rw [← hv, hfa0]
          exact rd32_congr m m' _ (fun t ht => hfat cur (by simp) t ht)
        simp only [hnext']
        rw [ih next l hl (fun n hn => hfat n (by simp [hn]))]
        rfl
    · rename_i hc
      rw [if_neg hc]
      exact h

/-- An entry that the scan of a cluster collects is reached over entries whose first name
byte is not zero. -/
theorem scanEntries_mem (sel : Image → Nat → Bool) (m : Image) (a : Nat) :
    ∀ (n b : Nat), a ∈ scanEntries sel m n b →
      ∃ i, i < n ∧ a = b + 32 * i ∧ ∀ i', i' ≤ i → DIR_Name m (b + 32 * i') 0 ≠ 0 := by
  intro n
  induction n with
  | zero => intro b h; simp [scanEntries] at h
  | succ n ih =>
    intro b h
    unfold scanEntries at h
    split at h
    · simp at h
    · rename_i hnz
      rw [List.mem_append] at h
      rcases h with h | h
      · split at h
        · simp only [List.mem_singleton] at h
          subst h
          refine ⟨0, by omega, by simp, ?_⟩
          intro i' hi'
          have : i' = 0 := by omega
          subst this
          simpa using hnz
        · simp at h
      · obtain ⟨i, hi, ha, hall⟩ := ih (b + 32) h
        refine ⟨i + 1, by omega, by omega, ?_⟩
        intro i' hi'
        cases i' with
        | zero => simpa using hnz
        | succ i' =>
          have := hall i' (by omega)
          have e1 : b + 32 + 32 * i' = b + 32 * (i' + 1) := by omega
          rw [e1] at this
          exact this

theorem mem_scanEntries_any (m : Image) :
    ∀ (n b i : Nat), i < n → (∀ i', i' ≤ i → DIR_Name m (b + 32 * i') 0 ≠ 0) →
      b + 32 * i ∈ scanEntries anyEntry m n b := by
  intro n
  induction n with
  | zero => intro b i hi; omega
  | succ n ih =>
    intro b i hi hall
    unfold scanEntries
    have h0 : DIR_Name m b 0 ≠ 0 := by simpa using hall 0 (by omega)
    rw [if_neg h0]
    cases i with
    | zero => simp [anyEntry]
    | succ i =>
      rw [List.mem_append]
      right
      have := ih (b + 32) i (by omega) (fun i' hi' => by
        have := hall (i' + 1) (by omega)
        have e1 : b + 32 + 32 * i' = b + 32 * (i' + 1) := by omega
        rw [e1]
        exact this)
      have e2 : b + 32 + 32 * i = b + 32 * (i + 1) := by omega
      rw [e2] at this
      exact this

theorem firstChar_lt (f : List Int) : firstChar f < 256 := by
  unfold firstChar
  have h1 : 0 ≤ f.getD 0 0 % 256 := Int.emod_nonneg _ (by decide)
  have h2 : f.getD 0 0 % 256 < 256 := Int.emod_lt_of_pos _ (by decide)
  omega

/-- After a chain reconstruction every byte from the data region on is as before, but
for the first name byte of the entry. -/
theorem restore_data (f : List Int) (m : Image) (e s : Nat) (m' : Image)
    (hl : WellLaidOut m) (he : 48 ≤ e)
    (hfit : 4 * (s + fileClusters m e) ≤ fatBytes m)
    (hres : restore (fatAddressArr m) f m e s = some m') :
    ∀ x, dataStart m ≤ x → m' x = wr8 m e (firstChar f) x := by
  intro x hx
  apply (restore_bytes f m e s m' hl he hfit hres).2
  intro j k hj hk
  right
  have := (fatCopy_lt_dataStart m j (4 * (s + k) + 3) hj (by omega)).1
  omega

theorem run_single {H : Type} [DecidableEq H] (sha : List Byte → H) (f : List Int) (m : Image)
    (fuel : Nat) (r : Result) (e : Nat)
    (hscan : scanDir (matchEntry f) m fuel (BPB_RootClus m) = some [e])
    (hrun : contRecover sha none f m fuel = some r) :
    r.diag = Diag.recovered ∧ r.exit = 0 ∧ r.selected = some e := by
  rw [contRecover_of_scan sha none f m fuel [e] hscan (by simp)] at hrun
  change (restore (fatAddressArr m) f m e (startingClusterOf m e)).map
    (fun m1 => (⟨Diag.recovered, 0, m1, some e⟩ : Result)) = some r at hrun
  rw [Option.map_eq_some'] at hrun
  obtain ⟨m1, _, h2⟩ := hrun
  subst h2
  exact ⟨rfl, rfl, rfl⟩

theorem startingClusterOf_congr (m m' : Image) (e : Nat)
    (h : ∀ i, 1 ≤ i → i < 32 → m' (e + i) = m (e + i)) :
    startingClusterOf m' e = startingClusterOf m e ∧ DIR_Attr m' e = DIR_Attr m e ∧
      DIR_FileSize m' e = DIR_FileSize m e := by
  have h1 : DIR_FstClusHI m' e = DIR_FstClusHI m e :=
    rd16_congr m m' (e + 20) (fun t ht => by
      have := h (20 + t) (by omega) (by omega)
      rw [← Nat.add_assoc] at this; exact this)
  have h2 : DIR_FstClusLO m' e = DIR_FstClusLO m e :=
    rd16_congr m m' (e + 26) (fun t ht => by
      have := h (26 + t) (by omega) (by omega)
      rw [← Nat.add_assoc] at this; exact this)
  refine ⟨by simp only [startingClusterOf, h1, h2], ?_, ?_⟩
  · simp only [DIR_Attr, rd8, h 11 (by omega) (by omega)]
  · exact rd32_congr m m' (e + 28) (fun t ht => by
      have := h (28 + t) (by omega) (by omega)
      rw [← Nat.add_assoc] at this; exact this)

/-- C10 (amended). Let the deleted entry at `e`, of size `z > 0` and starting cluster `s`,
be the only candidate for `f`, on a volume whose FAT copies start after the boot-sector
fields and end below `2 ^ 32`, whose FAT copies have room for the entries of the clusters
`s .. s + c - 1` of the file (`c` the cluster count, all of them below the end-of-chain
markers), and whose root directory clusters lie in the data region, have their entries
inside FAT copy 0 and are none of the clusters of the file. After the run without a hash
(which ends with `successfully recovered` and status 0) a scan of the directory visits the
entry at `e`; its first name byte is the first character of `f`, its other 31 bytes (so
the rest of the name, the attribute, the starting cluster and the size) are as before; and
following FAT copy 0 from `s` visits exactly the clusters `s, s + 1, .., s + c - 1` and then
reaches an end-of-chain marker. -/
theorem recovery_round_trip {H : Type} [DecidableEq H] (sha : List Byte → H) (f : List Int)
    (m : Image) (fuel : Nat) (r : Result) (e : Nat) (cl : List Nat)
    (hscan : scanDir (matchEntry f) m fuel (BPB_RootClus m) = some [e])
    (hrun : contRecover sha none f m fuel = some r)
    (hchar : firstChar f ≠ 0)
    (hz : 0 < DIR_FileSize m e)
    (hl : WellLaidOut m)
    (hfit : 4 * (startingClusterOf m e + fileClusters m e) ≤ fatBytes m)
    (hnum : startingClusterOf m e + fileClusters m e ≤ 0x0ffffff8)
    (hdir : dirChain m fuel (BPB_RootClus m) = some cl)
    (hcl : ∀ n ∈ cl, dataStart m ≤ clusterOffset m n ∧ 4 * n + 4 ≤ fatBytes m ∧
      (n < startingClusterOf m e ∨ startingClusterOf m e + fileClusters m e ≤ n)) :
    r.diag = Diag.recovered ∧ r.exit = 0 ∧
    (∃ vis, scanDir anyEntry r.image fuel (BPB_RootClus r.image) = some vis ∧ e ∈ vis) ∧
    DIR_Name r.image e 0 = firstChar f ∧
    (∀ i, 1 ≤ i → i < 32 → r.image (e + i) = m (e + i)) ∧
    DIR_Attr r.image e = DIR_Attr m e ∧
    startingClusterOf r.image e = startingClusterOf m e ∧
    DIR_FileSize r.image e = DIR_FileSize m e ∧
    ChainEndsAfter r.image (startingClusterOf m e) (fileClusters m e) := by
  obtain ⟨hdiag, hexit, hsel⟩ := run_single sha f m fuel r e hscan hrun
  obtain ⟨hres, _, _, _⟩ := run_selected sha none f m fuel r e hrun hsel
  -- the entry lies in a cluster of the directory chain
  have hflat := scanDir_eq_flatMap (matchEntry f) m fuel (BPB_RootClus m) cl hdir
  rw [hscan] at hflat
  simp only [Option.some.injEq] at hflat
  have hmem : e ∈ cl.flatMap
      (fun n => scanEntries (matchEntry f) m (entriesPerCluster m) (clusterOffset m n)) := by
    rw [← hflat]; simp
  obtain ⟨n, hn, hen⟩ := List.mem_flatMap.mp hmem
  obtain ⟨i, hi, hei, hnz⟩ := scanEntries_mem _ m e _ _ hen
  have h48 := hl.1
  have hds := hl.2
  have hRd : BPB_RsvdSecCnt m * BPB_BytsPerSec m ≤ dataStart m := by
    unfold dataStart; rw [Nat.add_mul]; omega
  have heds : dataStart m ≤ e := by have := (hcl n hn).1; omega
  have he48 : 48 ≤ e := by omega
  have hnf : 0 < BPB_NumFATs m := by
    cases cl with
    | nil => simp at hn
    | cons n0 cl0 => exact dirChain_numFATs m fuel _ n0 cl0 hdir
  obtain ⟨hpos, _, _⟩ := restore_eq f m e _ r.image hl he48 hres
  have hboot := restore_boot f m e _ r.image hl he48 hfit hres
  obtain ⟨_, _, _, _, _, hroot⟩ := boot_fields_congr m r.image hboot
  obtain ⟨_, hco, _, hepc, _, _⟩ := layout_congr m r.image hboot
  have hdata := restore_data f m e _ r.image hl he48 hfit hres
  have hframe := (restore_bytes f m e _ r.image hl he48 hfit hres).2
  have hc0 := firstChar_lt f
  -- the first name byte of an entry of the data region stays non-zero
  have hname : ∀ a, dataStart m ≤ a → DIR_Name m a 0 ≠ 0 → DIR_Name r.image a 0 ≠ 0 := by
    intro a ha hne
    simp only [DIR_Name, Nat.add_zero, rd8] at hne ⊢
    rw [hdata a ha]
    by_cases hae : a = e
    · subst hae
      have := wr8_same m a (firstChar f)
      unfold rd8 at this
      rw [this, Nat.mod_eq_of_lt hc0]
      exact hchar
    · rw [wr8_other m e _ a hae]; exact hne
  -- the directory chain is the same after the run
  have hdir' : dirChain r.image fuel (BPB_RootClus r.image) = some cl := by
    rw [hroot]
    apply dirChain_congr m r.image hboot fuel _ cl hdir
    intro n' hn' t ht
    obtain ⟨_, h2, h3⟩ := hcl n' hn'
    rw [fatOffset_eq m hl 0 hnf]
    have hlt := (fatCopy_lt_dataStart m 0 (4 * n' + t) hnf (by omega)).1
    have e1 : BPB_RsvdSecCnt m * BPB_BytsPerSec m + 0 * fatBytes m + 4 * n' + t
        = BPB_RsvdSecCnt m * BPB_BytsPerSec m + 0 * fatBytes m + (4 * n' + t) := by omega
    rw [e1, hframe _ (fun j' k hj' hk =>
      byte_slot _ _ _ _ 0 j' (4 * n' + t) k (by omega) hfit hk (fun _ => by omega))]
    exact wr8_other m e _ _ (by omega)
  have hflat' := scanDir_eq_flatMap anyEntry r.image fuel (BPB_RootClus r.image) cl hdir'
  refine ⟨hdiag, hexit, ⟨_, hflat', ?_⟩, ?_, ?_, ?_⟩
  · rw [List.mem_flatMap]
    refine ⟨n, hn, ?_⟩
    rw [hepc, hco n, hei]
    apply mem_scanEntries_any r.image _ _ i hi
    intro i' hi'
    exact hname _ (by have := (hcl n hn).1; omega) (hnz i' hi')
  · simp only [DIR_Name, Nat.add_zero]
    rw [rd8, hdata e heds]
    have := wr8_same m e (firstChar f)
    unfold rd8 at this
    rw [this, Nat.mod_eq_of_lt hc0]
  · intro i' h1 h2
    rw [hdata _ (by omega)]
    exact wr8_other m e _ _ (by omega)
  · have hrest : ∀ i', 1 ≤ i' → i' < 32 → r.image (e + i') = m (e + i') := by
      intro i' h1 h2
      rw [hdata _ (by omega)]
      exact wr8_other m e _ _ (by omega)
    obtain ⟨a1, a2, a3⟩ := startingClusterOf_congr m r.image e hrest
    refine ⟨a2, a1, a3, ?_⟩
    have hent := restore_fat_entry f m e _ r.image hl he48 hfit hres 0
    have hc1 : 1 ≤ fileClusters m e := by
      unfold fileClusters
      rw [Nat.le_div_iff_mul_le hpos]
      omega
    have hwalk : ∀ k, k < fileClusters m e →
        chainAt r.image k (startingClusterOf m e) = startingClusterOf m e + k := by
      intro k
      induction k with
      | zero => intro _; rfl
      | succ k ih =>
        intro hk
        rw [chainAt, ih (by omega), hent k hnf (by omega), if_pos hk]
        omega
    refine ⟨fun k hk => ⟨hwalk k hk, by omega⟩, ?_⟩
    obtain ⟨c', hc'⟩ : ∃ c', fileClusters m e = c' + 1 := ⟨fileClusters m e - 1, by omega⟩
    rw [hc', chainAt, hwalk c' (by omega), hent c' hnf (by omega), if_neg (by omega)]
    decide

set_option maxRecDepth 1000000 in
/-- The theorem `recovery_round_trip` on the recovery of `HELLO.TXT` from `helloImage`:
the attribute of the entry at 1536 is unchanged. -/
theorem recovery_round_trip_witness :
    DIR_Attr helloRecovered 1536 = DIR_Attr helloImage 1536 ∧
    ChainEndsAfter helloRecovered (startingClusterOf helloImage 1536)
      (fileClusters helloImage 1536) :=
  ((recovery_round_trip sumDigest helloName helloImage 5
    ⟨Diag.recovered, 0, helloRecovered, some 1536⟩ 1536 [2] (by decide) (by rfl) (by decide)
    (by decide) ⟨by decide, by decide⟩ (by decide) (by decide) (by decide)
    (by decide)).2.2.2.2.2).imp id (fun h => h.2.2)

/-- C10, as stated, fails for an empty file: recovering `EMPTY.TXT` from `emptyFileImage`
succeeds for the only candidate, of size 0 and starting cluster 0, and stores no FAT entry;
afterwards following FAT copy 0 from cluster 0 for 0 clusters does not reach an end-of-chain
marker. -/
theorem empty_file_has_no_chain_end :
    scanDir (matchEntry emptyName) emptyFileImage 5 (BPB_RootClus emptyFileImage)
      = some [1536] ∧
    contRecover sumDigest none emptyName emptyFileImage 5
      = some ⟨Diag.recovered, 0, wr8 emptyFileImage 1536 69, some 1536⟩ ∧
    startingClusterOf emptyFileImage 1536 = 0 ∧ fileClusters emptyFileImage 1536 = 0 ∧
    ¬ ChainEndsAfter (wr8 emptyFileImage 1536 69) 0 0 := by
  refine ⟨by decide, by rfl, by decide, by decide, ?_⟩
  intro h
  have h2 := h.2
  revert h2
  decide

/-- The layout conditions of `recovery_round_trip` on the directory chain are needed:
recovering `HELLO.TXT` from `selfChainImage` succeeds for the only candidate, at 2048 in the
second cluster of the directory, whose one cluster is the first cluster of the directory;
the run stores an end-of-chain marker in FAT entry 2, and a scan of the directory no longer
visits the entry. -/
theorem rescan_can_miss_the_entry :
    scanDir (matchEntry helloName) selfChainImage 5 (BPB_RootClus selfChainImage)
      = some [2048] ∧
    (contRecover sumDigest none helloName selfChainImage 5).map
        (fun r => (r.diag, r.exit, scanDir anyEntry r.image 5 (BPB_RootClus r.image)))
      = some (Diag.recovered, 0, some []) := by
  decide

/-! ## The loop bounds of the embedding never cut a loop short -/

/-- The base-name loop gives the same result for every number of tests that reaches the
end of the name. -/
theorem nameLoop_fuel (f : List Int) (m : Image) (e : Nat) :
    ∀ (n n' i : Nat), f.length < n + i → f.length < n' + i →
      nameLoop f m e n i = nameLoop f m e n' i := by
  intro n
  induction n with
  | zero =>
    intro n' i h1 h2
    cases n' with
    | zero => rfl
    | succ n' => simp only [nameLoop]; rw [if_neg (by omega)]
  | succ n ih =>
    intro n' i h1 h2
    cases n' with
    | zero => simp only [nameLoop]; rw [if_neg (by omega)]
    | succ n' => simp only [nameLoop]; rw [ih n' (i + 1) (by omega) (by omega)]

/-- The extension loop gives the same result for every number of tests that reaches the
end of the name. -/
theorem extLoop_fuel (f : List Int) (m : Image) (e : Nat) :
    ∀ (n n' i j : Nat), f.length < n + i → f.length < n' + i →
      extLoop f m e n i j = extLoop f m e n' i j := by
  intro n
  induction n with
  | zero =>
    intro n' i j h1 h2
    cases n' with
    | zero => rfl
    | succ n' => simp only [extLoop]; rw [if_neg (by omega)]
  | succ n ih =>
    intro n' i j h1 h2
    cases n' with
    | zero => simp only [extLoop]; rw [if_neg (by omega)]
    | succ n' => simp only [extLoop]; rw [ih n' (i + 1) (j + 1) (by omega) (by omega)]

/-- The loop over the FAT copies gives the same result for every number of tests above
`BPB_NumFATs`, a byte. -/
theorem fatLoop_fuel (arr : List Nat) (idx val : Nat) :
    ∀ (n n' j : Nat) (m : Image), 255 < n + j → 255 < n' + j →
      fatLoop arr idx val n j m = fatLoop arr idx val n' j m := by
  intro n
  induction n with
  | zero =>
    intro n' j m h1 h2
    have hb : BPB_NumFATs m < 256 := rd8_lt m 16
    cases n' with
    | zero => rfl
    | succ n' => simp only [fatLoop]; rw [if_neg (by omega)]
  | succ n ih =>
    intro n' j m h1 h2
    have hb : BPB_NumFATs m < 256 := rd8_lt m 16
    cases n' with
    | zero => simp only [fatLoop]; rw [if_neg (by omega)]
    | succ n' =>
      simp only [fatLoop]
      split
      · split
        · rfl
        · exact ih n' (j + 1) _ (by omega) (by omega)
      · rfl

/-! ## The scan of the directory, for every selector -/

/-- The entries that the scan of a cluster collects are, among those it visits, the ones
that the selector accepts. -/
theorem scanEntries_filter (sel : Image → Nat → Bool) (m : Image) :
    ∀ n a, scanEntries sel m n a = (scanEntries anyEntry m n a).filter (sel m) := by
  intro n
  induction n with
  | zero => intro a; rfl
  | succ n ih =>
    intro a
    unfold scanEntries
    split
    · rfl
    · rw [ih (a + 32)]
      by_cases hs : sel m a = true
      · simp [anyEntry, hs, List.filter_cons]
      · simp [anyEntry, hs, List.filter_cons]

/-- The entries that the scan of a cluster visits: those at `b`, `b + 32`, ... before the
first one whose first name byte is zero, and at most as many as the bound allows. -/
theorem scanEntries_any (m : Image) :
    ∀ n b, ∃ k, k ≤ n ∧ scanEntries anyEntry m n b = (List.range k).map (fun i => b + 32 * i) ∧
      (∀ i, i < k → DIR_Name m (b + 32 * i) 0 ≠ 0) ∧
      (k < n → DIR_Name m (b + 32 * k) 0 = 0) := by
  intro n
  induction n with
  | zero => intro b; exact ⟨0, le_refl _, rfl, fun i hi => by omega, fun h => by omega⟩
  | succ n ih =>
    intro b
    unfold scanEntries
    split
    · rename_i hz
      exact ⟨0, by omega, rfl, fun i hi => by omega, fun _ => by simpa using hz⟩
    · rename_i hnz
      obtain ⟨k, hk, hl, hne, hzero⟩ := ih (b + 32)
      refine ⟨k + 1, by omega, ?_, ?_, ?_⟩
      · rw [hl, List.range_succ_eq_map]
        simp only [anyEntry, if_true, List.singleton_append, List.map_cons, List.map_map,
          Nat.mul_zero, Nat.add_zero, List.cons.injEq, true_and]
        apply List.map_congr_left
        intro i _
        simp only [Function.comp, Nat.succ_eq_add_one]
        omega
      · intro i hi
        cases i with
        | zero => simpa using hnz
        | succ i =>
          have := hne i (by omega)
          have e1 : b + 32 + 32 * i = b + 32 * (i + 1) := by omega
          rw [e1] at this
          exact this
      · intro hlt
        have := hzero (by omega)
        have e1 : b + 32 + 32 * k = b + 32 * (k + 1) := by omega
        rw [e1] at this
        exact this

/-- A scan that ends has walked a chain of clusters. -/
theorem dirChain_of_scanDir (sel : Image → Nat → Bool) (m : Image) :
    ∀ (fuel cur : Nat) (l : List Nat), scanDir sel m fuel cur = some l →
      ∃ cl, dirChain m fuel cur = some cl := by
  intro fuel
  induction fuel with
  | zero => intro cur l h; simp [scanDir] at h
  | succ fuel ih =>
    intro cur l h
    unfold scanDir at h
    unfold dirChain
    split at h
    · rename_i hc
      rw [if_pos hc]
      split at h
      · simp at h
      · rename_i next hnext
        simp only [Option.map_eq_some'] at h
        obtain ⟨l', hl', _⟩ := h
        obtain ⟨cl', hcl'⟩ := ih next l' hl'
        exact ⟨cur :: cl', by simp [hnext, hcl']⟩
    · rename_i hc
      rw [if_neg hc]
      exact ⟨[], rfl⟩

/-- The clusters of the directory chain are not 0 and are below the end-of-chain markers. -/
theorem dirChain_mem (m : Image) :
    ∀ (fuel cur : Nat) (cl : List Nat), dirChain m fuel cur = some cl →
      ∀ n ∈ cl, n ≠ 0 ∧ n < 0x0ffffff8 := by
  intro fuel
  induction fuel with
  | zero => intro cur cl h; simp [dirChain] at h
  | succ fuel ih =>
    intro cur cl h
    unfold dirChain at h
    split at h
    · rename_i hc
      split at h
      · simp at h
      · rename_i next hnext
        simp only [Option.map_eq_some'] at h
        obtain ⟨l', hl', rfl⟩ := h
        intro n hn
        rcases List.mem_cons.mp hn with h1 | h1
        · subst h1; exact ⟨hc.2, hc.1⟩
        · exact ih next l' hl' n h1
    · simp only [Option.some.injEq] at h
      subst h
      intro n hn
      simp at hn

/-! ## C11: the scenario of `HELLO.TXT` -/

/-- A scan with a selector that accepts only entries another selector accepts collects, of
the entries the other collects, the ones it accepts. -/
theorem scanDir_filter (sel sel' : Image → Nat → Bool) (m : Image)
    (himp : ∀ a, sel' m a = true → sel m a = true) (fuel cur : Nat) (l : List Nat)
    (hscan : scanDir sel m fuel cur = some l) :
    scanDir sel' m fuel cur = some (l.filter (sel' m)) := by
  obtain ⟨cl, hcl⟩ := dirChain_of_scanDir sel m fuel cur l hscan
  have h1 := scanDir_eq_flatMap sel m fuel cur cl hcl
  rw [hscan] at h1
  simp only [Option.some.injEq] at h1
  rw [scanDir_eq_flatMap sel' m fuel cur cl hcl, h1, List.filter_flatMap]
  congr 2
  funext n
  rw [scanEntries_filter sel' m, scanEntries_filter sel m, List.filter_filter]
  congr 1
  funext a
  by_cases h : sel' m a = true
  · simp [h, himp a h]
  · simp [h]

/-- The chain reconstruction is defined on a well laid out volume, for an entry past the
boot-sector fields, a cluster size that is not zero and fewer than `2 ^ 31` clusters. -/
theorem restore_some (f : List Int) (m : Image) (e s : Nat) (hl : WellLaidOut m)
    (he : 48 ≤ e) (hpos : 0 < BPB_BytsPerSec m * BPB_SecPerClus m)
    (hc : fileClusters m e < 2 ^ 31) :
    restore (fatAddressArr m) f m e s
      = some (applyWrites (wr8 m e (firstChar f))
          (chainWrites (fatAddressArr m) (fileClusters m e) (fileClusters m e) 0 s)) := by
  obtain ⟨h1, h2, _, h4, _⟩ := boot_fields_congr m (wr8 m e (firstChar f)) (wr8_boot m e _ he)
  have h17 : ∀ fa ∈ fatAddressArr m, 17 ≤ fa := by
    intro fa hfa
    obtain ⟨j, _, rfl⟩ := (mem_fatAddressArr m hl fa).mp hfa
    have := hl.1
    omega
  have hlen : (fatAddressArr m).length < 256 := by
    rw [length_fatAddressArr]; exact rd8_lt m 16
  unfold restore
  simp only [clusterNumOf, h1, h2, fileClusters_wr8 m e _ he]
  rw [if_neg (by omega), if_pos hc]
  exact chainLoop_eq _ _ h17 hlen _ _ _ _ (by rw [h4, length_fatAddressArr])

theorem matchEntry_deleted (f : List Int) (m : Image) (a : Nat) (h : matchEntry f m a = true) :
    isDeleted m a = true := by
  simp only [matchEntry, Bool.and_eq_true, decide_eq_true_eq] at h
  simp only [isDeleted, decide_eq_true_eq]
  exact h.1

theorem hello_entry_matches (m : Image) (e : Nat)
    (hname : ∀ i, i < 11 →
      DIR_Name m e i = [0xe5, 69, 76, 76, 79, 32, 32, 32, 84, 88, 84].getD i 0) :
    matchEntry helloLower m e = false ∧ matchEntry helloName m e = true := by
  have h0 := hname 0 (by omega)
  have h1 := hname 1 (by omega)
  have h2 := hname 2 (by omega)
  have h3 := hname 3 (by omega)
  have h4 := hname 4 (by omega)
  have h5 := hname 5 (by omega)
  have h8 := hname 8 (by omega)
  have h9 := hname 9 (by omega)
  have h10 := hname 10 (by omega)
  simp only [List.getD_cons_zero, List.getD_cons_succ] at h0 h1 h2 h3 h4 h5 h8 h9 h10
  constructor
  · simp [matchEntry, nameLoop, extPassed, extLoop, autoPass, helloLower, h0, h1]
  · simp [matchEntry, nameLoop, extPassed, extLoop, autoPass, helloName, h0, h1, h2, h3, h4,
      h5, h8, h9, h10]

/-- C11 (amended). On a volume with clusters of 512 bytes let the root directory hold
exactly one deleted entry, with the name bytes `0xE5 E L L O _ _ _ T X T` and the size 100.
Then the matcher pass for `hello.txt` finds no candidate, and the run prints
`file not found` and leaves the image as it was; the matcher pass for `HELLO.TXT` finds that
entry alone. When moreover the FAT copies start after the boot-sector fields and end below
`2 ^ 32`, the entry lies in the data region and the entry of its starting cluster `s` lies
inside a FAT copy, the run for `HELLO.TXT` succeeds for that entry, sets its first name byte
to `H`, stores `0xffffffff` in entry `s` of every FAT copy, and changes no other byte. -/
theorem scenario_hello {H : Type} [DecidableEq H] (sha : List Byte → H) (m : Image)
    (fuel e : Nat)
    (hcb : BPB_BytsPerSec m * BPB_SecPerClus m = 512)
    (hdel : scanDir isDeleted m fuel (BPB_RootClus m) = some [e])
    (hname : ∀ i, i < 11 →
      DIR_Name m e i = [0xe5, 69, 76, 76, 79, 32, 32, 32, 84, 88, 84].getD i 0)
    (hsize : DIR_FileSize m e = 100) :
    scanDir (matchEntry helloLower) m fuel (BPB_RootClus m) = some [] ∧
    (∃ r, contRecover sha none helloLower m fuel = some r ∧ r.diag = Diag.notFound ∧
      r.selected = none ∧ r.image = m) ∧
    scanDir (matchEntry helloName) m fuel (BPB_RootClus m) = some [e] ∧
    (WellLaidOut m → dataStart m ≤ e → 4 * (startingClusterOf m e + 1) ≤ fatBytes m →
      ∃ r, contRecover sha none helloName m fuel = some r ∧ r.diag = Diag.recovered ∧
        r.exit = 0 ∧ r.selected = some e ∧ DIR_Name r.image e 0 = 72 ∧
        (∀ j, j < BPB_NumFATs r.image →
          fatCopyEntry r.image j (startingClusterOf m e) = 0xffffffff) ∧
        (∀ x, x ≠ e →
          (∀ j, j < BPB_NumFATs m → x < fatOffset m j + 4 * startingClusterOf m e ∨
            fatOffset m j + 4 * startingClusterOf m e + 4 ≤ x) →
          r.image x = m x)) := by
  obtain ⟨hlow, hup⟩ := hello_entry_matches m e hname
  have hscanL : scanDir (matchEntry helloLower) m fuel (BPB_RootClus m) = some [] := by
    rw [scanDir_filter isDeleted _ m (matchEntry_deleted helloLower m) fuel _ [e] hdel]
    simp [hlow]
  have hscanU : scanDir (matchEntry helloName) m fuel (BPB_RootClus m) = some [e] := by
    rw [scanDir_filter isDeleted _ m (matchEntry_deleted helloName m) fuel _ [e] hdel]
    simp [hup]
  refine ⟨hscanL, ⟨_, contRecover_of_scan sha none helloLower m fuel [] hscanL (by simp), rfl,
    rfl, rfl⟩, hscanU, ?_⟩
  intro hl he hfit
  have h48 := hl.1
  have hRd : BPB_RsvdSecCnt m * BPB_BytsPerSec m ≤ dataStart m := by
    unfold dataStart; rw [Nat.add_mul]; omega
  have he48 : 48 ≤ e := by omega
  have hc1 : fileClusters m e = 1 := by
    unfold fileClusters; rw [hsize, hcb]
  have hfit' : 4 * (startingClusterOf m e + fileClusters m e) ≤ fatBytes m := by
    rw [hc1]; exact hfit
  obtain ⟨m', hres⟩ : ∃ m', restore (fatAddressArr m) helloName m e (startingClusterOf m e)
      = some m' :=
    ⟨_, restore_some helloName m e (startingClusterOf m e) hl he48 (by omega)
      (by rw [hc1]; norm_num)⟩
  refine ⟨⟨Diag.recovered, 0, m', some e⟩, ?_, rfl, rfl, rfl, ?_, ?_, ?_⟩
  · rw [contRecover_of_scan sha none helloName m fuel [e] hscanU (by simp)]
    change (restore (fatAddressArr m) helloName m e (startingClusterOf m e)).map
      (fun m1 => (⟨Diag.recovered, 0, m1, some e⟩ : Result)) = _
    rw [hres]
    rfl
  · simp only [DIR_Name, Nat.add_zero]
    rw [rd8, restore_data helloName m e _ _ hl he48 hfit' hres e he]
    have := wr8_same m e (firstChar helloName)
    unfold rd8 at this
    rw [this]
    decide
  · intro j hj
    have hboot := restore_boot helloName m e _ _ hl he48 hfit' hres
    obtain ⟨_, _, _, hnf, _, _⟩ := boot_fields_congr m _ hboot
    simp only [] at hj
    rw [hnf] at hj
    have := restore_fat_entry helloName m e _ _ hl he48 hfit' hres j 0 hj (by omega)
    rw [hc1] at this
    simpa using this
  · intro x hx hout
    simp only []
    rw [(restore_bytes helloName m e _ _ hl he48 hfit' hres).2 x (fun j k hj hk => by
      have hk0 : k = 0 := by omega
      subst hk0
      have := hout j hj
      rw [fatOffset_eq m hl j hj] at this
      simpa using this)]
    exact wr8_other m e _ x hx

set_option maxRecDepth 1000000 in
/-- The theorem `scenario_hello` on `helloImage`: after the recovery of `HELLO.TXT` the first
name byte of the entry at 1536 is `H`. -/
theorem scenario_hello_witness :
    ∃ r, contRecover sumDigest none helloName helloImage 5 = some r ∧
      r.diag = Diag.recovered ∧ r.exit = 0 ∧ r.selected = some 1536 ∧
      DIR_Name r.image 1536 0 = 72 :=
  ((scenario_hello sumDigest helloImage 5 1536 (by decide) (by decide) (by decide)
    (by decide)).2.2.2 ⟨by decide, by decide⟩ (by decide) (by decide)).imp
    (fun _ h => ⟨h.1, h.2.1, h.2.2.1, h.2.2.2.1, h.2.2.2.2.1⟩)

/-- C11, as stated, fails: `aliasImage` has clusters of 512 bytes and its root directory
holds exactly one deleted entry, with the name bytes of the scenario and the size 100.
Recovering `HELLO.TXT` succeeds, and afterwards the first name byte of the entry is `0xff`,
not `H`: the entry has the starting cluster 256, and entry 256 of FAT copy 0 is the first
four bytes of the directory entry. -/
theorem name_byte_overwritten_by_chain :
    BPB_BytsPerSec aliasImage * BPB_SecPerClus aliasImage = 512 ∧
    scanDir isDeleted aliasImage 5 (BPB_RootClus aliasImage) = some [1536] ∧
    (∀ i, i < 11 → DIR_Name aliasImage 1536 i
      = [0xe5, 69, 76, 76, 79, 32, 32, 32, 84, 88, 84].getD i 0) ∧
    DIR_FileSize aliasImage 1536 = 100 ∧
    (contRecover sumDigest none helloName aliasImage 5).map
        (fun r => (r.diag, r.exit, r.selected, DIR_Name r.image 1536 0))
      = some (Diag.recovered, 0, some 1536, 255) := by
  decide

/-! ## C12: the recovery of an empty file -/

/-- C12 (amended). When a run succeeds for a selected entry whose size is 0, the chain loop
stores nothing: the image after the run is the image before it with the first name byte of
the entry replaced by the first character of the file name, so every byte of every FAT copy
other than that byte is unchanged. -/
theorem empty_file_only_name_byte {H : Type} [DecidableEq H] (sha : List Byte → H)
    (providedSHA : Option H) (f : List Int) (m : Image) (fuel : Nat) (r : Result) (e : Nat)
    (hrun : contRecover sha providedSHA f m fuel = some r) (hsel : r.selected = some e)
    (hz : DIR_FileSize m e = 0) :
    r.image = wr8 m e (firstChar f) ∧ DIR_Name r.image e 0 = firstChar f ∧
    (∀ x, x ≠ e → r.image x = m x) ∧
    (∀ j x, (BPB_RsvdSecCnt m + j * BPB_FATSz32 m) * BPB_BytsPerSec m + x ≠ e →
      r.image ((BPB_RsvdSecCnt m + j * BPB_FATSz32 m) * BPB_BytsPerSec m + x)
        = fatCopyByte m j x) := by
  obtain ⟨hres, _, _, _⟩ := run_selected sha providedSHA f m fuel r e hrun hsel
  have hsz : DIR_FileSize (wr8 m e (firstChar f)) e = 0 := by
    rw [← hz]
    exact rd32_congr m _ (e + 28) (fun t _ => wr8_other m e _ _ (by omega))
  have himg : r.image = wr8 m e (firstChar f) := by
    unfold restore at hres
    split at hres
    · simp at hres
    · rename_i cn hcn
      unfold clusterNumOf at hcn
      split at hcn
      · simp at hcn
      · rename_i hpos
        have hc0 : fileClusters (wr8 m e (firstChar f)) e = 0 := by
          unfold fileClusters
          rw [hsz, Nat.zero_add]
          exact Nat.div_eq_of_lt (by omega)
        rw [hc0] at hcn
        rw [if_pos (by norm_num)] at hcn
        simp only [Option.some.injEq] at hcn
        subst hcn
        simp only [chainLoop, Option.some.injEq] at hres
        exact hres.symm
  have hc := firstChar_lt f
  refine ⟨himg, ?_, ?_, ?_⟩
  · rw [himg]
    simp only [DIR_Name, Nat.add_zero]
    rw [wr8_same, Nat.mod_eq_of_lt hc]
  · intro x hx
    rw [himg]; exact wr8_other m e _ x hx
  · intro j x hx
    rw [himg, wr8_other m e _ _ hx]
    rfl

/-- The theorem `empty_file_only_name_byte` on the recovery of `EMPTY.TXT` from
`emptyFileImage`. -/
theorem empty_file_only_name_byte_witness :
    (Result.mk Diag.recovered 0 (wr8 emptyFileImage 1536 69) (some 1536)).image
      = wr8 emptyFileImage 1536 (firstChar emptyName) :=
  (empty_file_only_name_byte sumDigest none emptyName emptyFileImage 5
    ⟨Diag.recovered, 0, wr8 emptyFileImage 1536 69, some 1536⟩ 1536 (by rfl) rfl
    (by decide)).1

/-- C12, as stated, fails: in `rootOneImage` the root cluster is 1, which the program
locates at offset 1024, the start of FAT copy 1; recovering `EMPTY.TXT` succeeds for the
entry there, of size 0, and byte 0 of FAT copy 1 changes from `0xe5` to `E`. -/
theorem name_byte_inside_a_fat_copy :
    (contRecover sumDigest none emptyName rootOneImage 5).map
        (fun r => (r.diag, r.exit, r.selected, fatCopyByte r.image 1 0))
      = some (Diag.recovered, 0, some 1024, 69) ∧
    DIR_FileSize rootOneImage 1024 = 0 ∧
    BPB_BytsPerSec rootOneImage * BPB_SecPerClus rootOneImage = 512 ∧
    BPB_NumFATs rootOneImage = 2 ∧ fatBytes rootOneImage = 512 ∧
    fatCopyByte rootOneImage 1 0 = 229 := by
  decide

/-! ## C13, C14: the offset of a cluster -/

/-- The offset the program computes for a cluster number from 2 on is the offset in
natural numbers, when this one is below `2 ^ 32`. -/
theorem clusterOffset_eq_nat (m : Image) (n : Nat) (h2 : 2 ≤ n) (hn : n < 2 ^ 32)
    (hno : natOffset m n < 2 ^ 32) : clusterOffset m n = natOffset m n := by
  unfold clusterOffset natOffset u32 at *
  have e1 : (n + (2 ^ 32 - 2)) % 2 ^ 32 = n - 2 := by omega
  rw [e1]
  generalize (n - 2) * BPB_SecPerClus m = a at *
  generalize BPB_NumFATs m * BPB_FATSz32 m = b at *
  rcases Nat.eq_zero_or_pos (BPB_BytsPerSec m) with hb | hb
  · rw [hb]; simp
  · have hX : a + BPB_RsvdSecCnt m + b ≤ (a + BPB_RsvdSecCnt m + b) * BPB_BytsPerSec m :=
      Nat.le_mul_of_pos_right _ hb
    rw [Nat.mod_eq_of_lt (by omega : a < 2 ^ 32),
      Nat.mod_eq_of_lt (by omega : a + BPB_RsvdSecCnt m < 2 ^ 32),
      Nat.mod_eq_of_lt (by omega : b < 2 ^ 32),
      Nat.mod_eq_of_lt (by omega : a + BPB_RsvdSecCnt m + b < 2 ^ 32),
      Nat.mod_eq_of_lt hno]

theorem natOffset_lt (m : Image) (n k : Nat) (hnk : n < k) (h2 : 2 ≤ n)
    (hpos : 0 < BPB_SecPerClus m * BPB_BytsPerSec m) : natOffset m n < natOffset m k := by
  unfold natOffset
  have hs : 0 < BPB_SecPerClus m := by
    rcases Nat.eq_zero_or_pos (BPB_SecPerClus m) with h | h
    · rw [h] at hpos; simp at hpos
    · exact h
  have hb : 0 < BPB_BytsPerSec m := by
    rcases Nat.eq_zero_or_pos (BPB_BytsPerSec m) with h | h
    · rw [h] at hpos; simp at hpos
    · exact h
  apply Nat.mul_lt_mul_of_pos_right _ hb
  have : (n - 2) * BPB_SecPerClus m < (k - 2) * BPB_SecPerClus m :=
    Nat.mul_lt_mul_of_pos_right (by omega) hs
  omega

/-- C13 (amended). With a cluster size that is not zero, for cluster numbers
`2 <= n < k` such that the offset of `k` in natural numbers is below `2 ^ 32`, the offset the
program computes for `n` is strictly less than the one it computes for `k`; and the offset
it computes for a cluster number `n >= 2` whose offset in natural numbers is below `2 ^ 32`
is a multiple of `BPB_BytsPerSec`. -/
theorem offsets_increase_without_overflow (m : Image) :
    (∀ n k, 2 ≤ n → n < k → k < 2 ^ 32 → 0 < BPB_SecPerClus m * BPB_BytsPerSec m →
      natOffset m k < 2 ^ 32 → clusterOffset m n < clusterOffset m k) ∧
    (∀ n, 2 ≤ n → n < 2 ^ 32 → natOffset m n < 2 ^ 32 →
      BPB_BytsPerSec m ∣ clusterOffset m n) := by
  constructor
  · intro n k h2 hnk hk hpos hno
    have hlt := natOffset_lt m n k hnk h2 hpos
    rw [clusterOffset_eq_nat m n h2 (by omega) (by omega),
      clusterOffset_eq_nat m k (by omega) hk hno]
    exact hlt
  · intro n h2 hn hno
    rw [clusterOffset_eq_nat m n h2 hn hno]
    exact ⟨_, Nat.mul_comm _ _⟩

/-- The theorem `offsets_increase_without_overflow` on `helloImage`: cluster 2 lies before
cluster 3. -/
theorem offsets_increase_without_overflow_witness :
    clusterOffset helloImage 2 < clusterOffset helloImage 3 :=
  (offsets_increase_without_overflow helloImage).1 2 3 (by decide) (by decide) (by decide)
    (by decide) (by decide)

/-- C13, as stated, fails: with the geometry of `wideImage` (clusters of 4096 bytes) the
program computes the same offset for the clusters 2 and 1048578, `2 ^ 20` clusters and so
`2 ^ 32` bytes apart. -/
theorem offsets_wrap_around :
    (2 : Nat) ≤ 2 ∧ (2 : Nat) < 1048578 ∧
    ¬ (clusterOffset wideImage 2 < clusterOffset wideImage 1048578) ∧
    clusterOffset wideImage 1048578 = clusterOffset wideImage 2 := by
  decide

/-- On a volume whose data region starts below `2 ^ 32`, FAT copy `j` starts at
`BPB_RsvdSecCnt * BPB_BytsPerSec + j * fatBytes`. -/
theorem fatOffset_eq_of_lt (m : Image) (hds : dataStart m < 2 ^ 32) (j : Nat)
    (hj : j < BPB_NumFATs m) :
    fatOffset m j = BPB_RsvdSecCnt m * BPB_BytsPerSec m + j * fatBytes m := by
  rcases Nat.eq_zero_or_pos (BPB_BytsPerSec m) with hb | hb
  · unfold fatOffset fatBytes u32
    rw [hb]; simp
  · unfold dataStart at hds
    unfold fatOffset fatBytes u32
    have e1 : (BPB_RsvdSecCnt m + BPB_NumFATs m * BPB_FATSz32 m) * BPB_BytsPerSec m
        = BPB_RsvdSecCnt m * BPB_BytsPerSec m
          + BPB_NumFATs m * (BPB_FATSz32 m * BPB_BytsPerSec m) := by ring
    have e2 : j * (BPB_FATSz32 m * BPB_BytsPerSec m)
        ≤ BPB_NumFATs m * (BPB_FATSz32 m * BPB_BytsPerSec m) :=
      Nat.mul_le_mul_right _ (le_of_lt hj)
    have e3 : BPB_FATSz32 m * j ≤ j * (BPB_FATSz32 m * BPB_BytsPerSec m) := by
      calc BPB_FATSz32 m * j = j * (BPB_FATSz32 m * 1) := by ring
        _ ≤ j * (BPB_FATSz32 m * BPB_BytsPerSec m) :=
          Nat.mul_le_mul_left _ (Nat.mul_le_mul_left _ hb)
    have e4 : BPB_FATSz32 m * j * BPB_BytsPerSec m
        = j * (BPB_FATSz32 m * BPB_BytsPerSec m) := by ring
    rw [Nat.mod_eq_of_lt (by omega : BPB_FATSz32 m * j < 2 ^ 32), e4,
      Nat.mod_eq_of_lt (by omega : j * (BPB_FATSz32 m * BPB_BytsPerSec m) < 2 ^ 32),
      Nat.mod_eq_of_lt (by omega)]

/-- C14 (amended). For a cluster number `n >= 2` whose offset in natural numbers
`((n - 2) * BPB_SecPerClus + BPB_RsvdSecCnt + BPB_NumFATs * BPB_FATSz32) * BPB_BytsPerSec`
is below `2 ^ 32`, the offset the program computes is that number; then cluster 2 is located
at the offset of the data region, which is the first byte after the last FAT copy. -/
theorem offset_is_natural_without_overflow (m : Image) (n : Nat) (h2 : 2 ≤ n)
    (hn : n < 2 ^ 32) (hno : natOffset m n < 2 ^ 32) :
    clusterOffset m n = natOffset m n ∧
    clusterOffset m 2
      = (BPB_RsvdSecCnt m + BPB_NumFATs m * BPB_FATSz32 m) * BPB_BytsPerSec m ∧
    (0 < BPB_NumFATs m →
      fatOffset m (BPB_NumFATs m - 1) + BPB_FATSz32 m * BPB_BytsPerSec m
        = (BPB_RsvdSecCnt m + BPB_NumFATs m * BPB_FATSz32 m) * BPB_BytsPerSec m) := by
  have hle : natOffset m 2 ≤ natOffset m n := by
    unfold natOffset
    apply Nat.mul_le_mul_right
    simp
  have h22 : natOffset m 2
      = (BPB_RsvdSecCnt m + BPB_NumFATs m * BPB_FATSz32 m) * BPB_BytsPerSec m := by
    unfold natOffset; simp
  refine ⟨clusterOffset_eq_nat m n h2 hn hno, ?_, ?_⟩
  · rw [clusterOffset_eq_nat m 2 (le_refl _) (by norm_num) (by omega), h22]
  · intro hnf
    have hds : dataStart m < 2 ^ 32 := by unfold dataStart; omega
    rw [fatOffset_eq_of_lt m hds _ (by omega)]
    have e1 : (BPB_NumFATs m - 1 + 1) * fatBytes m = BPB_NumFATs m * fatBytes m := by
      congr 1; omega
    rw [Nat.succ_mul] at e1
    have e2 : (BPB_RsvdSecCnt m + BPB_NumFATs m * BPB_FATSz32 m) * BPB_BytsPerSec m
        = BPB_RsvdSecCnt m * BPB_BytsPerSec m + BPB_NumFATs m * fatBytes m := by
      unfold fatBytes; ring
    unfold fatBytes at *
    omega

/-- The theorem `offset_is_natural_without_overflow` on `helloImage`, at cluster 3. -/
theorem offset_is_natural_without_overflow_witness :
    clusterOffset helloImage 3 = natOffset helloImage 3 :=
  (offset_is_natural_without_overflow helloImage 3 (by decide) (by decide) (by decide)).1

/-- C14, as stated, fails: with the geometry of `wideImage` the offset of cluster 1048578
in natural numbers is 4297080832, and the program computes 2113536. -/
theorem offset_differs_from_natural :
    (2 : Nat) ≤ 1048578 ∧ natOffset wideImage 1048578 = 4297080832 ∧
    clusterOffset wideImage 1048578 = 2113536 ∧
    clusterOffset wideImage 1048578 ≠ natOffset wideImage 1048578 := by
  decide

/-! ## C15: what list mode counts -/

/-- The count that list mode prints is the number of the entries the scan visits whose first
name byte is not `0xe5` and whose attribute has none of its low four bits set, and there is
one line for each. -/
theorem listMode_count (m : Image) (fuel : Nat) (lines : List Line) (entryCount : Nat)
    (vis : List Nat) (hlist : listMode m fuel = some (lines, entryCount))
    (hvis : scanDir anyEntry m fuel (BPB_RootClus m) = some vis) :
    entryCount = (vis.filter (isListed m)).length ∧ lines.length = entryCount := by
  obtain ⟨cl, hcl⟩ := dirChain_of_scanDir anyEntry m fuel _ vis hvis
  have h1 := scanDir_eq_flatMap anyEntry m fuel _ cl hcl
  have h2 := scanDir_eq_flatMap isListed m fuel _ cl hcl
  rw [hvis] at h1
  simp only [Option.some.injEq] at h1
  unfold listMode at hlist
  rw [h2] at hlist
  simp only [Option.map_some', Option.some.injEq, Prod.mk.injEq] at hlist
  obtain ⟨hl, hc⟩ := hlist
  subst hl; subst hc
  refine ⟨?_, by simp⟩
  rw [h1, List.filter_flatMap]
  congr 2
  funext n
  exact scanEntries_filter isListed m _ _

/-- C15 fails on the code: the only entry of the root directory of `readOnlyImage` is the
live short entry `README  TXT`, whose attribute `0x01` (read-only) is not the long-filename
marker; the scan visits it, and list mode prints no line for it and the count 0. -/
theorem read_only_file_not_listed :
    DIR_Name readOnlyImage 1536 0 ≠ 0xe5 ∧ DIR_Attr readOnlyImage 1536 = 0x01 ∧
    scanDir anyEntry readOnlyImage 5 (BPB_RootClus readOnlyImage) = some [1536] ∧
    listMode readOnlyImage 5 = some ([], 0) := by
  decide

/-- With the attribute `0x20` (archive) the same entry is listed and counted. -/
theorem archive_file_listed :
    listMode archiveImage 5
      = some ([Line.file [82, 69, 65, 68, 77, 69, 46, 84, 88, 84] 10 3], 1) := by
  decide

/-! ## C17: the walk of the directory chain -/

theorem chainAt_succ (m : Image) : ∀ k s, chainAt m (k + 1) s = chainAt m k (fatCopyEntry m 0 s) := by
  intro k
  induction k with
  | zero => intro s; rfl
  | succ k ih => intro s; rw [chainAt, ih s]; rfl

theorem fatEntryAt_zero (m : Image) (h : 0 < BPB_NumFATs m) (i : Nat) :
    fatEntryAt (fatAddressArr m) m 0 i = some (fatCopyEntry m 0 i) := by
  unfold fatEntryAt fatAddressArr fatCopyEntry
  rw [List.getElem?_eq_getElem (by simpa using h)]
  simp

/-- C17 (amended). When following FAT copy 0 from the root cluster reaches 0 or a value of
`0x0ffffff8` or more after `k` steps (and there is a FAT copy to follow), the walk of the
directory ends after at most `k` clusters, for every selector: in list mode and in the
matcher pass. -/
theorem walk_ends_when_chain_ends (sel : Image → Nat → Bool) (m : Image) (k : Nat)
    (hnf : 0 < BPB_NumFATs m)
    (hend : chainAt m k (BPB_RootClus m) = 0 ∨ 0x0ffffff8 ≤ chainAt m k (BPB_RootClus m)) :
    (∃ l, scanDir sel m (k + 1) (BPB_RootClus m) = some l) ∧
    (∃ r, listMode m (k + 1) = some r) ∧
    (∃ cl, dirChain m (k + 1) (BPB_RootClus m) = some cl ∧ cl.length ≤ k) := by
  have key : ∀ (sel : Image → Nat → Bool) (k cur : Nat),
      (chainAt m k cur = 0 ∨ 0x0ffffff8 ≤ chainAt m k cur) →
      (∃ l, scanDir sel m (k + 1) cur = some l) ∧
      (∃ cl, dirChain m (k + 1) cur = some cl ∧ cl.length ≤ k) := by
    intro sel k
    induction k with
    | zero =>
      intro cur h
      simp only [chainAt] at h
      have hc : ¬ (cur < 0x0ffffff8 ∧ cur ≠ 0) := by omega
      exact ⟨⟨[], by rw [scanDir, if_neg hc]⟩, ⟨[], by rw [dirChain, if_neg hc], by simp⟩⟩
    | succ k ih =>
      intro cur h
      rw [chainAt_succ] at h
      obtain ⟨⟨l, hl⟩, ⟨cl, hcl, hlen⟩⟩ := ih _ h
      by_cases hc : cur < 0x0ffffff8 ∧ cur ≠ 0
      · constructor
        · rw [scanDir, if_pos hc, fatEntryAt_zero m hnf]
          simp only [hl, Option.map_some']
          exact ⟨_, rfl⟩
        · rw [dirChain, if_pos hc, fatEntryAt_zero m hnf]
          simp only [hcl, Option.map_some']
          exact ⟨_, rfl, by simp; omega⟩
      · exact ⟨⟨[], by rw [scanDir, if_neg hc]⟩, ⟨[], by rw [dirChain, if_neg hc], by simp⟩⟩
  refine ⟨(key sel k _ hend).1, ?_, (key sel k _ hend).2⟩
  obtain ⟨l, hl⟩ := (key isListed k _ hend).1
  exact ⟨_, by rw [listMode, hl]; rfl⟩

/-- The theorem `walk_ends_when_chain_ends` on `helloImage`, whose root directory has one
cluster. -/
theorem walk_ends_when_chain_ends_witness :
    ∃ l, scanDir (matchEntry helloName) helloImage (1 + 1) (BPB_RootClus helloImage) = some l :=
  (walk_ends_when_chain_ends (matchEntry helloName) helloImage 1 (by decide)
    (Or.inr (by decide))).1

theorem cycleImage_step : fatEntryAt (fatAddressArr cycleImage) cycleImage 0 2 = some 2 := by
  decide

theorem cycleImage_walk (sel : Image → Nat → Bool) :
    ∀ fuel, scanDir sel cycleImage fuel 2 = none ∧ dirChain cycleImage fuel 2 = none := by
  intro fuel
  induction fuel with
  | zero => exact ⟨rfl, rfl⟩
  | succ fuel ih =>
    constructor
    · rw [scanDir, if_pos (by decide), cycleImage_step]
      simp only [ih.1, Option.map_none']
    · rw [dirChain, if_pos (by decide), cycleImage_step]
      simp only [ih.2, Option.map_none']

theorem cycleImage_chainAt : ∀ k, chainAt cycleImage k 2 = 2 := by
  intro k
  induction k with
  | zero => rfl
  | succ k ih => rw [chainAt, ih]; decide

/-- C17, as stated, fails: in `cycleImage` FAT entry 2 is 2 and the root cluster is 2, so
following FAT copy 0 from the root cluster never reaches 0 or an end-of-chain marker, and no
number of steps lets the matcher pass or list mode end. -/
theorem walk_of_a_cycle_never_ends :
    BPB_RootClus cycleImage = 2 ∧ fatCopyEntry cycleImage 0 2 = 2 ∧
    (¬ ∃ k, chainAt cycleImage k (BPB_RootClus cycleImage) = 0 ∨
      0x0ffffff8 ≤ chainAt cycleImage k (BPB_RootClus cycleImage)) ∧
    (¬ ∃ fuel, scanDir (matchEntry helloName) cycleImage fuel (BPB_RootClus cycleImage) ≠ none) ∧
    (¬ ∃ fuel, listMode cycleImage fuel ≠ none) := by
  have hroot : BPB_RootClus cycleImage = 2 := by decide
  refine ⟨hroot, by decide, ?_, ?_, ?_⟩
  · rintro ⟨k, hk⟩
    rw [hroot, cycleImage_chainAt k] at hk
    omega
  · rintro ⟨fuel, hf⟩
    rw [hroot] at hf
    exact hf (cycleImage_walk _ fuel).1
  · rintro ⟨fuel, hf⟩
    apply hf
    rw [listMode, hroot, (cycleImage_walk _ fuel).1]
    rfl

/-! ## C18: the cluster numbers that are translated -/

/-- C18 (amended). Every cluster of the root-directory chain, for which the walk computes
an offset in list mode and in the recovery modes, is not 0 and is below `0x0ffffff8`. -/
theorem chain_clusters_pass_the_guard (m : Image) (fuel : Nat) (cl : List Nat)
    (hdir : dirChain m fuel (BPB_RootClus m) = some cl) :
    ∀ n ∈ cl, n ≠ 0 ∧ n < 0x0ffffff8 :=
  dirChain_mem m fuel _ cl hdir

/-- The theorem `chain_clusters_pass_the_guard` on `selfChainImage`, whose directory chain
is 2, 3. -/
theorem chain_clusters_pass_the_guard_witness : (3 : Nat) ≠ 0 ∧ (3 : Nat) < 0x0ffffff8 :=
  chain_clusters_pass_the_guard selfChainImage 5 [2, 3] (by decide) 3 (by decide)

/-- C18, as stated, fails: recovering `EMPTY.TXT` from `emptyFileImage` with the hash of the
empty content succeeds, and the loop of line 268 computes the offset of the candidate's
starting cluster, which is 0; and the walk of the root directory of `rootOneImage` computes
the offset of cluster 1. -/
theorem reserved_clusters_are_translated :
    scanDir (matchEntry emptyName) emptyFileImage 5 (BPB_RootClus emptyFileImage)
      = some [1536] ∧
    hashedClusters sumDigest 0 emptyFileImage [1536] = [0] ∧
    (contRecover sumDigest (some 0) emptyName emptyFileImage 5).map (fun r => (r.diag, r.exit))
      = some (Diag.recoveredSha, 0) ∧
    dirChain rootOneImage 5 (BPB_RootClus rootOneImage) = some [1] := by
  decide

/-! ## C20: the number of candidates -/

set_option maxRecDepth 1000000 in
/-- C20 fails on the code: the root directory of `crowdedImage` holds 101 deleted entries
whose name fields are blank after the first byte; the matcher pass for the name `A` stores
all 101 of them, the last one at index 100 of `dirEntryArr`, which has 100 places. -/
theorem more_than_100_candidates :
    (scanDir (matchEntry [65]) crowdedImage 5 (BPB_RootClus crowdedImage)).map List.length
      = some 101 := by
  decide

/-! ## C19: the scan stays inside the clusters of the chain -/

/-- C19. A scan that ends has walked a chain of clusters and has collected, cluster by
cluster, the entries it accepts among those it visits. In each cluster of the chain it
visits the entries at the cluster offset, 32 bytes further, and so on in increasing order, at
most `clusterSize / 32` of them, and none at or after the first one whose first name byte is
zero. So every entry it collects (a candidate, a listed entry) lies inside a cluster of the
chain. -/
theorem scan_stays_in_the_clusters (sel : Image → Nat → Bool) (m : Image) (fuel : Nat)
    (l : List Nat) (hscan : scanDir sel m fuel (BPB_RootClus m) = some l) :
    ∃ cl, dirChain m fuel (BPB_RootClus m) = some cl ∧
      l = cl.flatMap (fun n =>
        (scanEntries anyEntry m (entriesPerCluster m) (clusterOffset m n)).filter (sel m)) ∧
      (∀ n ∈ cl, ∃ k, k ≤ BPB_SecPerClus m * BPB_BytsPerSec m / 32 ∧
        scanEntries anyEntry m (entriesPerCluster m) (clusterOffset m n)
          = (List.range k).map (fun i => clusterOffset m n + 32 * i) ∧
        (∀ i, i < k → DIR_Name m (clusterOffset m n + 32 * i) 0 ≠ 0) ∧
        (k < BPB_SecPerClus m * BPB_BytsPerSec m / 32 →
          DIR_Name m (clusterOffset m n + 32 * k) 0 = 0)) ∧
      (∀ a ∈ l, ∃ n ∈ cl, clusterOffset m n ≤ a ∧
        a + 32 ≤ clusterOffset m n + BPB_SecPerClus m * BPB_BytsPerSec m) := by
  obtain ⟨cl, hcl⟩ := dirChain_of_scanDir sel m fuel _ l hscan
  have hflat := scanDir_eq_flatMap sel m fuel _ cl hcl
  rw [hscan] at hflat
  simp only [Option.some.injEq] at hflat
  refine ⟨cl, hcl, ?_, ?_, ?_⟩
  · rw [hflat]
    congr 1
    funext n
    exact scanEntries_filter sel m _ _
  · intro n _
    exact scanEntries_any m (entriesPerCluster m) (clusterOffset m n)
  · intro a ha
    rw [hflat, List.mem_flatMap] at ha
    obtain ⟨n, hn, han⟩ := ha
    obtain ⟨i, hi, hai, _⟩ := scanEntries_mem sel m a _ _ han
    refine ⟨n, hn, by omega, ?_⟩
    unfold entriesPerCluster at hi
    have := Nat.div_mul_le_self (BPB_SecPerClus m * BPB_BytsPerSec m) 32
    omega

/-- The theorem `scan_stays_in_the_clusters` on the matcher pass for `TEST.TXT` in
`testImage`: the two candidates lie in cluster 2 of the directory chain. -/
theorem scan_stays_in_the_clusters_witness :
    ∃ cl, dirChain testImage 5 (BPB_RootClus testImage) = some cl ∧
      ∀ a ∈ [1536, 1568], ∃ n ∈ cl, clusterOffset testImage n ≤ a ∧
        a + 32 ≤ clusterOffset testImage n
          + BPB_SecPerClus testImage * BPB_BytsPerSec testImage :=
  (scan_stays_in_the_clusters (matchEntry testName) testImage 5 [1536, 1568]
    (by decide)).imp (fun _ h => ⟨h.1, h.2.2.2⟩)

set_option linter.unusedTactic false
set_option linter.unreachableTactic false

/-! ## C16: the block of `-R` does what the block of `-r` does -/

theorem nonCont_nameLoop (f : List Int) (m : Image) (e : Nat) :
    ∀ n i, NonCont.nameLoop f m e n i = nameLoop f m e n i := by
  intro n
  induction n with
  | zero => intro i; rfl
  | succ n ih => intro i; simp only [NonCont.nameLoop, nameLoop, ih]

theorem nonCont_extLoop (f : List Int) (m : Image) (e : Nat) :
    ∀ n i j, NonCont.extLoop f m e n i j = extLoop f m e n i j := by
  intro n
  induction n with
  | zero => intro i j; rfl
  | succ n ih => intro i j; simp only [NonCont.extLoop, extLoop, ih]

theorem nonCont_matchEntry (f : List Int) (m : Image) (e : Nat) :
    NonCont.matchEntry f m e = matchEntry f m e := by
  simp only [NonCont.matchEntry, matchEntry, extPassed, autoPass, nonCont_nameLoop,
    nonCont_extLoop]

theorem nonCont_scanEntries (f : List Int) (m : Image) :
    ∀ n a, NonCont.scanEntries f m n a = scanEntries (matchEntry f) m n a := by
  intro n
  induction n with
  | zero => intro a; rfl
  | succ n ih =>
    intro a
    simp only [NonCont.scanEntries, scanEntries, ih, nonCont_matchEntry]

theorem nonCont_scanDir (f : List Int) (m : Image) :
    ∀ fuel cur, NonCont.scanDir f m fuel cur = scanDir (matchEntry f) m fuel cur := by
  intro fuel
  induction fuel with
  | zero => intro cur; rfl
  | succ fuel ih =>
    intro cur
    simp only [NonCont.scanDir, scanDir, ih, nonCont_scanEntries] <;>
      (generalize fatEntryAt (fatAddressArr m) m 0 cur = o; cases o <;> rfl)

theorem nonCont_shaLoop {H : Type} [DecidableEq H] (sha : List Byte → H) (h : H) (m : Image) :
    ∀ cands, NonCont.shaLoop sha h m cands = shaLoop sha h m cands := by
  intro cands
  induction cands with
  | nil => rfl
  | cons d rest ih => simp only [NonCont.shaLoop, shaLoop, ih]

theorem nonCont_fatLoop (arr : List Nat) (idx val : Nat) :
    ∀ n j m, NonCont.fatLoop arr idx val n j m = fatLoop arr idx val n j m := by
  intro n
  induction n with
  | zero => intro j m; rfl
  | succ n ih =>
    intro j m
    simp only [NonCont.fatLoop, fatLoop, ih] <;>
      (generalize arr[j]? = o; cases o <;> rfl)

theorem nonCont_chainLoop (arr : List Nat) (cn : Nat) :
    ∀ n k sc m, NonCont.chainLoop arr cn n k sc m = chainLoop arr cn n k sc m := by
  intro n
  induction n with
  | zero => intro k sc m; rfl
  | succ n ih =>
    intro k sc m
    simp only [NonCont.chainLoop, chainLoop, ih, nonCont_fatLoop] <;>
      (generalize fatLoop arr sc (if k = cn - 1 then 0xffffffff else u32 (sc + 1)) 256 0 m = o
       cases o <;> rfl)

theorem nonCont_restore (arr : List Nat) (f : List Int) (m : Image) (e sc : Nat) :
    NonCont.restore arr f m e sc = restore arr f m e sc := by
  simp only [NonCont.restore, restore, nonCont_chainLoop] <;>
    (generalize clusterNumOf (wr8 m e (firstChar f)) e = o; cases o <;> rfl)

theorem nonCont_resolve {H : Type} [DecidableEq H] (sha : List Byte → H)
    (providedSHA : Option H) (f : List Int) (m : Image) (arr cands : List Nat) :
    NonCont.resolve sha providedSHA f m arr cands = resolve sha providedSHA f m arr cands := by
  cases cands with
  | nil => rfl
  | cons first rest =>
    simp only [NonCont.resolve, resolve, nonCont_shaLoop, nonCont_restore] <;>
      (split
       · cases providedSHA with
         | none => rfl
         | some h =>
           simp only []
           generalize shaLoop sha h m (first :: rest) = o
           rcases o with _ | ⟨c, sc⟩ <;> rfl
       · rfl)

/-- C16. The run `-R` with a hash ends as the run `-r` with the same hash does: the same
line printed, the same exit status, the same image (and no result for the one when there is
none for the other). -/
theorem nonContiguous_mode_is_contiguous_mode {H : Type} [DecidableEq H]
    (sha : List Byte → H) (h : H) (f : List Int) (m : Image) (fuel : Nat) :
    nonContRecover sha (some h) f m fuel = contRecover sha (some h) f m fuel := by
  simp only [nonContRecover, contRecover, nonCont_scanDir, nonCont_resolve] <;>
    (generalize scanDir (matchEntry f) m fuel (BPB_RootClus m) = o; cases o <;> rfl)

/-! ## The frame of a chain reconstruction -/

theorem startingClusterOf_lt (m : Image) (e : Nat) : startingClusterOf m e < 2 ^ 32 := by
  unfold startingClusterOf
  apply Nat.or_lt_two_pow (Nat.mod_lt _ (by norm_num))
  have := rd16_lt m (e + 26)
  unfold DIR_FstClusLO
  omega

/-- The stores of the loop over the FAT copies fall in the four bytes of entry `idx`
counted from an address of `arr`; the loop leaves every other byte alone. -/
theorem fatLoop_frame (arr : List Nat) (idx val : Nat) :
    ∀ (n j : Nat) (m m' : Image), fatLoop arr idx val n j m = some m' →
      ∀ x, (∀ fa, fa ∈ arr → x < fa + 4 * idx ∨ fa + 4 * idx + 4 ≤ x) → m' x = m x := by
  intro n
  induction n with
  | zero =>
    intro j m m' h x _
    simp only [fatLoop, Option.some.injEq] at h
    rw [← h]
  | succ n ih =>
    intro j m m' h x hx
    simp only [fatLoop] at h
    split at h
    · split at h
      · simp at h
      · rename_i fa hfa
        rw [ih _ _ _ h x hx]
        exact wr32_other _ _ _ _ (hx fa (List.getElem?_mem hfa))
    · simp only [Option.some.injEq] at h
      rw [← h]

/-- The stores of the chain loop fall in the entries `startingCluster + i`, taken in
`unsigned int`, of the addresses of `arr`. -/
theorem chainLoop_frame (arr : List Nat) (cn : Nat) :
    ∀ (n k sc : Nat) (m m' : Image), sc < 2 ^ 32 → chainLoop arr cn n k sc m = some m' →
      ∀ x, (∀ fa, fa ∈ arr → ∀ i, i < n →
          x < fa + 4 * ((sc + i) % 2 ^ 32) ∨ fa + 4 * ((sc + i) % 2 ^ 32) + 4 ≤ x) →
        m' x = m x := by
  intro n
  induction n with
  | zero =>
    intro k sc m m' _ h x _
    simp only [chainLoop, Option.some.injEq] at h
    rw [← h]
  | succ n ih =>
    intro k sc m m' hsc h x hx
    simp only [chainLoop] at h
    split at h
    · simp at h
    · rename_i m1 h1
      have hlt : u32 (sc + 1) < 2 ^ 32 := Nat.mod_lt _ (by norm_num)
      rw [ih _ _ _ _ hlt h x ?_]
      · apply fatLoop_frame _ _ _ _ _ _ _ h1 x
        intro fa hfa
        have := hx fa hfa 0 (by omega)
        rwa [Nat.add_zero, Nat.mod_eq_of_lt hsc] at this
      · intro fa hfa i hi
        have := hx fa hfa (i + 1) (by omega)
        have e1 : (u32 (sc + 1) + i) % 2 ^ 32 = (sc + (i + 1)) % 2 ^ 32 := by
          unfold u32; omega
        rwa [e1]

theorem mem_fatAddressArr_any (m : Image) (fa : Nat) (h : fa ∈ fatAddressArr m) :
    ∃ j, j < BPB_NumFATs m ∧ fa = fatOffset m j := by
  unfold fatAddressArr at h
  obtain ⟨j, hj, rfl⟩ := List.mem_map.mp h
  exact ⟨j, List.mem_range.mp hj, rfl⟩

/-- The frame of a chain reconstruction on any image: apart from the first name byte,
a byte outside the entries `s + k` (in `unsigned int`) of the FAT addresses the program
computed keeps its value. -/
theorem restore_frame (f : List Int) (m : Image) (e s : Nat) (m' : Image) (hs : s < 2 ^ 32)
    (hres : restore (fatAddressArr m) f m e s = some m') :
    ∃ c, clusterNumOf (wr8 m e (firstChar f)) e = some c ∧
      ∀ x, x ≠ e → (∀ j, j < BPB_NumFATs m → ∀ k, k < c →
          x < fatOffset m j + 4 * ((s + k) % 2 ^ 32) ∨
          fatOffset m j + 4 * ((s + k) % 2 ^ 32) + 4 ≤ x) → m' x = m x := by
  unfold restore at hres
  split at hres
  · simp at hres
  · rename_i c hc
    refine ⟨c, hc, ?_⟩
    intro x hxe hx
    rw [chainLoop_frame _ _ _ _ _ _ _ hs hres x ?_]
    · exact wr8_other m e _ x hxe
    · intro fa hfa i hi
      obtain ⟨j, hj, rfl⟩ := mem_fatAddressArr_any m fa hfa
      exact hx j hj i hi

/-! ## C21: the frame of a successful recovery -/

/-- C21, as stated, fails: on `aliasImage`, whose two FAT copies are the bytes 512 to 1535,
recovering `HELLO.TXT` succeeds for the entry at 1536, with starting cluster 256 and one
cluster. Byte 1537, the second name byte of the selected entry, is `E` before the run and
`0xff` after it, and byte 2048, in the data region, goes from 0 to `0xff`: the stores to
entry 256 of the two FAT copies fall outside the copies. -/
theorem frame_broken_by_entry_outside_fat :
    BPB_RsvdSecCnt aliasImage * BPB_BytsPerSec aliasImage = 512 ∧
    fatBytes aliasImage = 512 ∧ BPB_NumFATs aliasImage = 2 ∧ dataStart aliasImage = 1536 ∧
    startingClusterOf aliasImage 1536 = 256 ∧ fileClusters aliasImage 1536 = 1 ∧
    rd8 aliasImage 1537 = 69 ∧ rd8 aliasImage 2048 = 0 ∧
    (contRecover sumDigest none helloName aliasImage 5).map
        (fun r => (r.diag, r.exit, r.selected, rd8 r.image 1537, rd8 r.image 2048))
      = some (Diag.recovered, 0, some 1536, 255, 255) := by
  decide

/-- C21 (amended). When a run succeeds for a selected entry `e` with starting cluster `s`,
and `c` is the cluster count the run computes (the count of the entry, when the entry lies
after the boot-sector fields), then every byte other than the first name byte of `e` that
lies outside the four bytes at `4 * (s + k)`, `k < c` (the index taken in `unsigned int`),
counted from the start of a FAT copy, is unchanged. On a volume whose FAT copies start
after the boot-sector fields and end below `2 ^ 32`, when `e` is in the data region and the
entries `s` to `s + c - 1` are inside a FAT copy, this leaves unchanged the reserved
sectors, every byte of the data region other than the first name byte of `e` (the other
directory entries, the other 31 bytes of `e`, the file data), and every byte of a FAT copy
outside its entries `s` to `s + c - 1`. -/
theorem recovery_frame {H : Type} [DecidableEq H] (sha : List Byte → H)
    (providedSHA : Option H) (f : List Int) (m : Image) (fuel : Nat) (r : Result) (e : Nat)
    (hrun : contRecover sha providedSHA f m fuel = some r) (hsel : r.selected = some e) :
    (∃ c, clusterNumOf (wr8 m e (firstChar f)) e = some c ∧
      (48 ≤ e → c = fileClusters m e) ∧
      ∀ x, x ≠ e → (∀ j, j < BPB_NumFATs m → ∀ k, k < c →
          x < fatOffset m j + 4 * ((startingClusterOf m e + k) % 2 ^ 32) ∨
          fatOffset m j + 4 * ((startingClusterOf m e + k) % 2 ^ 32) + 4 ≤ x) →
        r.image x = m x) ∧
    (WellLaidOut m → dataStart m ≤ e →
      4 * (startingClusterOf m e + fileClusters m e) ≤ fatBytes m →
      (∀ x, x < BPB_RsvdSecCnt m * BPB_BytsPerSec m → r.image x = m x) ∧
      (∀ x, dataStart m ≤ x → x ≠ e → r.image x = m x) ∧
      (∀ j x, j < BPB_NumFATs m → x < fatBytes m →
        (x < 4 * startingClusterOf m e ∨
          4 * (startingClusterOf m e + fileClusters m e) ≤ x) →
        fatCopyByte r.image j x = fatCopyByte m j x)) := by
  obtain ⟨hres, _, _, _⟩ := run_selected sha providedSHA f m fuel r e hrun hsel
  constructor
  · obtain ⟨c, hc, hframe⟩ :=
      restore_frame f m e _ r.image (startingClusterOf_lt m e) hres
    refine ⟨c, hc, ?_, hframe⟩
    intro he
    unfold clusterNumOf at hc
    split at hc
    · simp at hc
    · split at hc
      · simp only [Option.some.injEq] at hc
        rw [← hc, fileClusters_wr8 m e _ he]
      · simp at hc
  · intro hl he hfit
    have h48 := hl.1
    have hRd : BPB_RsvdSecCnt m * BPB_BytsPerSec m ≤ dataStart m := by
      unfold dataStart; rw [Nat.add_mul]; omega
    have he48 : 48 ≤ e := by omega
    obtain ⟨_, hframe⟩ := restore_bytes f m e _ r.image hl he48 hfit hres
    have hboot := restore_boot f m e _ r.image hl he48 hfit hres
    obtain ⟨hbps, _, hrsv, _, hfsz, _⟩ := boot_fields_congr m r.image hboot
    refine ⟨?_, ?_, ?_⟩
    · intro x hx
      rw [hframe x (fun j k _ _ => Or.inl (by omega))]
      exact wr8_other m e _ x (by omega)
    · intro x hx hxe
      rw [restore_data f m e _ r.image hl he48 hfit hres x hx]
      exact wr8_other m e _ x hxe
    · intro j x hj hx hout
      simp only [fatCopyByte, hbps, hrsv, hfsz]
      rw [(fatCopy_lt_dataStart m j x hj hx).2]
      rw [hframe _ (fun j' k hj' hk => byte_slot _ _ _ _ j j' x k hx hfit hk (fun _ => by omega))]
      exact wr8_other m e _ _ (by have := (fatCopy_lt_dataStart m j x hj hx).1; omega)

set_option maxRecDepth 1000000 in
/-- The theorem `recovery_frame` on the recovery of `HELLO.TXT` from `helloImage`: the
second name byte of the entry at 1536, and byte 4 of FAT copy 1, are the same in
`helloRecovered` as in `helloImage`. -/
theorem recovery_frame_witness :
    helloRecovered 1537 = helloImage 1537 ∧
    fatCopyByte helloRecovered 1 4 = fatCopyByte helloImage 1 4 :=
  have h := (recovery_frame sumDigest none helloName helloImage 5
    ⟨Diag.recovered, 0, helloRecovered, some 1536⟩ 1536 (by rfl) rfl).2
      ⟨by decide, by decide⟩ (by decide) (by decide)
  ⟨h.2.1 1537 (by decide) (by decide), h.2.2 1 4 (by decide) (by decide) (Or.inl (by decide))⟩

/-! ## The name list mode shows against the matcher -/

theorem DIR_Name_erased (m : Image) (a i : Nat) (hi : 1 ≤ i) :
    DIR_Name (wr8 m a 0xe5) a i = DIR_Name m a i := by
  unfold DIR_Name rd8
  rw [wr8_other m a _ _ (by omega)]

theorem DIR_Name_erased_zero (m : Image) (a : Nat) : DIR_Name (wr8 m a 0xe5) a 0 = 0xe5 := by
  unfold DIR_Name
  rw [Nat.add_zero, wr8_same]

/-- The copy loops of list mode copy the name bytes up to the first space. -/
theorem copyName_eq (m : Image) (a : Nat) :
    ∀ (n i k : Nat), k ≤ n → (∀ t, t < k → DIR_Name m a (i + t) ≠ 32) →
      (k < n → DIR_Name m a (i + k) = 32) →
      copyName m a n i = (List.range k).map (fun t => DIR_Name m a (i + t)) := by
  intro n
  induction n with
  | zero =>
    intro i k hk _ _
    have : k = 0 := by omega
    subst this
    rfl
  | succ n ih =>
    intro i k hk hne hsp
    cases k with
    | zero =>
      have := hsp (by omega)
      simp only [Nat.add_zero] at this
      simp [copyName, this]
    | succ k =>
      have h0 := hne 0 (by omega)
      simp only [Nat.add_zero] at h0
      rw [copyName, if_pos h0, ih (i + 1) k (by omega)
        (fun t ht => by have := hne (t + 1) (by omega); rwa [Nat.add_assoc, Nat.add_comm 1 t])
        (fun hlt => by have := hsp (by omega); rwa [Nat.add_assoc, Nat.add_comm 1 k])]
      rw [List.range_succ_eq_map, List.map_cons, List.map_map]
      simp only [Nat.add_zero]
      congr 1
      apply List.map_congr_left
      intro t _
      simp only [Function.comp, Nat.succ_eq_add_one]
      congr 1
      omega

/-- The buffer list mode fills for a well-formed short file entry: the base, then `.` and
the extension when there is one. -/
theorem totalFileName_wellFormed (m : Image) (a nb nx : Nat) (hwf : WellFormedShort m a nb nx) :
    totalFileName m a = renderedName m a nb nx := by
  obtain ⟨hattr, _, hnb, hnx, hb, hp, hx, hq⟩ := hwf
  have hbase : copyName m a 8 0 = (List.range nb).map (DIR_Name m a) := by
    rw [copyName_eq m a 8 0 nb hnb (fun t ht => by rw [Nat.zero_add]; exact (hb t ht).1)
      (fun hlt => by rw [Nat.zero_add]; exact hp nb hlt (Nat.le_refl _))]
    apply List.map_congr_left
    intro t _
    rw [Nat.zero_add]
  unfold totalFileName renderedName
  rw [if_neg (by simp [hattr])]
  by_cases h0 : nx = 0
  · have h8 : DIR_Name m a 8 = 32 := by
      have := hq 0 (by omega) (by omega)
      rwa [Nat.add_zero] at this
    rw [if_neg (by simp [h8]), if_pos h0, hbase, List.append_nil]
  · have h8 : DIR_Name m a 8 ≠ 32 := by
      have := (hx 0 (by omega)).1
      rwa [Nat.add_zero] at this
    rw [if_pos h8, if_neg h0, hbase,
      copyName_eq m a 3 8 nx hnx (fun t ht => (hx t ht).1) (fun hlt => hq nx hlt (Nat.le_refl _))]
    simp

/-- The base loop of the matcher walks over the characters that are not a dot, equal the
name byte at their index and are not the last one. -/
theorem nameLoop_walk (f : List Int) (m : Image) (e : Nat) :
    ∀ (k n i : Nat), i + k < f.length →
      (∀ t, i ≤ t → t < i + k → f.getD t 0 ≠ 46 ∧ f.getD t 0 = (DIR_Name m e t : Int)) →
      nameLoop f m e (n + k) i = nameLoop f m e n (i + k) := by
  intro k
  induction k with
  | zero => intro n i _ _; rfl
  | succ k ih =>
    intro n i hlen h
    obtain ⟨h1, h2⟩ := h i (Nat.le_refl _) (by omega)
    have h3 : ¬ ((i : Int) = (f.length : Int) - 1) := by omega
    rw [← Nat.add_assoc, nameLoop, if_pos (by omega), if_neg h1, if_neg (by simpa using h2),
      if_neg h3, ih n (i + 1) (by omega) (fun t ht1 ht2 => h t (by omega) (by omega))]
    congr 1
    omega

/-- The extension loop of the matcher runs to the end of a file name whose remaining
characters equal the name bytes from `j` on. -/
theorem extLoop_walk (f : List Int) (m : Image) (e : Nat) :
    ∀ (k n i j : Nat), i + k = f.length → k ≤ n →
      (∀ t, t < k → f.getD (i + t) 0 = (DIR_Name m e (j + t) : Int)) →
      extLoop f m e n i j = (f.length, j + k) := by
  intro k
  induction k with
  | zero =>
    intro n i j hlen _ _
    rw [Nat.add_zero] at hlen
    subst hlen
    cases n <;> simp [extLoop]
  | succ k ih =>
    intro n i j hlen hn h
    obtain ⟨n, rfl⟩ : ∃ n', n = n' + 1 := ⟨n - 1, by omega⟩
    have h0 := h 0 (by omega)
    simp only [Nat.add_zero] at h0
    rw [extLoop, if_pos (by omega), if_neg (by simpa using h0),
      ih n (i + 1) (j + 1) (by omega) (by omega)
        (fun t ht => by
          have := h (t + 1) (by omega)
          rwa [show i + (t + 1) = i + 1 + t by omega, show j + (t + 1) = j + 1 + t by omega]
            at this)]
    congr 1
    omega

theorem length_renderedName (m : Image) (a nb nx : Nat) :
    (renderedName m a nb nx).length = nb + (if nx = 0 then 0 else nx + 1) := by
  unfold renderedName
  split <;> simp

theorem renderedName_base (m : Image) (a nb nx i : Nat) (hi : i < nb) :
    (renderedName m a nb nx).getD i 0 = DIR_Name m a i := by
  unfold renderedName
  rw [List.getD_append _ _ _ _ (by simpa using hi),
    List.getD_eq_getElem _ _ (by simpa using hi)]
  simp

theorem renderedName_dot (m : Image) (a nb nx : Nat) (hx : nx ≠ 0) :
    (renderedName m a nb nx).getD nb 0 = 46 := by
  unfold renderedName
  rw [List.getD_append_right _ _ _ _ (by simp), if_neg hx]
  simp

theorem renderedName_ext (m : Image) (a nb nx t : Nat) (ht : t < nx) :
    (renderedName m a nb nx).getD (nb + 1 + t) 0 = DIR_Name m a (8 + t) := by
  unfold renderedName
  rw [List.getD_append_right _ _ _ _ (by simp; omega), if_neg (by omega)]
  simp only [List.length_map, List.length_range]
  rw [show nb + 1 + t - nb = t + 1 by omega, List.getD_cons_succ,
    List.getD_eq_getElem _ _ (by simpa using ht)]
  simp

theorem getD_map_char (toChar : Nat → Int) (l : List Nat) (i : Nat) (hi : i < l.length) :
    (l.map toChar).getD i 0 = toChar (l.getD i 0) := by
  rw [List.getD_eq_getElem _ _ (by simpa using hi), List.getD_eq_getElem _ _ hi]
  simp

/-- The matcher accepts a file name made of the name bytes 1 to `nb - 1` of the entry
after any first character, then, when `nx` is not 0, a dot and the `nx` extension bytes,
when the base is padded with a space after `nb` bytes and the extension after `nx`. -/
theorem matchEntry_of_shape (F : List Int) (m : Image) (a nb nx : Nat)
    (hlen : F.length = nb + (if nx = 0 then 0 else nx + 1))
    (h0 : DIR_Name m a 0 = 0xe5) (hnb1 : 1 ≤ nb)
    (gbase : ∀ i, 1 ≤ i → i < nb → F.getD i 0 ≠ 46 ∧ F.getD i 0 = (DIR_Name m a i : Int))
    (gdot : nx ≠ 0 → F.getD nb 0 = 46)
    (gext : ∀ t, t < nx → F.getD (nb + 1 + t) 0 = (DIR_Name m a (8 + t) : Int))
    (hpadb : nb = 8 ∨ DIR_Name m a nb = 32)
    (hpadx : 8 + nx = 11 ∨ DIR_Name m a (8 + nx) = 32) :
    matchEntry F m a = true := by
  unfold matchEntry
  by_cases hx0 : nx = 0
  · -- no extension
    rw [if_pos hx0, Nat.add_zero] at hlen
    have h8 : DIR_Name m a 8 = 32 := by
      rcases hpadx with h | h
      · omega
      · rwa [hx0, Nat.add_zero] at h
    rcases Nat.lt_or_ge 1 nb with h2 | h2
    · -- the base loop ends at the last character
      have hw := nameLoop_walk F m a (nb - 2) 2 1 (by omega)
        (fun t ht1 ht2 => gbase t ht1 (by omega))
      rw [show 2 + (nb - 2) = F.length by omega, show 1 + (nb - 2) = nb - 1 by omega] at hw
      obtain ⟨g1, g2⟩ := gbase (nb - 1) (by omega) (by omega)
      have hstep : nameLoop F m a 2 (nb - 1) = (true, nb - 1) := by
        rw [nameLoop, if_pos (by omega), if_neg g1, if_neg (by simpa using g2),
          if_pos (by omega)]
      have he := extLoop_walk F m a 0 F.length (nb - 1 + 1) 8 (by omega)
        (Nat.zero_le _) (fun t ht => by omega)
      simp only [hw, hstep, extPassed, he, Nat.add_zero]
      simp [h0, h8]
    · -- a name of one character
      have h1 : nb = 1 := by omega
      have hb1 : DIR_Name m a 1 = 32 := by
        rcases hpadb with h | h
        · omega
        · rwa [h1] at h
      simp [autoPass, hlen, h1, h0, hb1, h8]
  · -- a base, a dot and an extension
    rw [if_neg hx0] at hlen
    have hw := nameLoop_walk F m a (nb - 1) (nx + 2) 1 (by omega)
      (fun t ht1 ht2 => gbase t ht1 (by omega))
    rw [show nx + 2 + (nb - 1) = F.length by omega, show 1 + (nb - 1) = nb by omega] at hw
    have hstep : nameLoop F m a (nx + 2) nb = (true, nb) := by
      rw [nameLoop, if_pos (by omega), if_pos (gdot hx0)]
      simp [hpadb]
    have he := extLoop_walk F m a nx F.length (nb + 1) 8 (by omega) (by omega) gext
    simp only [hw, hstep, extPassed, he]
    simp [h0, hpadx]

/-- The matcher accepts the rendered name of a well-formed short file entry against the
entry with `0xe5` as its first name byte, when a `char` that holds a dot or a name byte
after the first has the value of the byte. -/
theorem matchEntry_rendered (toChar : Nat → Int) (hdot : toChar 46 = 46)
    (m : Image) (a nb nx : Nat) (hwf : WellFormedShort m a nb nx)
    (hchar : ∀ i, 1 ≤ i → i < 11 → toChar (DIR_Name m a i) = (DIR_Name m a i : Int)) :
    matchEntry ((renderedName m a nb nx).map toChar) (wr8 m a 0xe5) a = true := by
  obtain ⟨_, hnb1, hnb, hnx, hb, hp, hx, hq⟩ := hwf
  have hlen0 := length_renderedName m a nb nx
  apply matchEntry_of_shape _ _ a nb nx (by rw [List.length_map, hlen0])
    (DIR_Name_erased_zero m a) hnb1
  · intro i h1 h2
    rw [getD_map_char _ _ _ (by rw [hlen0]; omega), renderedName_base m a nb nx i h2,
      hchar i h1 (by omega), DIR_Name_erased m a i h1]
    exact ⟨by have := (hb i h2).2; omega, rfl⟩
  · intro h0
    rw [getD_map_char _ _ _ (by rw [hlen0, if_neg h0]; omega), renderedName_dot m a nb nx h0]
    exact hdot
  · intro t ht
    rw [getD_map_char _ _ _ (by rw [hlen0, if_neg (by omega)]; omega),
      renderedName_ext m a nb nx t ht, hchar (8 + t) (by omega) (by omega),
      DIR_Name_erased m a (8 + t) (by omega)]
  · rcases Nat.lt_or_ge nb 8 with h | h
    · right; rw [DIR_Name_erased m a nb hnb1]; exact hp nb h (Nat.le_refl _)
    · left; omega
  · rcases Nat.lt_or_ge nx 3 with h | h
    · right; rw [DIR_Name_erased m a (8 + nx) (by omega)]; exact hq nx h (Nat.le_refl _)
    · left; omega

theorem printed_renderedName (m : Image) (a nb nx : Nat)
    (hnul : ∀ i, i < 11 → DIR_Name m a i ≠ 0) (hnb : nb ≤ 8) (hnx : nx ≤ 3) :
    printed (renderedName m a nb nx) = renderedName m a nb nx := by
  unfold printed
  rw [List.takeWhile_eq_self_iff]
  intro x hx
  have : x ≠ 0 := by
    unfold renderedName at hx
    rcases List.mem_append.mp hx with h | h
    · obtain ⟨i, hi, rfl⟩ := List.mem_map.mp h
      exact hnul i (by have := List.mem_range.mp hi; omega)
    · split at h
      · simp at h
      · rcases List.mem_cons.mp h with h | h
        · omega
        · obtain ⟨t, ht, rfl⟩ := List.mem_map.mp h
          exact hnul (8 + t) (by have := List.mem_range.mp ht; omega)
  simpa using this

/-! ## C22: list mode and the matcher agree on names -/

/-- C22, as stated, fails: `nulNameEntry` is a well-formed short file entry whose base is
the two bytes `A` and NUL, neither a space nor a dot. List mode stores `A`, NUL, `.TXT` in
`totalFileName` and `%s` prints `A`; the matcher rejects the file name `A` against the
entry with `0xe5` as its first name byte, whether `char` is signed or not, because the
second name byte is not a space. -/
theorem name_with_nul_not_matched :
    WellFormedShort nulNameEntry 0 2 3 ∧
    totalFileName nulNameEntry 0 = [65, 0, 46, 84, 88, 84] ∧
    shownName signedChar nulNameEntry 0 = [65] ∧
    shownName unsignedChar nulNameEntry 0 = [65] ∧
    matchEntry [65] (wr8 nulNameEntry 0 0xe5) 0 = false := by
  decide

/-- Where `char` is signed the matcher rejects the name list mode shows for
`highByteEntry`, a well-formed short file entry without a NUL whose fourth name byte is
`0x90`: line 227 compares the `char`, which is negative, with the `unsigned char` of the
entry. Where `char` is unsigned the matcher accepts the name. -/
theorem high_byte_name_not_matched :
    WellFormedShort highByteEntry 0 4 3 ∧ (∀ i, i < 11 → DIR_Name highByteEntry 0 i ≠ 0) ∧
    matchEntry (shownName signedChar highByteEntry 0) (wr8 highByteEntry 0 0xe5) 0 = false ∧
    matchEntry (shownName unsignedChar highByteEntry 0) (wr8 highByteEntry 0 0xe5) 0
      = true := by
  decide

/-- C22 (amended). For every well-formed short file entry none of whose name bytes is NUL,
list mode prints the base, then a dot and the extension when the extension is not empty;
the printed name has at most 12 characters; and the matcher accepts it against the entry
with `0xe5` as its first name byte: for every such entry where `char` is unsigned, and for
the entries whose name bytes after the first are below `0x80` where `char` is signed. -/
theorem listed_name_is_matched (m : Image) (a nb nx : Nat)
    (hwf : WellFormedShort m a nb nx) (hnul : ∀ i, i < 11 → DIR_Name m a i ≠ 0) :
    printed (totalFileName m a) = renderedName m a nb nx ∧
    (printed (totalFileName m a)).length ≤ 12 ∧
    matchEntry (shownName unsignedChar m a) (wr8 m a 0xe5) a = true ∧
    ((∀ i, 1 ≤ i → i < 11 → DIR_Name m a i < 128) →
      matchEntry (shownName signedChar m a) (wr8 m a 0xe5) a = true) := by
  have hpr : printed (totalFileName m a) = renderedName m a nb nx := by
    rw [totalFileName_wellFormed m a nb nx hwf]
    exact printed_renderedName m a nb nx hnul hwf.2.2.1 hwf.2.2.2.1
  refine ⟨hpr, ?_, ?_, ?_⟩
  · rw [hpr, length_renderedName]
    have h1 := hwf.2.2.1
    have h2 := hwf.2.2.2.1
    split <;> omega
  · unfold shownName
    rw [hpr]
    exact matchEntry_rendered unsignedChar rfl m a nb nx hwf (fun _ _ _ => rfl)
  · intro hascii
    unfold shownName
    rw [hpr]
    exact matchEntry_rendered signedChar rfl m a nb nx hwf
      (fun i h1 h2 => by unfold signedChar; rw [if_pos (hascii i h1 h2)])

/-- The theorem `listed_name_is_matched` on the entry `README  TXT` of `archiveImage`: list
mode prints `README.TXT`, and the matcher accepts that name against the entry with `0xe5`
as its first name byte. -/
theorem listed_name_is_matched_witness :
    WellFormedShort archiveImage 1536 6 3 ∧
    printed (totalFileName archiveImage 1536) = renderedName archiveImage 1536 6 3 ∧
    (printed (totalFileName archiveImage 1536)).length ≤ 12 ∧
    matchEntry (shownName unsignedChar archiveImage 1536) (wr8 archiveImage 1536 0xe5) 1536
      = true ∧
    ((∀ i, 1 ≤ i → i < 11 → DIR_Name archiveImage 1536 i < 128) →
      matchEntry (shownName signedChar archiveImage 1536) (wr8 archiveImage 1536 0xe5) 1536
        = true) :=
  ⟨by decide, listed_name_is_matched archiveImage 1536 6 3 (by decide) (by decide)⟩

end Fat32Recover
